import Mathlib

/-!
Verification development for `src/components/CanvasEditor.jsx`.

The component's pure parts are embedded as Lean functions: the block pixelation filter
(`applyPixelation`), the fit transform (`getImageDimensions`, `getRelativePos`), the
renderer (`renderCanvas`: the `getImageData` call that may throw, the block size handed to
the filter, and the labels placed and outlined), and the pointer handlers
(`handleMouseDown`, `handleMouseMove`, `handleMouseUp`), whose refs and callback calls
become an explicit state and a list of notifications.

Numbers. Loop counters and the block size are integers. The `width` and `height` handed
to the filter are rationals, because the renderer passes `image.width * scale`, which need
not be whole; the index arithmetic of the filter is exact, which is what the program
computes for whole-number and dyadic widths. The geometry code works on `JSNum`: rationals
extended with the infinities and `NaN` that a division by zero produces. It is embedded
twice: with exact operations, and, in the namespace `Rounded`, with the result of every
operation rounded by a function `rnd`. `roundDouble` is the rounding of IEEE 754 binary64
to nearest, ties to even, with gradual underflow and overflow to an infinity (the sign of
a zero is not modelled); `Rounded` with `roundDouble` is the arithmetic of the program,
and with `JSNum.fin` it is the exact code.
-/

namespace CanvasEditor

/-! The pixel buffer -/

/-- One element of a `Uint8ClampedArray`. -/
abbrev Byte := Fin 256

/-- Reading `data[i]` from a `Uint8ClampedArray`: `none` is `undefined`, the result for an
index that is not a whole number, is negative, or is past the end. -/
def readAt (data : List Byte) (i : ℚ) : Option Byte :=
  if i.den = 1 ∧ 0 ≤ i then data[i.num.toNat]? else none

/-- The byte a `Uint8ClampedArray` stores for a value read from such an array:
`undefined` converts to `NaN`, which is stored as `0`. -/
def toUint8 (v : Option Byte) : Byte := v.getD 0

/-- The assignment `data[i] = v` on a `Uint8ClampedArray`: ignored unless `i` is a whole
number inside the array. -/
def writeAt (data : List Byte) (i : ℚ) (v : Option Byte) : List Byte :=
  if i.den = 1 ∧ 0 ≤ i then data.set i.num.toNat (toUint8 v) else data

/-! The pixelation filter (lines 16-37) -/

/-- Lines 27-32: `for (let px = x; px < Math.min(x + pixelSize, width); px++)`, with
`xEnd` the value of the `Math.min`. -/
def applyPixelation.loopPx (width : ℚ) (py : ℤ) (xEnd : ℚ) (r g b : Option Byte)
    (px : ℤ) (data : List Byte) : List Byte :=
  if (px : ℚ) < xEnd then
    let index : ℚ := ((py : ℚ) * width + px) * 4
    let data := writeAt data index r
    let data := writeAt data (index + 1) g
    let data := writeAt data (index + 2) b
    applyPixelation.loopPx width py xEnd r g b (px + 1) data
  else data
termination_by (⌈xEnd⌉ - px).toNat
decreasing_by
  have h1 : px < ⌈xEnd⌉ := Int.lt_ceil.mpr (by assumption)
  omega

/-- Lines 26-33: `for (let py = y; py < Math.min(y + pixelSize, height); py++)`, with
`yEnd` the value of the `Math.min`; `x` is where each inner loop starts. -/
def applyPixelation.loopPy (width : ℚ) (x : ℤ) (xEnd yEnd : ℚ) (r g b : Option Byte)
    (py : ℤ) (data : List Byte) : List Byte :=
  if (py : ℚ) < yEnd then
    applyPixelation.loopPy width x xEnd yEnd r g b (py + 1)
      (applyPixelation.loopPx width py xEnd r g b x data)
  else data
termination_by (⌈yEnd⌉ - py).toNat
decreasing_by
  have h1 : py < ⌈yEnd⌉ := Int.lt_ceil.mpr (by assumption)
  omega

/-- Lines 21-34: `for (let x = 0; x < width; x += pixelSize)`, entered at `x`. Each
round samples the pixel at `(x, y)` from the current buffer and fills the tile. -/
def applyPixelation.loopX (width height : ℚ) (pixelSize : ℤ) (hk : 0 < pixelSize) (y : ℤ)
    (x : ℤ) (data : List Byte) : List Byte :=
  if (x : ℚ) < width then
    let pixelIndex : ℚ := ((y : ℚ) * width + x) * 4
    let r := readAt data pixelIndex
    let g := readAt data (pixelIndex + 1)
    let b := readAt data (pixelIndex + 2)
    applyPixelation.loopX width height pixelSize hk y (x + pixelSize)
      (applyPixelation.loopPy width x (min ((x : ℚ) + pixelSize) width)
        (min ((y : ℚ) + pixelSize) height) r g b y data)
  else data
termination_by (⌈width⌉ - x).toNat
decreasing_by
  have h1 : x < ⌈width⌉ := Int.lt_ceil.mpr (by assumption)
  omega

/-- Lines 20-35: `for (let y = 0; y < height; y += pixelSize)`, entered at `y`. -/
def applyPixelation.loopY (width height : ℚ) (pixelSize : ℤ) (hk : 0 < pixelSize)
    (y : ℤ) (data : List Byte) : List Byte :=
  if (y : ℚ) < height then
    applyPixelation.loopY width height pixelSize hk (y + pixelSize)
      (applyPixelation.loopX width height pixelSize hk y 0 data)
  else data
termination_by (⌈height⌉ - y).toNat
decreasing_by
  have h1 : y < ⌈height⌉ := Int.lt_ceil.mpr (by assumption)
  omega

/-- Lines 16-37. `data` is the array `imageData.data` of the context, and the result is
the array that `putImageData` writes back (the untouched array when the guard of line 17
returns). The loops are total because the guard leaves `0 < pixelSize`. The index
`(py * width + px) * 4` is computed exactly, as the program computes it for a whole-number
or dyadic `width`; for another `width` the program rounds the product and the sum. -/
def applyPixelation (data : List Byte) (width height : ℚ) (pixelSize : ℤ) : List Byte :=
  if h : pixelSize ≤ 0 then data
  else applyPixelation.loopY width height pixelSize (by omega) 0 data

/-- The value stored in channel `c` of a filled pixel: `r`, `g` or `b`. -/
def chan (r g b : Option Byte) (c : ℤ) : Byte :=
  if c = 0 then toUint8 r else if c = 1 then toUint8 g else toUint8 b

/-! JavaScript numbers for the geometry code -/

/-- A JavaScript number: a finite value (a rational; the two zeros are identified with
`+0`), the two infinities, or `NaN`. The operations `add`, `sub`, `mul` and `div` below are
the exact ones, without the rounding of doubles; the namespace `Rounded` further down
holds the same code with every operation rounded. -/
inductive JSNum where
  | fin (q : ℚ)
  | posInf
  | negInf
  | nan
  deriving DecidableEq

namespace JSNum

/-- JavaScript `a + b`, computed exactly (no rounding to a double). -/
def add : JSNum → JSNum → JSNum
  | fin a, fin b => fin (a + b)
  | nan, _ => nan
  | _, nan => nan
  | posInf, negInf => nan
  | negInf, posInf => nan
  | posInf, _ => posInf
  | _, posInf => posInf
  | negInf, _ => negInf
  | _, negInf => negInf

/-- JavaScript unary minus. -/
def neg : JSNum → JSNum
  | fin a => fin (-a)
  | posInf => negInf
  | negInf => posInf
  | nan => nan

/-- JavaScript `a - b`, computed exactly (no rounding to a double). -/
def sub (a b : JSNum) : JSNum := add a (neg b)

/-- The infinity carrying the sign of a nonzero rational. -/
def infOfSign (s : ℚ) : JSNum := if 0 < s then posInf else negInf

/-- JavaScript `a * b`, computed exactly (no rounding to a double). -/
def mul : JSNum → JSNum → JSNum
  | fin a, fin b => fin (a * b)
  | nan, _ => nan
  | _, nan => nan
  | fin a, posInf => if a = 0 then nan else infOfSign a
  | fin a, negInf => if a = 0 then nan else infOfSign (-a)
  | posInf, fin b => if b = 0 then nan else infOfSign b
  | negInf, fin b => if b = 0 then nan else infOfSign (-b)
  | posInf, posInf => posInf
  | posInf, negInf => negInf
  | negInf, posInf => negInf
  | negInf, negInf => posInf

/-- JavaScript `a / b`, computed exactly (no rounding to a double); a zero divisor is
`+0`, so a finite nonzero `a` over zero is the infinity of the sign of `a`, and `0 / 0` is
`NaN`. -/
def div : JSNum → JSNum → JSNum
  | fin a, fin b => if b = 0 then (if a = 0 then nan else infOfSign a) else fin (a / b)
  | nan, _ => nan
  | _, nan => nan
  | fin _, posInf => fin 0
  | fin _, negInf => fin 0
  | posInf, fin b => if 0 ≤ b then posInf else negInf
  | negInf, fin b => if 0 ≤ b then negInf else posInf
  | posInf, posInf => nan
  | posInf, negInf => nan
  | negInf, posInf => nan
  | negInf, negInf => nan

/-- JavaScript `Math.min(a, b)`. -/
def min : JSNum → JSNum → JSNum
  | fin a, fin b => fin (Min.min a b)
  | nan, _ => nan
  | _, nan => nan
  | negInf, _ => negInf
  | _, negInf => negInf
  | posInf, b => b
  | a, posInf => a

/-- JavaScript `a <= b` (false as soon as one side is `NaN`). -/
def le : JSNum → JSNum → Bool
  | fin a, fin b => decide (a ≤ b)
  | nan, _ => false
  | _, nan => false
  | negInf, _ => true
  | _, posInf => true
  | posInf, _ => false
  | _, negInf => false

/-- JavaScript `a >= b`. -/
def ge (a b : JSNum) : Bool := le b a

instance : Add JSNum := ⟨add⟩
instance : Sub JSNum := ⟨sub⟩
instance : Mul JSNum := ⟨mul⟩
instance : Div JSNum := ⟨div⟩

/-- JavaScript `Math.floor(a)`. -/
def floor : JSNum → JSNum
  | fin a => fin (⌊a⌋ : ℤ)
  | posInf => posInf
  | negInf => negInf
  | nan => nan

/-- JavaScript `Math.max(a, b)`. -/
def max : JSNum → JSNum → JSNum
  | fin a, fin b => fin (Max.max a b)
  | nan, _ => nan
  | _, nan => nan
  | posInf, _ => posInf
  | _, posInf => posInf
  | negInf, b => b
  | a, negInf => a

end JSNum

/-! Rounding to a double -/

/-- The number of halvings that bring `n` below 2, at most `fuel` of them; with
`fuel = n` this is `⌊log₂ n⌋` for `n ≥ 1`. -/
def log2Fuel : ℕ → ℕ → ℕ
  | 0, _ => 0
  | fuel + 1, n => if 2 ≤ n then log2Fuel fuel (n / 2) + 1 else 0

/-- The integer `⌊log₂ a⌋` of a positive rational `a`. -/
def floorLog2 (a : ℚ) : ℤ :=
  let c : ℤ := (log2Fuel a.num.natAbs a.num.natAbs : ℤ) - (log2Fuel a.den a.den : ℤ)
  if (2 : ℚ) ^ c ≤ a then c else c - 1

/-- The nearest integer, the even one at a tie. -/
def roundHalfEven (m : ℚ) : ℤ :=
  let f := ⌊m⌋
  if m - f < 1 / 2 then f
  else if 1 / 2 < m - f then f + 1
  else if f % 2 = 0 then f else f + 1

/-- The exponent of the unit in the last place of a double near the nonzero `q`: 52 below
the binary exponent of `q` (53 significant bits), and not below `-1074`, the exponent of
the smallest subnormal number. -/
def ulpExponent (q : ℚ) : ℤ := max (floorLog2 |q| - 52) (-1074)

/-- Rounding to the precision of binary64, ties to even, before the check for overflow:
the multiple of `2 ^ ulpExponent q` nearest to `q`. -/
def roundFinite (q : ℚ) : ℚ :=
  if q = 0 then 0
  else (roundHalfEven (q / (2 : ℚ) ^ ulpExponent q) : ℚ) * (2 : ℚ) ^ ulpExponent q

/-- The double that an operation with the exact result `q` returns: IEEE 754 binary64,
round to nearest, ties to even, with gradual underflow, and with overflow to an infinity
when the rounded magnitude reaches `2 ^ 1024`. The sign of a zero result is not modelled. -/
def roundDouble (q : ℚ) : JSNum :=
  if ((2 ^ 1024 : ℕ) : ℚ) ≤ roundFinite q then .posInf
  else if roundFinite q ≤ -((2 ^ 1024 : ℕ) : ℚ) then .negInf
  else .fin (roundFinite q)

/-- The number an operation returns, given its exact result: `rnd` turns a finite exact
result into the number returned; an infinity or `NaN` stays. -/
def JSNum.round (rnd : ℚ → JSNum) : JSNum → JSNum
  | .fin q => rnd q
  | .posInf => .posInf
  | .negInf => .negInf
  | .nan => .nan

/-! Data model of the editor -/

/-- The `image` prop: only its `width` and `height` are read. -/
structure Image where
  width : ℚ
  height : ℚ
  deriving DecidableEq

/-- The canvas element behind `canvasRef.current`: its `width` and `height`, and the
`left` and `top` of `getBoundingClientRect()`. -/
structure Canvas where
  width : ℚ
  height : ℚ
  rectLeft : ℚ
  rectTop : ℚ
  deriving DecidableEq

/-- The object returned by `getImageDimensions`. -/
structure ImgDims where
  width : JSNum
  height : JSNum
  x : JSNum
  y : JSNum
  scale : JSNum
  deriving DecidableEq

/-- A pair `{ x, y }` of JavaScript numbers. -/
structure JSPoint where
  x : JSNum
  y : JSNum
  deriving DecidableEq

/-- A mouse event: only `clientX` and `clientY` are read. -/
structure MouseEvent where
  clientX : ℚ
  clientY : ℚ
  deriving DecidableEq

/-- One entry of the `texts` prop. `scale` and `pixelation` may be absent (the renderer
defaults them to `1` and `0`). -/
structure Label where
  id : ℕ
  x : ℚ
  y : ℚ
  content : String
  fontSize : ℚ
  color : String
  strokeWidth : ℚ
  uppercase : Bool
  scale : Option ℚ
  pixelation : Option ℚ
  deriving DecidableEq

/-- What the handlers take from the host: `ctx.measureText(s).width` under the font
`bold ${fontSize}px ...`, and `String.prototype.toUpperCase`. -/
structure TextHost where
  measureText : ℚ → String → ℚ
  toUpperCase : String → String

/-- The three refs that hold the drag state: `isDraggingRef`, `dragTextIdRef` (`none` is
`null`) and `dragOffsetRef`. -/
structure DragState where
  isDragging : Bool
  dragTextId : Option ℕ
  dragOffset : JSPoint
  deriving DecidableEq

/-- The refs as `useRef` initialises them (lines 12-14). -/
def DragState.initial : DragState :=
  { isDragging := false, dragTextId := none, dragOffset := ⟨JSNum.fin 0, JSNum.fin 0⟩ }

/-- A call of one of the two callback props. -/
inductive Notification where
  | onTextSelect (id : ℕ)
  | onTextChange (textId : Option ℕ) (pos : JSPoint)
  deriving DecidableEq

/-- The props and host objects a handler reads when an event arrives. -/
structure Props where
  host : TextHost
  image : Option Image
  canvas : Canvas
  texts : List Label

/-! Fit transform -/

/-- Lines 38-50. `canvas` is `canvasRef.current`, `none` when it is `null`. -/
def getImageDimensions (image : Option Image) (canvas : Option Canvas) : ImgDims :=
  match image with
  | none => { width := .fin 0, height := .fin 0, x := .fin 0, y := .fin 0, scale := .fin 1 }
  | some image =>
    match canvas with
    | none => { width := .fin 0, height := .fin 0, x := .fin 0, y := .fin 0, scale := .fin 1 }
    | some canvas =>
      let maxWidth := JSNum.fin canvas.width
      let maxHeight := JSNum.fin canvas.height
      let scale := JSNum.min (maxWidth / JSNum.fin image.width) (maxHeight / JSNum.fin image.height)
      let width := JSNum.fin image.width * scale
      let height := JSNum.fin image.height * scale
      let x := (maxWidth - width) / JSNum.fin 2
      let y := (maxHeight - height) / JSNum.fin 2
      { width := width, height := height, x := x, y := y, scale := scale }

/-- Lines 80-81 of `renderCanvas`: where a label centre `(text.x, text.y)` lands on the
canvas. -/
def renderCanvas.canvasPos (imgDims : ImgDims) (textX textY : ℚ) : JSPoint :=
  { x := imgDims.x + JSNum.fin textX * imgDims.scale,
    y := imgDims.y + JSNum.fin textY * imgDims.scale }

/-- Lines 136-138 of `getRelativePos`: the canvas point `(mouseX, mouseY)` in image space. -/
def getRelativePos.ofDims (imgDims : ImgDims) (mouseX mouseY : JSNum) : JSPoint :=
  { x := (mouseX - imgDims.x) / imgDims.scale,
    y := (mouseY - imgDims.y) / imgDims.scale }

/-- Lines 130-139. -/
def getRelativePos (image : Option Image) (canvas : Canvas) (e : MouseEvent) : JSPoint :=
  let mouseX := JSNum.fin e.clientX - JSNum.fin canvas.rectLeft
  let mouseY := JSNum.fin e.clientY - JSNum.fin canvas.rectTop
  let imgDims := getImageDimensions image (some canvas)
  getRelativePos.ofDims imgDims mouseX mouseY

/-! Pieces of the renderer -/

/-- Line 69 of `renderCanvas`, in exact arithmetic: the block size handed to
`applyPixelation`. The line is reached when `pixelation > 0` and the `getImageData` call
of line 64 did not throw; `renderCanvas` below has both conditions. -/
def renderCanvas.pixelSize (pixelation : ℚ) (imgDims : ImgDims) : JSNum :=
  JSNum.max (JSNum.fin 1) (JSNum.floor (JSNum.fin pixelation * (imgDims.width / JSNum.fin 200)))

/-- The arguments `(x, y, w, h)` of a `strokeRect` call. -/
structure StrokeRect where
  x : ℚ
  y : ℚ
  w : ℚ
  h : ℚ
  deriving DecidableEq

/-- What one round of `texts.forEach` (lines 75-113) does with the canvas: the arguments
of `ctx.translate` and of `ctx.scale`, the text drawn at the origin of the translated and
scaled frame, and, for the selected label, the dashed rectangle stroked in that frame. -/
structure LabelDraw where
  canvasX : JSNum
  canvasY : JSNum
  textScale : ℚ
  displayText : String
  outline : Option StrokeRect

/-- Lines 85 and 145: the text that is drawn and measured. -/
def displayText (host : TextHost) (text : Label) : String :=
  if text.uppercase then host.toUpperCase text.content else text.content

/-- Lines 76-112: the body of `texts.forEach`, for one label. `textScale` defaults to `1`
when the label has no `scale`. -/
def renderCanvas.drawLabel (host : TextHost) (image : Option Image) (canvas : Canvas)
    (selectedTextId : Option ℕ) (text : Label) : LabelDraw :=
  let textScale := text.scale.getD 1
  let imgDims := getImageDimensions image (some canvas)
  let canvasX := imgDims.x + JSNum.fin text.x * imgDims.scale
  let canvasY := imgDims.y + JSNum.fin text.y * imgDims.scale
  let shown := displayText host text
  { canvasX := canvasX,
    canvasY := canvasY,
    textScale := textScale,
    displayText := shown,
    outline :=
      if some text.id = selectedTextId then
        let textWidth := host.measureText text.fontSize shown
        let textHeight := text.fontSize
        some { x := -textWidth / 2 - 15, y := -textHeight / 2 - 15,
               w := textWidth + 30, h := textHeight + 30 }
      else none }

/-- Lines 75-113: `texts.forEach`, the labels drawn in list order, once the lines before
it have run without an exception (`renderCanvas` below has that path). -/
def renderCanvas.labels (host : TextHost) (image : Option Image) (canvas : Canvas)
    (texts : List Label) (selectedTextId : Option ℕ) : List LabelDraw :=
  texts.map (renderCanvas.drawLabel host image canvas selectedTextId)

/-! Pointer handlers -/

/-- Lines 145-154: the condition of the `if` in the loop of `handleMouseDown`. -/
def handleMouseDown.hit (host : TextHost) (text : Label) (pos : JSPoint) : Bool :=
  let textWidth := host.measureText text.fontSize (displayText host text)
  let textHeight := text.fontSize
  JSNum.ge pos.x (JSNum.fin (text.x - textWidth / 2 - 25)) &&
  JSNum.le pos.x (JSNum.fin (text.x + textWidth / 2 + 25)) &&
  JSNum.ge pos.y (JSNum.fin (text.y - textHeight / 2 - 25)) &&
  JSNum.le pos.y (JSNum.fin (text.y + textHeight / 2 + 25))

/-- Lines 142-164: the loop `for (let i = texts.length - 1; i >= 0; i--)`, entered with
`n = i + 1`. `some text` is the iteration whose `if` fired (the handler returns from
inside it), `none` is the loop running to its end. -/
def handleMouseDown.loop (host : TextHost) (texts : List Label) (pos : JSPoint) :
    (n : ℕ) → n ≤ texts.length → Option Label
  | 0, _ => none
  | i + 1, h =>
    let text := texts[i]
    if handleMouseDown.hit host text pos then some text
    else handleMouseDown.loop host texts pos i (Nat.le_of_succ_le h)

/-- Lines 140-165. The result is the new drag state and the callbacks called, in order. -/
def handleMouseDown (props : Props) (st : DragState) (e : MouseEvent) :
    DragState × List Notification :=
  let pos := getRelativePos props.image props.canvas e
  match handleMouseDown.loop props.host props.texts pos props.texts.length (Nat.le_refl _) with
  | some text =>
    ({ isDragging := true,
       dragTextId := some text.id,
       dragOffset := { x := pos.x - JSNum.fin text.x, y := pos.y - JSNum.fin text.y } },
     [Notification.onTextSelect text.id])
  | none => (st, [])

/-- Lines 166-174. -/
def handleMouseMove (props : Props) (st : DragState) (e : MouseEvent) :
    DragState × List Notification :=
  if !st.isDragging then (st, [])
  else
    let pos := getRelativePos props.image props.canvas e
    let textId := st.dragTextId
    (st, [Notification.onTextChange textId
      { x := pos.x - st.dragOffset.x, y := pos.y - st.dragOffset.y }])

/-- Lines 175-178. -/
def handleMouseUp (st : DragState) : DragState × List Notification :=
  ({ st with isDragging := false, dragTextId := none }, [])

/-- The four events the canvas element listens to (lines 183-186). -/
inductive PointerEvent where
  | mouseDown (e : MouseEvent)
  | mouseMove (e : MouseEvent)
  | mouseUp
  | mouseLeave

/-- Lines 180-187: which handler each event is bound to. -/
def dispatch (props : Props) (st : DragState) : PointerEvent → DragState × List Notification
  | .mouseDown e => handleMouseDown props st e
  | .mouseMove e => handleMouseMove props st e
  | .mouseUp => handleMouseUp st
  | .mouseLeave => handleMouseUp st

/-- A sequence of events, each delivered with the props of its render; the callbacks of
all of them, in order. -/
def run (st : DragState) : List (Props × PointerEvent) → DragState × List Notification
  | [] => (st, [])
  | (props, ev) :: rest =>
    let r := dispatch props st ev
    let r' := run r.1 rest
    (r'.1, r.2 ++ r'.2)

/-! The renderer with its error path -/

/-- The exception thrown by `ctx.getImageData` at line 64. -/
inductive RenderError where
  | getImageData
  deriving DecidableEq

/-- Conversion of an argument declared `[EnforceRange] long`, as the four numbers of
`getImageData` are: the integer part toward zero; `none` (a `TypeError`) for a number that
is not finite or whose integer part lies outside `[-2^31, 2^31 - 1]`. -/
def enforceRangeLong : JSNum → Option ℤ
  | .fin q =>
    let i : ℤ := if 0 ≤ q then ⌊q⌋ else ⌈q⌉
    if -2 ^ 31 ≤ i ∧ i ≤ 2 ^ 31 - 1 then some i else none
  | _ => none

/-- Whether `ctx.getImageData(sx, sy, sw, sh)` throws because of its numbers: it does when
one of them fails the conversion (`TypeError`) and when the integer part of `sw` or of
`sh` is zero (`IndexSizeError`). A size beyond what the host can allocate is not
modelled. -/
def getImageData.throws (sx sy sw sh : JSNum) : Bool :=
  match enforceRangeLong sx, enforceRangeLong sy, enforceRangeLong sw, enforceRangeLong sh with
  | some _, some _, some w, some h => decide (w = 0 ∨ h = 0)
  | _, _, _, _ => true

/-- The arguments of the call `applyPixelation(pixelCtx, width, height, pixelSize)` of
line 70. -/
structure FilterCall where
  width : JSNum
  height : JSNum
  pixelSize : JSNum
  deriving DecidableEq

/-- What a run of `renderCanvas` that returns has done: the call of the filter, if any,
and the labels drawn. -/
structure Rendered where
  filterCall : Option FilterCall
  labels : List LabelDraw

/-- Lines 51-114, for a mounted canvas, in exact arithmetic. With an image and
`pixelation > 0`, line 64 calls `getImageData` on the fitted rectangle; when that throws,
the function is left before any label is drawn; otherwise the filter is called with the
block size of line 69 and the labels are drawn. The image is taken to be usable and
origin-clean, and `blur` does not enter what is recorded. -/
def renderCanvas (host : TextHost) (image : Option Image) (canvas : Canvas) (pixelation : ℚ)
    (texts : List Label) (selectedTextId : Option ℕ) : Except RenderError Rendered :=
  match image with
  | none =>
    .ok { filterCall := none,
          labels := renderCanvas.labels host image canvas texts selectedTextId }
  | some _ =>
    let imgDims := getImageDimensions image (some canvas)
    if 0 < pixelation then
      if getImageData.throws imgDims.x imgDims.y imgDims.width imgDims.height then
        .error .getImageData
      else
        .ok { filterCall :=
                some { width := imgDims.width, height := imgDims.height,
                       pixelSize := renderCanvas.pixelSize pixelation imgDims },
              labels := renderCanvas.labels host image canvas texts selectedTextId }
    else
      .ok { filterCall := none,
            labels := renderCanvas.labels host image canvas texts selectedTextId }

/-! The same code with every arithmetic operation rounded

Each function below repeats the function of the same name above, with the result of
every `+`, `-`, `*` and `/` of the source passed through `JSNum.round rnd`, where `rnd`
says which number an operation returns for a finite exact result. With
`rnd = roundDouble` this is the arithmetic of the program; with `rnd = JSNum.fin` it is
the exact arithmetic of the functions above. `Math.min`, `Math.max`, `Math.floor`, the
unary minus and the comparisons are exact in doubles. -/

/-- Lines 38-50, rounded. -/
def Rounded.getImageDimensions (rnd : ℚ → JSNum) (image : Option Image)
    (canvas : Option Canvas) : ImgDims :=
  match image with
  | none => { width := .fin 0, height := .fin 0, x := .fin 0, y := .fin 0, scale := .fin 1 }
  | some image =>
    match canvas with
    | none => { width := .fin 0, height := .fin 0, x := .fin 0, y := .fin 0, scale := .fin 1 }
    | some canvas =>
      let maxWidth := JSNum.fin canvas.width
      let maxHeight := JSNum.fin canvas.height
      let scale := JSNum.min (JSNum.round rnd (maxWidth / JSNum.fin image.width))
        (JSNum.round rnd (maxHeight / JSNum.fin image.height))
      let width := JSNum.round rnd (JSNum.fin image.width * scale)
      let height := JSNum.round rnd (JSNum.fin image.height * scale)
      let x := JSNum.round rnd (JSNum.round rnd (maxWidth - width) / JSNum.fin 2)
      let y := JSNum.round rnd (JSNum.round rnd (maxHeight - height) / JSNum.fin 2)
      { width := width, height := height, x := x, y := y, scale := scale }

/-- Lines 80-81, rounded. -/
def Rounded.renderCanvas.canvasPos (rnd : ℚ → JSNum) (imgDims : ImgDims) (textX textY : ℚ) :
    JSPoint :=
  { x := JSNum.round rnd (imgDims.x + JSNum.round rnd (JSNum.fin textX * imgDims.scale)),
    y := JSNum.round rnd (imgDims.y + JSNum.round rnd (JSNum.fin textY * imgDims.scale)) }

/-- Lines 136-138, rounded. -/
def Rounded.getRelativePos.ofDims (rnd : ℚ → JSNum) (imgDims : ImgDims)
    (mouseX mouseY : JSNum) : JSPoint :=
  { x := JSNum.round rnd (JSNum.round rnd (mouseX - imgDims.x) / imgDims.scale),
    y := JSNum.round rnd (JSNum.round rnd (mouseY - imgDims.y) / imgDims.scale) }

/-- Lines 130-139, rounded. -/
def Rounded.getRelativePos (rnd : ℚ → JSNum) (image : Option Image) (canvas : Canvas)
    (e : MouseEvent) : JSPoint :=
  let mouseX := JSNum.round rnd (JSNum.fin e.clientX - JSNum.fin canvas.rectLeft)
  let mouseY := JSNum.round rnd (JSNum.fin e.clientY - JSNum.fin canvas.rectTop)
  let imgDims := Rounded.getImageDimensions rnd image (some canvas)
  Rounded.getRelativePos.ofDims rnd imgDims mouseX mouseY

/-- Line 69, rounded. -/
def Rounded.renderCanvas.pixelSize (rnd : ℚ → JSNum) (pixelation : ℚ) (imgDims : ImgDims) :
    JSNum :=
  JSNum.max (JSNum.fin 1)
    (JSNum.floor (JSNum.round rnd
      (JSNum.fin pixelation * JSNum.round rnd (imgDims.width / JSNum.fin 200))))

/-- The rectangle that `ctx.strokeRect(x, y, w, h)` strokes: none when an argument is not
finite, the call then returning without drawing. -/
def strokeRect : JSNum → JSNum → JSNum → JSNum → Option StrokeRect
  | .fin x, .fin y, .fin w, .fin h => some { x := x, y := y, w := w, h := h }
  | _, _, _, _ => none

/-- Lines 76-112, rounded. -/
def Rounded.renderCanvas.drawLabel (rnd : ℚ → JSNum) (host : TextHost) (image : Option Image)
    (canvas : Canvas) (selectedTextId : Option ℕ) (text : Label) : LabelDraw :=
  let textScale := text.scale.getD 1
  let imgDims := Rounded.getImageDimensions rnd image (some canvas)
  let canvasX := JSNum.round rnd (imgDims.x + JSNum.round rnd (JSNum.fin text.x * imgDims.scale))
  let canvasY := JSNum.round rnd (imgDims.y + JSNum.round rnd (JSNum.fin text.y * imgDims.scale))
  let shown := displayText host text
  { canvasX := canvasX,
    canvasY := canvasY,
    textScale := textScale,
    displayText := shown,
    outline :=
      if some text.id = selectedTextId then
        let textWidth := JSNum.fin (host.measureText text.fontSize shown)
        let textHeight := JSNum.fin text.fontSize
        strokeRect
          (JSNum.round rnd (JSNum.round rnd (JSNum.neg textWidth / JSNum.fin 2) - JSNum.fin 15))
          (JSNum.round rnd (JSNum.round rnd (JSNum.neg textHeight / JSNum.fin 2) - JSNum.fin 15))
          (JSNum.round rnd (textWidth + JSNum.fin 30))
          (JSNum.round rnd (textHeight + JSNum.fin 30))
      else none }

/-- Lines 75-113, rounded. -/
def Rounded.renderCanvas.labels (rnd : ℚ → JSNum) (host : TextHost) (image : Option Image)
    (canvas : Canvas) (texts : List Label) (selectedTextId : Option ℕ) : List LabelDraw :=
  texts.map (Rounded.renderCanvas.drawLabel rnd host image canvas selectedTextId)

/-- Lines 51-114, rounded. -/
def Rounded.renderCanvas (rnd : ℚ → JSNum) (host : TextHost) (image : Option Image)
    (canvas : Canvas) (pixelation : ℚ) (texts : List Label) (selectedTextId : Option ℕ) :
    Except RenderError Rendered :=
  match image with
  | none =>
    .ok { filterCall := none,
          labels := Rounded.renderCanvas.labels rnd host image canvas texts selectedTextId }
  | some _ =>
    let imgDims := Rounded.getImageDimensions rnd image (some canvas)
    if 0 < pixelation then
      if getImageData.throws imgDims.x imgDims.y imgDims.width imgDims.height then
        .error .getImageData
      else
        .ok { filterCall :=
                some { width := imgDims.width, height := imgDims.height,
                       pixelSize := Rounded.renderCanvas.pixelSize rnd pixelation imgDims },
              labels := Rounded.renderCanvas.labels rnd host image canvas texts selectedTextId }
    else
      .ok { filterCall := none,
            labels := Rounded.renderCanvas.labels rnd host image canvas texts selectedTextId }

/-- Lines 145-154, rounded. -/
def Rounded.handleMouseDown.hit (rnd : ℚ → JSNum) (host : TextHost) (text : Label)
    (pos : JSPoint) : Bool :=
  let textWidth := JSNum.fin (host.measureText text.fontSize (displayText host text))
  let textHeight := JSNum.fin text.fontSize
  JSNum.ge pos.x (JSNum.round rnd (JSNum.round rnd
    (JSNum.fin text.x - JSNum.round rnd (textWidth / JSNum.fin 2)) - JSNum.fin 25)) &&
  JSNum.le pos.x (JSNum.round rnd (JSNum.round rnd
    (JSNum.fin text.x + JSNum.round rnd (textWidth / JSNum.fin 2)) + JSNum.fin 25)) &&
  JSNum.ge pos.y (JSNum.round rnd (JSNum.round rnd
    (JSNum.fin text.y - JSNum.round rnd (textHeight / JSNum.fin 2)) - JSNum.fin 25)) &&
  JSNum.le pos.y (JSNum.round rnd (JSNum.round rnd
    (JSNum.fin text.y + JSNum.round rnd (textHeight / JSNum.fin 2)) + JSNum.fin 25))

/-- Lines 142-164, rounded. -/
def Rounded.handleMouseDown.loop (rnd : ℚ → JSNum) (host : TextHost) (texts : List Label)
    (pos : JSPoint) : (n : ℕ) → n ≤ texts.length → Option Label
  | 0, _ => none
  | i + 1, h =>
    let text := texts[i]
    if Rounded.handleMouseDown.hit rnd host text pos then some text
    else Rounded.handleMouseDown.loop rnd host texts pos i (Nat.le_of_succ_le h)

/-- Lines 140-165, rounded. -/
def Rounded.handleMouseDown (rnd : ℚ → JSNum) (props : Props) (st : DragState)
    (e : MouseEvent) : DragState × List Notification :=
  let pos := Rounded.getRelativePos rnd props.image props.canvas e
  match Rounded.handleMouseDown.loop rnd props.host props.texts pos props.texts.length
      (Nat.le_refl _) with
  | some text =>
    ({ isDragging := true,
       dragTextId := some text.id,
       dragOffset := { x := JSNum.round rnd (pos.x - JSNum.fin text.x),
                       y := JSNum.round rnd (pos.y - JSNum.fin text.y) } },
     [Notification.onTextSelect text.id])
  | none => (st, [])

/-- Lines 166-174, rounded. -/
def Rounded.handleMouseMove (rnd : ℚ → JSNum) (props : Props) (st : DragState)
    (e : MouseEvent) : DragState × List Notification :=
  if !st.isDragging then (st, [])
  else
    let pos := Rounded.getRelativePos rnd props.image props.canvas e
    let textId := st.dragTextId
    (st, [Notification.onTextChange textId
      { x := JSNum.round rnd (pos.x - st.dragOffset.x),
        y := JSNum.round rnd (pos.y - st.dragOffset.y) }])

/-! Notions used to state the properties -/

/-- The index of channel `c` (0 red, 1 green, 2 blue, 3 alpha) of pixel `(px, py)` in an
RGBA buffer that is `w` pixels wide: the `index + c` of lines 28-31. -/
def channelIndex (w px py c : ℤ) : ℚ :=
  ((py : ℚ) * (w : ℚ) + (px : ℚ)) * 4 + (c : ℚ)

/-- The padded hit box of the specification: the box of the displayed text's measured
width and of height `fontSize`, centred on `(L.x, L.y)` and padded by 25 on every side,
bounds included. A point with a coordinate that is not finite lies in no box. -/
def InPaddedBox (host : TextHost) (L : Label) : JSPoint → Prop
  | ⟨.fin px, .fin py⟩ =>
    L.x - host.measureText L.fontSize (displayText host L) / 2 - 25 ≤ px ∧
    px ≤ L.x + host.measureText L.fontSize (displayText host L) / 2 + 25 ∧
    L.y - L.fontSize / 2 - 25 ≤ py ∧
    py ≤ L.y + L.fontSize / 2 + 25
  | _ => False

/-- A sequence of events in which every pointer-down lands in no label's padded box. -/
def DownsMiss (evs : List (Props × PointerEvent)) : Prop :=
  ∀ props e, (props, PointerEvent.mouseDown e) ∈ evs →
    ∀ i, ∀ hi : i < props.texts.length,
      ¬ InPaddedBox props.host (props.texts[i]) (getRelativePos props.image props.canvas e)

/-- The surface points covered by the dashed rectangle of a drawn label: the rectangle of
the `strokeRect` call, taken in the frame that `ctx.translate(canvasX, canvasY)` and
`ctx.scale(textScale, textScale)` set up, so that the frame point `(u, v)` lands on
`(canvasX + textScale * u, canvasY + textScale * v)`. A label that is not selected, or
that is placed at a position that is not finite, covers no point. -/
def InOutline (d : LabelDraw) (sx sy : ℚ) : Prop :=
  ∃ (r : StrokeRect) (cx cy u v : ℚ),
    d.outline = some r ∧ d.canvasX = .fin cx ∧ d.canvasY = .fin cy ∧
    min r.x (r.x + r.w) ≤ u ∧ u ≤ max r.x (r.x + r.w) ∧
    min r.y (r.y + r.h) ≤ v ∧ v ≤ max r.y (r.y + r.h) ∧
    sx = cx + d.textScale * u ∧ sy = cy + d.textScale * v

/-- The pointer-down `e`, delivered with `props`, hits the label `L`: `L` sits in the
list of `props` at the greatest index whose padded box contains the position of `e`. -/
def HitsLabel (props : Props) (e : MouseEvent) (L : Label) : Prop :=
  ∃ i, ∃ hi : i < props.texts.length, props.texts[i] = L ∧
    InPaddedBox props.host (props.texts[i]) (getRelativePos props.image props.canvas e) ∧
    ∀ j, ∀ hj : j < props.texts.length, i < j →
      ¬ InPaddedBox props.host (props.texts[j]) (getRelativePos props.image props.canvas e)

/-- A sequence of events without pointer-up and pointer-leave. -/
def NoRelease (evs : List (Props × PointerEvent)) : Prop :=
  ∀ d ∈ evs, d.2 ≠ PointerEvent.mouseUp ∧ d.2 ≠ PointerEvent.mouseLeave

/-- A JavaScript number that is an infinity or `NaN`. -/
def JSNum.NotFinite (a : JSNum) : Prop := ∀ q : ℚ, a ≠ .fin q

/-- No rounding at the values `vs`: for each of them as exact result, the operation
returns that very value, which is then representable. -/
def ExactAt (rnd : ℚ → JSNum) (vs : List ℚ) : Prop := ∀ v ∈ vs, rnd v = .fin v

instance (rnd : ℚ → JSNum) (vs : List ℚ) : Decidable (ExactAt rnd vs) := by
  unfold ExactAt
  infer_instance

/-- The rounding `rnd` keeps the order: a larger exact result gives a number that is not
smaller. -/
def KeepsOrder (rnd : ℚ → JSNum) : Prop := ∀ a b : ℚ, a ≤ b → JSNum.le (rnd a) (rnd b) = true

/-- The exact results of the eight operations of lines 44-48, in the order in which they
are computed: the two quotients, the two products, and the difference and its half on
each axis. -/
def getImageDimensions.steps (imgW imgH surfW surfH : ℚ) : List ℚ :=
  [surfW / imgW, surfH / imgH,
   imgW * min (surfW / imgW) (surfH / imgH), imgH * min (surfW / imgW) (surfH / imgH),
   surfW - imgW * min (surfW / imgW) (surfH / imgH),
   (surfW - imgW * min (surfW / imgW) (surfH / imgH)) / 2,
   surfH - imgH * min (surfW / imgW) (surfH / imgH),
   (surfH - imgH * min (surfW / imgW) (surfH / imgH)) / 2]

/-- Whether a JavaScript number is finite. -/
def JSNum.isFinite : JSNum → Bool
  | .fin _ => true
  | _ => false

/-- The four bounds that the test of lines 147-154 compares the position with, as the
rounded code computes them: left, right, top and bottom of the padded box. -/
def Rounded.handleMouseDown.bounds (rnd : ℚ → JSNum) (host : TextHost) (text : Label) :
    JSNum × JSNum × JSNum × JSNum :=
  let textWidth := JSNum.fin (host.measureText text.fontSize (displayText host text))
  let textHeight := JSNum.fin text.fontSize
  (JSNum.round rnd (JSNum.round rnd
      (JSNum.fin text.x - JSNum.round rnd (textWidth / JSNum.fin 2)) - JSNum.fin 25),
   JSNum.round rnd (JSNum.round rnd
      (JSNum.fin text.x + JSNum.round rnd (textWidth / JSNum.fin 2)) + JSNum.fin 25),
   JSNum.round rnd (JSNum.round rnd
      (JSNum.fin text.y - JSNum.round rnd (textHeight / JSNum.fin 2)) - JSNum.fin 25),
   JSNum.round rnd (JSNum.round rnd
      (JSNum.fin text.y + JSNum.round rnd (textHeight / JSNum.fin 2)) + JSNum.fin 25))

/-- The four bounds of the padded box of a label are finite: none of them overflowed. -/
def FiniteBounds (rnd : ℚ → JSNum) (host : TextHost) (text : Label) : Bool :=
  (Rounded.handleMouseDown.bounds rnd host text).1.isFinite &&
  (Rounded.handleMouseDown.bounds rnd host text).2.1.isFinite &&
  (Rounded.handleMouseDown.bounds rnd host text).2.2.1.isFinite &&
  (Rounded.handleMouseDown.bounds rnd host text).2.2.2.isFinite

/-- The block size of line 69 as a function of the strength `s` and of the rendered width
`w`: `max(1, floor(s * (w / 200)))`, with the quotient and then the product rounded. -/
def blockSize (rnd : ℚ → JSNum) (s w : ℚ) : JSNum :=
  JSNum.max (.fin 1) (JSNum.floor (JSNum.round rnd (.fin s * rnd (w / 200))))

/-- The filter call of a run of the renderer, `none` when the run threw or made none. -/
def filterCallOf : Except RenderError Rendered → Option FilterCall
  | .ok r => r.filterCall
  | .error _ => none

/-- Whether a run of the renderer was left by an exception. -/
def threw : Except RenderError Rendered → Bool
  | .ok _ => false
  | .error _ => true

/-- The surface points at which a run of the renderer placed its labels, in order; `none`
when the run threw. -/
def placementsOf : Except RenderError Rendered → Option (List (JSNum × JSNum))
  | .ok r => some (r.labels.map (fun d => (d.canvasX, d.canvasY)))
  | .error _ => none

/-! Sample data for the concrete instances -/

/-- A 3-by-2 RGBA buffer. -/
def exBuffer : List Byte :=
  [10, 11, 12, 13, 20, 21, 22, 23, 30, 31, 32, 33,
   40, 41, 42, 43, 50, 51, 52, 53, 60, 61, 62, 63]

/-- A 2-by-2 RGBA buffer. -/
def exBuffer4 : List Byte :=
  [10, 11, 12, 13, 20, 21, 22, 23, 30, 31, 32, 33, 40, 41, 42, 43]

/-- A host whose text is twice as wide as its font size and whose upper-casing is the
identity. -/
def exHost : TextHost := ⟨fun fontSize _ => 2 * fontSize, fun s => s⟩

/-- A label centred on `(100, 100)`. -/
def exLabelA : Label :=
  { id := 1, x := 100, y := 100, content := "A", fontSize := 20, color := "white",
    strokeWidth := 2, uppercase := false, scale := none, pixelation := none }

/-- A label centred on `(110, 100)`, overlapping `exLabelA`. -/
def exLabelB : Label :=
  { id := 2, x := 110, y := 100, content := "B", fontSize := 20, color := "white",
    strokeWidth := 2, uppercase := false, scale := none, pixelation := none }

/-- A 200-by-200 image on a 400-by-400 canvas placed at `(10, 20)` in the page: the fit
scale is 2 and the offsets are 0. -/
def exProps (texts : List Label) : Props :=
  { host := exHost, image := some ⟨200, 200⟩, canvas := ⟨400, 400, 10, 20⟩, texts := texts }

/-- A label like `exLabelA`, drawn three times as large. -/
def exLabelC : Label :=
  { id := 3, x := 100, y := 100, content := "C", fontSize := 20, color := "white",
    strokeWidth := 2, uppercase := false, scale := some 3, pixelation := none }

/-- A label centred on `(5, 5)`. -/
def exLabelD : Label :=
  { id := 4, x := 5, y := 5, content := "D", fontSize := 20, color := "white",
    strokeWidth := 2, uppercase := false, scale := none, pixelation := none }

/-- A 300-by-200 image on the 1000-by-700 canvas the component sizes itself to at most,
placed at the origin of the page. -/
def exPropsWide (texts : List Label) : Props :=
  { host := exHost, image := some ⟨300, 200⟩, canvas := ⟨1000, 700, 0, 0⟩, texts := texts }

/-- What `getImageDimensions` returns in double arithmetic for the image and canvas of
`exPropsWide`: the scale is the double nearest to `10 / 3`. -/
def exDimsWide : ImgDims :=
  { width := .fin 1000, height := .fin (2932031007402667 / 4398046511104), x := .fin 0,
    y := .fin (146601550370133 / 8796093022208),
    scale := .fin (7505999378950827 / 2251799813685248) }

/-! Lemmas on the pixelation filter -/

/-- One round of the innermost loop. -/
theorem applyPixelation.loopPx_lt {width : ℚ} {py : ℤ} {xEnd : ℚ} {r g b : Option Byte}
    {px : ℤ} {data : List Byte} (h : (px : ℚ) < xEnd) :
    applyPixelation.loopPx width py xEnd r g b px data =
      applyPixelation.loopPx width py xEnd r g b (px + 1)
        (writeAt (writeAt (writeAt data (((py : ℚ) * width + px) * 4) r)
          (((py : ℚ) * width + px) * 4 + 1) g) (((py : ℚ) * width + px) * 4 + 2) b) := by
  rw [applyPixelation.loopPx, if_pos h]

theorem applyPixelation.loopPx_ge {width : ℚ} {py : ℤ} {xEnd : ℚ} {r g b : Option Byte}
    {px : ℤ} {data : List Byte} (h : xEnd ≤ (px : ℚ)) :
    applyPixelation.loopPx width py xEnd r g b px data = data := by
  rw [applyPixelation.loopPx, if_neg (not_lt.mpr h)]

theorem applyPixelation.loopPy_lt {width : ℚ} {x : ℤ} {xEnd yEnd : ℚ} {r g b : Option Byte}
    {py : ℤ} {data : List Byte} (h : (py : ℚ) < yEnd) :
    applyPixelation.loopPy width x xEnd yEnd r g b py data =
      applyPixelation.loopPy width x xEnd yEnd r g b (py + 1)
        (applyPixelation.loopPx width py xEnd r g b x data) := by
  rw [applyPixelation.loopPy, if_pos h]

theorem applyPixelation.loopPy_ge {width : ℚ} {x : ℤ} {xEnd yEnd : ℚ} {r g b : Option Byte}
    {py : ℤ} {data : List Byte} (h : yEnd ≤ (py : ℚ)) :
    applyPixelation.loopPy width x xEnd yEnd r g b py data = data := by
  rw [applyPixelation.loopPy, if_neg (not_lt.mpr h)]

theorem applyPixelation.loopX_lt {width height : ℚ} {pixelSize : ℤ} {hk : 0 < pixelSize}
    {y x : ℤ} {data : List Byte} (h : (x : ℚ) < width) :
    applyPixelation.loopX width height pixelSize hk y x data =
      applyPixelation.loopX width height pixelSize hk y (x + pixelSize)
        (applyPixelation.loopPy width x (min ((x : ℚ) + pixelSize) width)
          (min ((y : ℚ) + pixelSize) height)
          (readAt data (((y : ℚ) * width + x) * 4))
          (readAt data (((y : ℚ) * width + x) * 4 + 1))
          (readAt data (((y : ℚ) * width + x) * 4 + 2)) y data) := by
  rw [applyPixelation.loopX, if_pos h]

theorem applyPixelation.loopX_ge {width height : ℚ} {pixelSize : ℤ} {hk : 0 < pixelSize}
    {y x : ℤ} {data : List Byte} (h : width ≤ (x : ℚ)) :
    applyPixelation.loopX width height pixelSize hk y x data = data := by
  rw [applyPixelation.loopX, if_neg (not_lt.mpr h)]

theorem applyPixelation.loopY_lt {width height : ℚ} {pixelSize : ℤ} {hk : 0 < pixelSize}
    {y : ℤ} {data : List Byte} (h : (y : ℚ) < height) :
    applyPixelation.loopY width height pixelSize hk y data =
      applyPixelation.loopY width height pixelSize hk (y + pixelSize)
        (applyPixelation.loopX width height pixelSize hk y 0 data) := by
  rw [applyPixelation.loopY, if_pos h]

theorem applyPixelation.loopY_ge {width height : ℚ} {pixelSize : ℤ} {hk : 0 < pixelSize}
    {y : ℤ} {data : List Byte} (h : height ≤ (y : ℚ)) :
    applyPixelation.loopY width height pixelSize hk y data = data := by
  rw [applyPixelation.loopY, if_neg (not_lt.mpr h)]

theorem writeAt_length (data : List Byte) (j : ℚ) (v : Option Byte) :
    (writeAt data j v).length = data.length := by
  unfold writeAt
  split <;> simp

/-- Reading after one assignment: the written index now holds the stored byte, if it
held anything, and every other index is as before. -/
theorem readAt_writeAt (data : List Byte) (i j : ℚ) (v : Option Byte) :
    readAt (writeAt data j v) i =
      if i = j then (readAt data i).map (fun _ => toUint8 v) else readAt data i := by
  unfold readAt writeAt
  by_cases hj : j.den = 1 ∧ 0 ≤ j
  · by_cases hi : i.den = 1 ∧ 0 ≤ i
    · simp only [if_pos hj, if_pos hi]
      by_cases hij : i = j
      · subst hij
        rw [if_pos rfl, List.getElem?_set]
        by_cases hlt : i.num.toNat < data.length
        · simp [hlt]
        · simp [hlt, List.getElem?_eq_none (not_lt.mp hlt)]
      · have hne : j.num.toNat ≠ i.num.toNat := by
          intro h
          apply hij
          have h1 := Rat.num_nonneg.mpr hj.2
          have h2 := Rat.num_nonneg.mpr hi.2
          apply Rat.ext
          · omega
          · omega
        rw [if_neg hij, List.getElem?_set, if_neg hne]
    · simp only [if_neg hi]
      simp
  · simp only [if_neg hj]
    by_cases hij : i = j
    · subst hij
      simp only [if_neg hj]
      simp
    · rw [if_neg hij]

theorem readAt_intCast (data : List Byte) (n : ℤ) :
    readAt data (n : ℚ) = if 0 ≤ n then data[n.toNat]? else none := by
  simp [readAt]

/-- Reading channel `c` of pixel `m` after lines 29-31 filled pixel `n`. -/
theorem readAt_setRGB (data : List Byte) (r g b : Option Byte) (n m c : ℤ)
    (hc0 : 0 ≤ c) (hc4 : c < 4) :
    readAt (writeAt (writeAt (writeAt data ((n : ℚ) * 4) r) ((n : ℚ) * 4 + 1) g)
        ((n : ℚ) * 4 + 2) b) ((m : ℚ) * 4 + c) =
      if m = n ∧ c < 3 then (readAt data ((m : ℚ) * 4 + c)).map (fun _ => chan r g b c)
      else readAt data ((m : ℚ) * 4 + c) := by
  have e0 : ((m : ℚ) * 4 + c = (n : ℚ) * 4) ↔ (m = n ∧ c = 0) := by
    constructor
    · intro h
      have h' : m * 4 + c = n * 4 := by exact_mod_cast h
      omega
    · rintro ⟨rfl, rfl⟩
      simp
  have e1 : ((m : ℚ) * 4 + c = (n : ℚ) * 4 + 1) ↔ (m = n ∧ c = 1) := by
    constructor
    · intro h
      have h' : m * 4 + c = n * 4 + 1 := by exact_mod_cast h
      omega
    · rintro ⟨rfl, rfl⟩
      simp
  have e2 : ((m : ℚ) * 4 + c = (n : ℚ) * 4 + 2) ↔ (m = n ∧ c = 2) := by
    constructor
    · intro h
      have h' : m * 4 + c = n * 4 + 2 := by exact_mod_cast h
      omega
    · rintro ⟨rfl, rfl⟩
      simp
  rw [readAt_writeAt, readAt_writeAt, readAt_writeAt]
  simp only [e0, e1, e2]
  by_cases hmn : m = n
  · subst hmn
    have hcases : c = 0 ∨ c = 1 ∨ c = 2 ∨ c = 3 := by omega
    rcases hcases with rfl | rfl | rfl | rfl <;> simp [chan]
  · simp [hmn]


/-- Two pixels of a `w`-wide buffer with the same number are the same pixel. -/
theorem pix_inj (w p q p' q' : ℤ) (hq : 0 ≤ q) (hqw : q < w) (hq' : 0 ≤ q') (hqw' : q' < w)
    (h : p * w + q = p' * w + q') : p = p' ∧ q = q' := by
  have hp : p = p' := by
    by_contra hne
    rcases lt_or_gt_of_ne hne with hlt | hgt
    · have h1 : p + 1 ≤ p' := hlt
      have h2 : (p + 1) * w ≤ p' * w := Int.mul_le_mul_of_nonneg_right h1 (by omega)
      have h3 : (p + 1) * w = p * w + w := by ring
      omega
    · have h1 : p' + 1 ≤ p := hgt
      have h2 : (p' + 1) * w ≤ p * w := Int.mul_le_mul_of_nonneg_right h1 (by omega)
      have h3 : (p' + 1) * w = p' * w + w := by ring
      omega
  subst hp
  exact ⟨rfl, by omega⟩

theorem pixIdx_cast (w p q : ℤ) : (p : ℚ) * (w : ℚ) + (q : ℚ) = ((p * w + q : ℤ) : ℚ) := by
  push_cast
  ring

/-- What the innermost loop leaves in a buffer `w` pixels wide: the columns from `px` up
to `xEnd` of row `py` hold `r`, `g`, `b`, and nothing else changes. -/
theorem applyPixelation.loopPx_read (w py : ℤ) (xEnd : ℚ) (hxe : xEnd ≤ (w : ℚ))
    (r g b : Option Byte) (px : ℤ) (data : List Byte) (hpx : 0 ≤ px)
    (p q c : ℤ) (hq : 0 ≤ q) (hqw : q < w) (hc0 : 0 ≤ c) (hc4 : c < 4) :
    readAt (applyPixelation.loopPx (w : ℚ) py xEnd r g b px data)
        (((p : ℚ) * (w : ℚ) + (q : ℚ)) * 4 + (c : ℚ)) =
      if p = py ∧ px ≤ q ∧ (q : ℚ) < xEnd ∧ c < 3 then
        (readAt data (((p : ℚ) * (w : ℚ) + (q : ℚ)) * 4 + (c : ℚ))).map (fun _ => chan r g b c)
      else readAt data (((p : ℚ) * (w : ℚ) + (q : ℚ)) * 4 + (c : ℚ)) := by
  revert hpx
  refine applyPixelation.loopPx.induct (w : ℚ) py xEnd r g b
    (fun px data => 0 ≤ px →
      readAt (applyPixelation.loopPx (w : ℚ) py xEnd r g b px data)
        (((p : ℚ) * (w : ℚ) + (q : ℚ)) * 4 + (c : ℚ)) =
      if p = py ∧ px ≤ q ∧ (q : ℚ) < xEnd ∧ c < 3 then
        (readAt data (((p : ℚ) * (w : ℚ) + (q : ℚ)) * 4 + (c : ℚ))).map (fun _ => chan r g b c)
      else readAt data (((p : ℚ) * (w : ℚ) + (q : ℚ)) * 4 + (c : ℚ))) ?_ ?_ px data
  · intro px data hlt
    dsimp only
    intro ih hpx
    have hpxw : px < w := by
      have : (px : ℚ) < (w : ℚ) := lt_of_lt_of_le hlt hxe
      exact_mod_cast this
    rw [applyPixelation.loopPx_lt hlt, ih (by omega)]
    rw [pixIdx_cast w p q, pixIdx_cast w py px, readAt_setRGB _ _ _ _ _ _ _ hc0 hc4]
    by_cases hsame : p * w + q = py * w + px
    · obtain ⟨hp, hqx⟩ := pix_inj w p q py px hq hqw hpx hpxw hsame
      subst hp hqx
      have hn : ¬ (q + 1 ≤ q) := by omega
      by_cases hc3 : c < 3
      · simp [hn, hc3, hlt]
      · simp [hn, hc3]
    · have hne : ¬ (p = py ∧ q = px) := by
        rintro ⟨rfl, rfl⟩
        exact hsame rfl
      simp only [hsame, false_and, if_false]
      by_cases hp : p = py
      · have hqne : q ≠ px := fun h => hne ⟨hp, h⟩
        have hiff : (px + 1 ≤ q) ↔ (px ≤ q) := by omega
        simp only [hiff]
      · simp [hp]
  · intro px data hge _
    rw [applyPixelation.loopPx_ge (not_lt.mp hge)]
    have : ¬ ((q : ℚ) < xEnd ∧ px ≤ q) := by
      rintro ⟨h1, h2⟩
      have : (px : ℚ) ≤ (q : ℚ) := by exact_mod_cast h2
      exact hge (lt_of_le_of_lt this h1)
    have hn : ¬ (p = py ∧ px ≤ q ∧ (q : ℚ) < xEnd ∧ c < 3) := fun h => this ⟨h.2.2.1, h.2.1⟩
    rw [if_neg hn]

/-- What the row loop leaves: the rectangle of rows from `py` up to `yEnd` and columns
from `x` up to `xEnd` holds `r`, `g`, `b`. -/
theorem applyPixelation.loopPy_read (w x : ℤ) (xEnd yEnd : ℚ) (hxe : xEnd ≤ (w : ℚ))
    (hx : 0 ≤ x) (r g b : Option Byte) (py : ℤ) (data : List Byte)
    (p q c : ℤ) (hq : 0 ≤ q) (hqw : q < w) (hc0 : 0 ≤ c) (hc4 : c < 4) :
    readAt (applyPixelation.loopPy (w : ℚ) x xEnd yEnd r g b py data)
        (((p : ℚ) * (w : ℚ) + (q : ℚ)) * 4 + (c : ℚ)) =
      if py ≤ p ∧ (p : ℚ) < yEnd ∧ x ≤ q ∧ (q : ℚ) < xEnd ∧ c < 3 then
        (readAt data (((p : ℚ) * (w : ℚ) + (q : ℚ)) * 4 + (c : ℚ))).map (fun _ => chan r g b c)
      else readAt data (((p : ℚ) * (w : ℚ) + (q : ℚ)) * 4 + (c : ℚ)) := by
  refine applyPixelation.loopPy.induct (w : ℚ) x xEnd yEnd r g b
    (fun py data =>
      readAt (applyPixelation.loopPy (w : ℚ) x xEnd yEnd r g b py data)
        (((p : ℚ) * (w : ℚ) + (q : ℚ)) * 4 + (c : ℚ)) =
      if py ≤ p ∧ (p : ℚ) < yEnd ∧ x ≤ q ∧ (q : ℚ) < xEnd ∧ c < 3 then
        (readAt data (((p : ℚ) * (w : ℚ) + (q : ℚ)) * 4 + (c : ℚ))).map (fun _ => chan r g b c)
      else readAt data (((p : ℚ) * (w : ℚ) + (q : ℚ)) * 4 + (c : ℚ))) ?_ ?_ py data
  · intro py data hlt
    dsimp only
    intro ih
    rw [applyPixelation.loopPy_lt hlt, ih,
      applyPixelation.loopPx_read w py xEnd hxe r g b x data hx p q c hq hqw hc0 hc4]
    by_cases hp : p = py
    · subst hp
      have hn : ¬ (p + 1 ≤ p) := by omega
      simp [hn, hlt]
    · have hiff : (py + 1 ≤ p) ↔ (py ≤ p) := by omega
      simp only [hiff, hp, false_and, if_false]
  · intro py data hge
    rw [applyPixelation.loopPy_ge (not_lt.mp hge)]
    have hn : ¬ (py ≤ p ∧ (p : ℚ) < yEnd ∧ x ≤ q ∧ (q : ℚ) < xEnd ∧ c < 3) := by
      rintro ⟨h1, h2, _⟩
      have : (py : ℚ) ≤ (p : ℚ) := by exact_mod_cast h1
      exact hge (lt_of_le_of_lt this h2)
    rw [if_neg hn]

theorem tile_ge (k x q : ℤ) (hk : 0 < k) (hdvd : k ∣ x) (h : x ≤ q) : x ≤ k * (q / k) := by
  obtain ⟨t, rfl⟩ := hdvd
  have h1 : t ≤ q / k := (Int.le_ediv_iff_mul_le hk).mpr (by rw [mul_comm]; exact h)
  exact Int.mul_le_mul_of_nonneg_left h1 (le_of_lt hk)

theorem tile_le (k q : ℤ) (hk : 0 < k) : k * (q / k) ≤ q := by
  have := Int.emod_add_ediv q k
  have := Int.emod_nonneg q (ne_of_gt hk)
  omega

theorem tile_eq (k x q : ℤ) (hk : 0 < k) (hdvd : k ∣ x) (h1 : x ≤ q) (h2 : q < x + k) :
    k * (q / k) = x := by
  have hge := tile_ge k x q hk hdvd h1
  have hle := tile_le k q hk
  obtain ⟨t, rfl⟩ := hdvd
  have h3 : k * (q / k) < k * (t + 1) := by
    have : k * (t + 1) = k * t + k := by ring
    omega
  have h4 : q / k < t + 1 := lt_of_mul_lt_mul_left h3 (le_of_lt hk)
  have h5 : t ≤ q / k := le_of_mul_le_mul_left hge hk
  have h6 : q / k = t := by omega
  rw [h6]

theorem chan_read (data : List Byte) (i : ℚ) (c : ℤ) (hc0 : 0 ≤ c) (hc3 : c < 3) :
    chan (readAt data i) (readAt data (i + 1)) (readAt data (i + 2)) c =
      toUint8 (readAt data (i + (c : ℚ))) := by
  have hcases : c = 0 ∨ c = 1 ∨ c = 2 := by omega
  rcases hcases with rfl | rfl | rfl <;> simp [chan]

/-- What one row of tiles leaves, entered at a column `x` that is a multiple of `k`: each
pixel of the row of tiles from column `x` on holds the original value of its tile's
first pixel in row `y`. -/
theorem applyPixelation.loopX_read (w : ℤ) (h : ℚ) (k : ℤ) (hk : 0 < k) (y x : ℤ)
    (data : List Byte) (hx : 0 ≤ x) (hdvd : k ∣ x)
    (p q c : ℤ) (hq : 0 ≤ q) (hqw : q < w) (hc0 : 0 ≤ c) (hc4 : c < 4) :
    readAt (applyPixelation.loopX (w : ℚ) h k hk y x data)
        (((p : ℚ) * (w : ℚ) + (q : ℚ)) * 4 + (c : ℚ)) =
      if y ≤ p ∧ (p : ℚ) < min ((y : ℚ) + (k : ℚ)) h ∧ x ≤ q ∧ c < 3 then
        (readAt data (((p : ℚ) * (w : ℚ) + (q : ℚ)) * 4 + (c : ℚ))).map
          (fun _ => toUint8 (readAt data
            (((y : ℚ) * (w : ℚ) + ((k * (q / k) : ℤ) : ℚ)) * 4 + (c : ℚ))))
      else readAt data (((p : ℚ) * (w : ℚ) + (q : ℚ)) * 4 + (c : ℚ)) := by
  revert hx hdvd
  refine applyPixelation.loopX.induct (w : ℚ) h k hk y
    (fun x data => 0 ≤ x → k ∣ x →
      readAt (applyPixelation.loopX (w : ℚ) h k hk y x data)
        (((p : ℚ) * (w : ℚ) + (q : ℚ)) * 4 + (c : ℚ)) =
      if y ≤ p ∧ (p : ℚ) < min ((y : ℚ) + (k : ℚ)) h ∧ x ≤ q ∧ c < 3 then
        (readAt data (((p : ℚ) * (w : ℚ) + (q : ℚ)) * 4 + (c : ℚ))).map
          (fun _ => toUint8 (readAt data
            (((y : ℚ) * (w : ℚ) + ((k * (q / k) : ℤ) : ℚ)) * 4 + (c : ℚ))))
      else readAt data (((p : ℚ) * (w : ℚ) + (q : ℚ)) * 4 + (c : ℚ))) ?_ ?_ x data
  · intro x data hlt
    dsimp only
    intro ih hx hdvd
    have hxe : min ((x : ℚ) + (k : ℚ)) (w : ℚ) ≤ (w : ℚ) := min_le_right _ _
    have hdvd' : k ∣ x + k := Dvd.dvd.add hdvd (dvd_refl k)
    rw [applyPixelation.loopX_lt hlt, ih (by omega) hdvd']
    have hT0 : 0 ≤ k * (q / k) := tile_ge k 0 q hk (dvd_zero k) hq
    have hTw : k * (q / k) < w := lt_of_le_of_lt (tile_le k q hk) hqw
    have hqwQ : (q : ℚ) < (w : ℚ) := by exact_mod_cast hqw
    rw [applyPixelation.loopPy_read w x _ _ hxe hx _ _ _ y data p q c hq hqw hc0 hc4,
      applyPixelation.loopPy_read w x _ _ hxe hx _ _ _ y data y (k * (q / k)) c hT0 hTw hc0 hc4]
    by_cases hcond : y ≤ p ∧ (p : ℚ) < min ((y : ℚ) + (k : ℚ)) h ∧ c < 3
    · obtain ⟨h1, h2, h3⟩ := hcond
      by_cases hq1 : x + k ≤ q
      · have hxq : x ≤ q := by omega
        have hnq : ¬ ((q : ℚ) < min ((x : ℚ) + (k : ℚ)) (w : ℚ)) := by
          intro hlt'
          have h5 : (q : ℚ) < (x : ℚ) + (k : ℚ) := lt_of_lt_of_le hlt' (min_le_left _ _)
          have h6 : q < x + k := by exact_mod_cast h5
          omega
        have hT : x + k ≤ k * (q / k) := tile_ge k (x + k) q hk hdvd' hq1
        have hnT : ¬ (((k * (q / k) : ℤ) : ℚ) < min ((x : ℚ) + (k : ℚ)) (w : ℚ)) := by
          intro hlt'
          have h5 : ((k * (q / k) : ℤ) : ℚ) < (x : ℚ) + (k : ℚ) :=
            lt_of_lt_of_le hlt' (min_le_left _ _)
          have h6 : k * (q / k) < x + k := by exact_mod_cast h5
          omega
        simp only [h1, h2, h3, hq1, hxq, hnq, hnT, and_self, and_true, true_and, and_false,
          false_and, if_true, if_false]
      · by_cases hq2 : x ≤ q
        · have hqlt : (q : ℚ) < min ((x : ℚ) + (k : ℚ)) (w : ℚ) := by
            have h5 : (q : ℚ) < (x : ℚ) + (k : ℚ) := by
              have : q < x + k := by omega
              exact_mod_cast this
            exact lt_min h5 hqwQ
          have hTx : k * (q / k) = x := tile_eq k x q hk hdvd hq2 (by omega)
          have hch := chan_read data (((y : ℚ) * (w : ℚ) + (x : ℚ)) * 4) c hc0 h3
          simp only [h1, h2, h3, hq1, hq2, hqlt, and_self, and_true, true_and, and_false,
            false_and, if_true, if_false, hTx, hch]
        · simp only [hq1, hq2, and_self, and_true, true_and, and_false,
            false_and, if_true, if_false]
    · have hn1 : ¬ (y ≤ p ∧ (p : ℚ) < min ((y : ℚ) + (k : ℚ)) h ∧ x + k ≤ q ∧ c < 3) :=
        fun hh => hcond ⟨hh.1, hh.2.1, hh.2.2.2⟩
      have hn2 : ¬ (y ≤ p ∧ (p : ℚ) < min ((y : ℚ) + (k : ℚ)) h ∧ x ≤ q ∧ c < 3) :=
        fun hh => hcond ⟨hh.1, hh.2.1, hh.2.2.2⟩
      have hn3 : ¬ (y ≤ p ∧ (p : ℚ) < min ((y : ℚ) + (k : ℚ)) h ∧ x ≤ q ∧
          (q : ℚ) < min ((x : ℚ) + (k : ℚ)) (w : ℚ) ∧ c < 3) :=
        fun hh => hcond ⟨hh.1, hh.2.1, hh.2.2.2.2⟩
      rw [if_neg hn1, if_neg hn2, if_neg hn3]
  · intro x data hge _ _
    rw [applyPixelation.loopX_ge (not_lt.mp hge)]
    have hn : ¬ (y ≤ p ∧ (p : ℚ) < min ((y : ℚ) + (k : ℚ)) h ∧ x ≤ q ∧ c < 3) := by
      rintro ⟨_, _, h3, _⟩
      have h4 : (x : ℚ) ≤ (q : ℚ) := by exact_mod_cast h3
      have h5 : (q : ℚ) < (w : ℚ) := by exact_mod_cast hqw
      exact hge (lt_of_le_of_lt h4 h5)
    rw [if_neg hn]

/-- What the outer loop leaves, entered at a row `y` that is a multiple of `k`: each pixel
from row `y` on holds the original value of its tile's top-left pixel. -/
theorem applyPixelation.loopY_read (w : ℤ) (h : ℚ) (k : ℤ) (hk : 0 < k) (y : ℤ)
    (data : List Byte) (hy : 0 ≤ y) (hdvd : k ∣ y)
    (p q c : ℤ) (hq : 0 ≤ q) (hqw : q < w) (hc0 : 0 ≤ c) (hc4 : c < 4) :
    readAt (applyPixelation.loopY (w : ℚ) h k hk y data)
        (((p : ℚ) * (w : ℚ) + (q : ℚ)) * 4 + (c : ℚ)) =
      if y ≤ p ∧ (p : ℚ) < h ∧ c < 3 then
        (readAt data (((p : ℚ) * (w : ℚ) + (q : ℚ)) * 4 + (c : ℚ))).map
          (fun _ => toUint8 (readAt data
            ((((k * (p / k) : ℤ) : ℚ) * (w : ℚ) + ((k * (q / k) : ℤ) : ℚ)) * 4 + (c : ℚ))))
      else readAt data (((p : ℚ) * (w : ℚ) + (q : ℚ)) * 4 + (c : ℚ)) := by
  revert hy hdvd
  refine applyPixelation.loopY.induct (w : ℚ) h k hk
    (fun y data => 0 ≤ y → k ∣ y →
      readAt (applyPixelation.loopY (w : ℚ) h k hk y data)
        (((p : ℚ) * (w : ℚ) + (q : ℚ)) * 4 + (c : ℚ)) =
      if y ≤ p ∧ (p : ℚ) < h ∧ c < 3 then
        (readAt data (((p : ℚ) * (w : ℚ) + (q : ℚ)) * 4 + (c : ℚ))).map
          (fun _ => toUint8 (readAt data
            ((((k * (p / k) : ℤ) : ℚ) * (w : ℚ) + ((k * (q / k) : ℤ) : ℚ)) * 4 + (c : ℚ))))
      else readAt data (((p : ℚ) * (w : ℚ) + (q : ℚ)) * 4 + (c : ℚ))) ?_ ?_ y data
  · intro y data hlt
    dsimp only
    intro ih hy hdvd
    have hdvd' : k ∣ y + k := Dvd.dvd.add hdvd (dvd_refl k)
    have hT0 : 0 ≤ k * (q / k) := tile_ge k 0 q hk (dvd_zero k) hq
    have hTw : k * (q / k) < w := lt_of_le_of_lt (tile_le k q hk) hqw
    rw [applyPixelation.loopY_lt hlt, ih (by omega) hdvd',
      applyPixelation.loopX_read w h k hk y 0 data (le_refl 0) (dvd_zero k) p q c hq hqw hc0 hc4,
      applyPixelation.loopX_read w h k hk y 0 data (le_refl 0) (dvd_zero k) (k * (p / k))
        (k * (q / k)) c hT0 hTw hc0 hc4]
    by_cases hcond : (p : ℚ) < h ∧ c < 3
    · obtain ⟨h2, h3⟩ := hcond
      by_cases hp1 : y + k ≤ p
      · have hyp : y ≤ p := by omega
        have hnp : ¬ ((p : ℚ) < min ((y : ℚ) + (k : ℚ)) h) := by
          intro hlt'
          have h5 : (p : ℚ) < (y : ℚ) + (k : ℚ) := lt_of_lt_of_le hlt' (min_le_left _ _)
          have h6 : p < y + k := by exact_mod_cast h5
          omega
        have hT : y + k ≤ k * (p / k) := tile_ge k (y + k) p hk hdvd' hp1
        have hnT : ¬ (((k * (p / k) : ℤ) : ℚ) < min ((y : ℚ) + (k : ℚ)) h) := by
          intro hlt'
          have h5 : ((k * (p / k) : ℤ) : ℚ) < (y : ℚ) + (k : ℚ) :=
            lt_of_lt_of_le hlt' (min_le_left _ _)
          have h6 : k * (p / k) < y + k := by exact_mod_cast h5
          omega
        simp only [h2, h3, hp1, hyp, hnp, hnT, and_self, and_true, true_and, and_false,
          false_and, if_true, if_false]
      · by_cases hp2 : y ≤ p
        · have hplt : (p : ℚ) < min ((y : ℚ) + (k : ℚ)) h := by
            have h5 : (p : ℚ) < (y : ℚ) + (k : ℚ) := by
              have : p < y + k := by omega
              exact_mod_cast this
            exact lt_min h5 h2
          have hTy : k * (p / k) = y := tile_eq k y p hk hdvd hp2 (by omega)
          simp only [h2, h3, hp1, hp2, hplt, hq, and_self, and_true, true_and, and_false,
            false_and, if_true, if_false, hTy]
        · simp only [hp1, hp2, and_self, and_true, true_and, and_false,
            false_and, if_true, if_false]
    · have hn1 : ¬ (y + k ≤ p ∧ (p : ℚ) < h ∧ c < 3) := fun hh => hcond hh.2
      have hn2 : ¬ (y ≤ p ∧ (p : ℚ) < h ∧ c < 3) := fun hh => hcond hh.2
      have hn3 : ¬ (y ≤ p ∧ (p : ℚ) < min ((y : ℚ) + (k : ℚ)) h ∧ 0 ≤ q ∧ c < 3) :=
        fun hh => hcond ⟨lt_of_lt_of_le hh.2.1 (min_le_right _ _), hh.2.2.2⟩
      rw [if_neg hn1, if_neg hn2, if_neg hn3]
  · intro y data hge _ _
    rw [applyPixelation.loopY_ge (not_lt.mp hge)]
    have hn : ¬ (y ≤ p ∧ (p : ℚ) < h ∧ c < 3) := by
      rintro ⟨h1, h2, _⟩
      have h4 : (y : ℚ) ≤ (p : ℚ) := by exact_mod_cast h1
      exact hge (lt_of_le_of_lt h4 h2)
    rw [if_neg hn]

/-- Every channel of every pixel of a `w`-by-`h` buffer is present. -/
theorem readAt_inBounds (w h : ℤ) (data : List Byte) (hlen : (data.length : ℤ) = 4 * w * h)
    (p q c : ℤ) (hp : 0 ≤ p) (hph : p < h) (hq : 0 ≤ q) (hqw : q < w) (hc0 : 0 ≤ c)
    (hc4 : c < 4) :
    ∃ v : Byte, readAt data (((p : ℚ) * (w : ℚ) + (q : ℚ)) * 4 + (c : ℚ)) = some v := by
  have hcast : ((p : ℚ) * (w : ℚ) + (q : ℚ)) * 4 + (c : ℚ) = (((p * w + q) * 4 + c : ℤ) : ℚ) := by
    push_cast
    ring
  have h1 : p * w ≤ (h - 1) * w := Int.mul_le_mul_of_nonneg_right (by omega) (by omega)
  have h2 : (h - 1) * w = h * w - w := by ring
  have h3 : 4 * w * h = 4 * (h * w) := by ring
  have h0 : 0 ≤ p * w := Int.mul_nonneg hp (by omega)
  have hn0 : 0 ≤ (p * w + q) * 4 + c := by omega
  have hlt : ((p * w + q) * 4 + c).toNat < data.length := by omega
  rw [hcast, readAt_intCast, if_pos hn0]
  exact ⟨data[((p * w + q) * 4 + c).toNat], List.getElem?_eq_getElem hlt⟩

theorem applyPixelation.loopPx_length (width : ℚ) (py : ℤ) (xEnd : ℚ) (r g b : Option Byte)
    (px : ℤ) (data : List Byte) :
    (applyPixelation.loopPx width py xEnd r g b px data).length = data.length := by
  refine applyPixelation.loopPx.induct width py xEnd r g b
    (fun px data => (applyPixelation.loopPx width py xEnd r g b px data).length = data.length)
    ?_ ?_ px data
  · intro px data hlt
    dsimp only
    intro ih
    rw [applyPixelation.loopPx_lt hlt, ih, writeAt_length, writeAt_length, writeAt_length]
  · intro px data hge
    rw [applyPixelation.loopPx_ge (not_lt.mp hge)]

theorem applyPixelation.loopPy_length (width : ℚ) (x : ℤ) (xEnd yEnd : ℚ)
    (r g b : Option Byte) (py : ℤ) (data : List Byte) :
    (applyPixelation.loopPy width x xEnd yEnd r g b py data).length = data.length := by
  refine applyPixelation.loopPy.induct width x xEnd yEnd r g b
    (fun py data =>
      (applyPixelation.loopPy width x xEnd yEnd r g b py data).length = data.length)
    ?_ ?_ py data
  · intro py data hlt
    dsimp only
    intro ih
    rw [applyPixelation.loopPy_lt hlt, ih, applyPixelation.loopPx_length]
  · intro py data hge
    rw [applyPixelation.loopPy_ge (not_lt.mp hge)]

theorem applyPixelation.loopX_length (width height : ℚ) (k : ℤ) (hk : 0 < k) (y x : ℤ)
    (data : List Byte) :
    (applyPixelation.loopX width height k hk y x data).length = data.length := by
  refine applyPixelation.loopX.induct width height k hk y
    (fun x data => (applyPixelation.loopX width height k hk y x data).length = data.length)
    ?_ ?_ x data
  · intro x data hlt
    dsimp only
    intro ih
    rw [applyPixelation.loopX_lt hlt, ih, applyPixelation.loopPy_length]
  · intro x data hge
    rw [applyPixelation.loopX_ge (not_lt.mp hge)]

theorem applyPixelation.loopY_length (width height : ℚ) (k : ℤ) (hk : 0 < k) (y : ℤ)
    (data : List Byte) :
    (applyPixelation.loopY width height k hk y data).length = data.length := by
  refine applyPixelation.loopY.induct width height k hk
    (fun y data => (applyPixelation.loopY width height k hk y data).length = data.length)
    ?_ ?_ y data
  · intro y data hlt
    dsimp only
    intro ih
    rw [applyPixelation.loopY_lt hlt, ih, applyPixelation.loopX_length]
  · intro y data hge
    rw [applyPixelation.loopY_ge (not_lt.mp hge)]

/-- The filter never changes the length of the buffer, whatever its arguments. -/
theorem applyPixelation_length (data : List Byte) (width height : ℚ) (pixelSize : ℤ) :
    (applyPixelation data width height pixelSize).length = data.length := by
  unfold applyPixelation
  split
  · rfl
  · exact applyPixelation.loopY_length _ _ _ _ _ _

theorem readAt_setRGB_alpha (data : List Byte) (r g b : Option Byte) (n m : ℤ) :
    readAt (writeAt (writeAt (writeAt data ((n : ℚ) * 4) r) ((n : ℚ) * 4 + 1) g)
        ((n : ℚ) * 4 + 2) b) ((m : ℚ) * 4 + 3) = readAt data ((m : ℚ) * 4 + 3) := by
  have h := readAt_setRGB data r g b n m 3 (by norm_num) (by norm_num)
  simpa using h

theorem applyPixelation.loopPx_alpha (w py : ℤ) (xEnd : ℚ) (r g b : Option Byte) (px : ℤ)
    (data : List Byte) (m : ℤ) :
    readAt (applyPixelation.loopPx (w : ℚ) py xEnd r g b px data) ((m : ℚ) * 4 + 3) =
      readAt data ((m : ℚ) * 4 + 3) := by
  refine applyPixelation.loopPx.induct (w : ℚ) py xEnd r g b
    (fun px data =>
      readAt (applyPixelation.loopPx (w : ℚ) py xEnd r g b px data) ((m : ℚ) * 4 + 3) =
        readAt data ((m : ℚ) * 4 + 3)) ?_ ?_ px data
  · intro px data hlt
    dsimp only
    intro ih
    rw [applyPixelation.loopPx_lt hlt, ih, pixIdx_cast w py px, readAt_setRGB_alpha]
  · intro px data hge
    rw [applyPixelation.loopPx_ge (not_lt.mp hge)]

theorem applyPixelation.loopPy_alpha (w x : ℤ) (xEnd yEnd : ℚ) (r g b : Option Byte) (py : ℤ)
    (data : List Byte) (m : ℤ) :
    readAt (applyPixelation.loopPy (w : ℚ) x xEnd yEnd r g b py data) ((m : ℚ) * 4 + 3) =
      readAt data ((m : ℚ) * 4 + 3) := by
  refine applyPixelation.loopPy.induct (w : ℚ) x xEnd yEnd r g b
    (fun py data =>
      readAt (applyPixelation.loopPy (w : ℚ) x xEnd yEnd r g b py data) ((m : ℚ) * 4 + 3) =
        readAt data ((m : ℚ) * 4 + 3)) ?_ ?_ py data
  · intro py data hlt
    dsimp only
    intro ih
    rw [applyPixelation.loopPy_lt hlt, ih, applyPixelation.loopPx_alpha]
  · intro py data hge
    rw [applyPixelation.loopPy_ge (not_lt.mp hge)]

theorem applyPixelation.loopX_alpha (w : ℤ) (h : ℚ) (k : ℤ) (hk : 0 < k) (y x : ℤ)
    (data : List Byte) (m : ℤ) :
    readAt (applyPixelation.loopX (w : ℚ) h k hk y x data) ((m : ℚ) * 4 + 3) =
      readAt data ((m : ℚ) * 4 + 3) := by
  refine applyPixelation.loopX.induct (w : ℚ) h k hk y
    (fun x data =>
      readAt (applyPixelation.loopX (w : ℚ) h k hk y x data) ((m : ℚ) * 4 + 3) =
        readAt data ((m : ℚ) * 4 + 3)) ?_ ?_ x data
  · intro x data hlt
    dsimp only
    intro ih
    rw [applyPixelation.loopX_lt hlt, ih, applyPixelation.loopPy_alpha]
  · intro x data hge
    rw [applyPixelation.loopX_ge (not_lt.mp hge)]

theorem applyPixelation.loopY_alpha (w : ℤ) (h : ℚ) (k : ℤ) (hk : 0 < k) (y : ℤ)
    (data : List Byte) (m : ℤ) :
    readAt (applyPixelation.loopY (w : ℚ) h k hk y data) ((m : ℚ) * 4 + 3) =
      readAt data ((m : ℚ) * 4 + 3) := by
  refine applyPixelation.loopY.induct (w : ℚ) h k hk
    (fun y data =>
      readAt (applyPixelation.loopY (w : ℚ) h k hk y data) ((m : ℚ) * 4 + 3) =
        readAt data ((m : ℚ) * 4 + 3)) ?_ ?_ y data
  · intro y data hlt
    dsimp only
    intro ih
    rw [applyPixelation.loopY_lt hlt, ih, applyPixelation.loopX_alpha]
  · intro y data hge
    rw [applyPixelation.loopY_ge (not_lt.mp hge)]

/-- For a whole-number width (of any sign), any height and any block size, the filter
leaves every alpha byte (index `4 * m + 3`) as it was. -/
theorem applyPixelation_alpha_of_intWidth (data : List Byte) (w : ℤ) (height : ℚ)
    (pixelSize : ℤ) (m : ℤ) :
    readAt (applyPixelation data (w : ℚ) height pixelSize) ((m : ℚ) * 4 + 3) =
      readAt data ((m : ℚ) * 4 + 3) := by
  unfold applyPixelation
  split
  · rfl
  · exact applyPixelation.loopY_alpha _ _ _ _ _ _ _

/-! The claims on the pixelation filter -/

/-- Claim C1. For integer width `w`, height `h` and block size `k ≥ 1`, and a buffer of
length `4 * w * h`, every pixel `(px, py)` of the filtered buffer holds in each of its
channels R, G, B (`c = 0, 1, 2`) the value that the original buffer held in that channel
at the top-left pixel `(k * ⌊px / k⌋, k * ⌊py / k⌋)` of its tile. Tiles clipped by the
right or bottom edge are covered like full ones. -/
theorem applyPixelation_tile (w h k : ℤ) (data : List Byte) (hk : 1 ≤ k)
    (hlen : (data.length : ℤ) = 4 * w * h)
    (px py c : ℤ) (hpx0 : 0 ≤ px) (hpxw : px < w) (hpy0 : 0 ≤ py) (hpyh : py < h)
    (hc0 : 0 ≤ c) (hc3 : c < 3) :
    ∃ v : Byte,
      readAt data (channelIndex w (k * (px / k)) (k * (py / k)) c) = some v ∧
      readAt (applyPixelation data (w : ℚ) (h : ℚ) k) (channelIndex w px py c) = some v := by
  unfold channelIndex
  have hk0 : 0 < k := by omega
  have hTy0 : 0 ≤ k * (py / k) := tile_ge k 0 py hk0 (dvd_zero k) hpy0
  have hTyh : k * (py / k) < h := lt_of_le_of_lt (tile_le k py hk0) hpyh
  have hTx0 : 0 ≤ k * (px / k) := tile_ge k 0 px hk0 (dvd_zero k) hpx0
  have hTxw : k * (px / k) < w := lt_of_le_of_lt (tile_le k px hk0) hpxw
  obtain ⟨v, hv⟩ := readAt_inBounds w h data hlen (k * (py / k)) (k * (px / k)) c
    hTy0 hTyh hTx0 hTxw hc0 (by omega)
  obtain ⟨u, hu⟩ := readAt_inBounds w h data hlen py px c hpy0 hpyh hpx0 hpxw hc0 (by omega)
  refine ⟨v, hv, ?_⟩
  have hcond : (0 : ℤ) ≤ py ∧ (py : ℚ) < (h : ℚ) ∧ c < 3 :=
    ⟨hpy0, by exact_mod_cast hpyh, hc3⟩
  unfold applyPixelation
  rw [dif_neg (by omega),
    applyPixelation.loopY_read w (h : ℚ) k hk0 0 data (le_refl 0) (dvd_zero k) py px c hpx0 hpxw
      hc0 (by omega),
    if_pos hcond, hu, hv]
  rfl

/-- Instance of C1 on a 3-by-2 buffer with block size 2: the green channel of pixel
`(2, 1)`, in the clipped right-hand tile, against the tile's top-left pixel `(2, 0)`. -/
theorem applyPixelation_tile_witness :
    (1 : ℤ) ≤ 2 ∧ ((exBuffer.length : ℕ) : ℤ) = 4 * 3 * 2 ∧
    (0 : ℤ) ≤ 2 ∧ (2 : ℤ) < 3 ∧ (0 : ℤ) ≤ 1 ∧ (1 : ℤ) < 2 ∧ (0 : ℤ) ≤ 1 ∧ (1 : ℤ) < 3 ∧
    ∃ v : Byte,
      readAt exBuffer (channelIndex 3 2 0 1) = some v ∧
      readAt (applyPixelation exBuffer ((3 : ℤ) : ℚ) ((2 : ℤ) : ℚ) 2) (channelIndex 3 2 1 1) =
        some v :=
  ⟨by decide, by decide, by decide, by decide, by decide, by decide, by decide, by decide,
    applyPixelation_tile 3 2 2 exBuffer (by decide) (by decide) 2 1 1
      (by decide) (by decide) (by decide) (by decide) (by decide) (by decide)⟩

/-- Claim C2, evaluated at a width that is not whole, as the renderer passes whenever
`image.width * scale` is fractional. On a 2-by-2 buffer with `width = 5/2`, `height = 2`
and block size 2 the filter writes index 11, the alpha byte of pixel `(0, 1)`, which
changes from 33 to 11 (index 15 changes likewise), so the alpha channel is not preserved. -/
theorem applyPixelation_fractional_width :
    applyPixelation exBuffer4 (5 / 2) 2 2 =
      [10, 11, 12, 13, 10, 11, 12, 23, 30, 31, 10, 11, 12, 41, 10, 11] ∧
    readAt exBuffer4 11 = some 33 ∧
    readAt (applyPixelation exBuffer4 (5 / 2) 2 2) 11 = some 11 := by
  have h : applyPixelation exBuffer4 (5 / 2) 2 2 =
      [10, 11, 12, 13, 10, 11, 12, 23, 30, 31, 10, 11, 12, 41, 10, 11] := by
    norm_num [exBuffer4, applyPixelation, applyPixelation.loopY_lt, applyPixelation.loopY_ge,
      applyPixelation.loopX_lt, applyPixelation.loopX_ge, applyPixelation.loopPy_lt,
      applyPixelation.loopPy_ge, applyPixelation.loopPx_lt, applyPixelation.loopPx_ge,
      readAt, writeAt, toUint8]
    decide
  refine ⟨h, ?_, ?_⟩
  · norm_num [readAt, exBuffer4]
    decide
  · rw [h]
    norm_num [readAt]
    decide

/-! Lemmas and claims on the fit transform and the pointer handlers -/

namespace JSNum

@[simp]
theorem fin_add_fin (a b : ℚ) : fin a + fin b = fin (a + b) := rfl
@[simp]
theorem fin_sub_fin (a b : ℚ) : fin a - fin b = fin (a - b) := by
  show add (fin a) (neg (fin b)) = fin (a - b)
  simp [add, neg, sub_eq_add_neg]
@[simp]
theorem fin_mul_fin (a b : ℚ) : fin a * fin b = fin (a * b) := rfl
theorem fin_div_fin (a b : ℚ) (hb : b ≠ 0) : fin a / fin b = fin (a / b) := by
  show div (fin a) (fin b) = fin (a / b)
  simp [div, hb]
@[simp]
theorem min_fin_fin (a b : ℚ) : JSNum.min (fin a) (fin b) = fin (Min.min a b) := rfl
@[simp]
theorem le_fin_fin (a b : ℚ) : JSNum.le (fin a) (fin b) = decide (a ≤ b) := rfl
@[simp]
theorem ge_fin_fin (a b : ℚ) : JSNum.ge (fin a) (fin b) = decide (b ≤ a) := rfl

end JSNum

/-- Claim C3. For an image of positive width and height on any surface,
`getImageDimensions` returns finite values with `scale = min (surfW / imgW) (surfH / imgH)`,
`width = imgW * scale`, `height = imgH * scale`, `x = (surfW - width) / 2` and
`y = (surfH - height) / 2`, and the rectangle is centred on the surface. -/
theorem getImageDimensions_fit (imgW imgH surfW surfH rl rt : ℚ) (hW : 0 < imgW)
    (hH : 0 < imgH) :
    ∃ scale width height x y : ℚ,
      getImageDimensions (some ⟨imgW, imgH⟩) (some ⟨surfW, surfH, rl, rt⟩) =
        { width := .fin width, height := .fin height, x := .fin x, y := .fin y,
          scale := .fin scale } ∧
      scale = min (surfW / imgW) (surfH / imgH) ∧
      width = imgW * scale ∧ height = imgH * scale ∧
      x = (surfW - width) / 2 ∧ y = (surfH - height) / 2 ∧
      x + width / 2 = surfW / 2 ∧ y + height / 2 = surfH / 2 := by
  refine ⟨min (surfW / imgW) (surfH / imgH), imgW * min (surfW / imgW) (surfH / imgH),
    imgH * min (surfW / imgW) (surfH / imgH),
    (surfW - imgW * min (surfW / imgW) (surfH / imgH)) / 2,
    (surfH - imgH * min (surfW / imgW) (surfH / imgH)) / 2, ?_, rfl, rfl, rfl, rfl, rfl, ?_, ?_⟩
  · simp only [getImageDimensions]
    rw [JSNum.fin_div_fin _ _ (ne_of_gt hW), JSNum.fin_div_fin _ _ (ne_of_gt hH)]
    simp only [JSNum.min_fin_fin, JSNum.fin_mul_fin, JSNum.fin_sub_fin]
    rw [JSNum.fin_div_fin _ _ (by norm_num), JSNum.fin_div_fin _ _ (by norm_num)]
  · ring
  · ring

/-- The condition of the loop is the padded box of the specification. -/
theorem hit_iff_inPaddedBox (host : TextHost) (L : Label) (pos : JSPoint) :
    handleMouseDown.hit host L pos = true ↔ InPaddedBox host L pos := by
  obtain ⟨px, py⟩ := pos
  cases px <;> cases py <;>
    simp [handleMouseDown.hit, InPaddedBox, JSNum.ge, JSNum.le, and_assoc]

theorem inPaddedBox_finite (host : TextHost) (L : Label) (pos : JSPoint)
    (h : InPaddedBox host L pos) : ∃ px py : ℚ, pos = ⟨.fin px, .fin py⟩ := by
  obtain ⟨px, py⟩ := pos
  cases px <;> cases py <;> simp [InPaddedBox] at h ⊢

/-- The loop runs to its end exactly when no iteration's condition holds. -/
theorem loop_eq_none_iff (host : TextHost) (texts : List Label) (pos : JSPoint) (n : ℕ)
    (hn : n ≤ texts.length) :
    handleMouseDown.loop host texts pos n hn = none ↔
      ∀ j, ∀ hj : j < n, handleMouseDown.hit host (texts[j]) pos = false := by
  induction n with
  | zero => simp [handleMouseDown.loop]
  | succ i ih =>
    simp only [handleMouseDown.loop]
    by_cases hh : handleMouseDown.hit host (texts[i]) pos = true
    · rw [if_pos hh]
      constructor
      · intro h
        cases h
      · intro h
        have := h i (Nat.lt_succ_self i)
        rw [hh] at this
        cases this
    · rw [if_neg hh]
      rw [ih (Nat.le_of_succ_le hn)]
      constructor
      · intro h j hj
        by_cases hji : j = i
        · subst hji
          simpa using hh
        · exact h j (by omega)
      · intro h j hj
        exact h j (by omega)

/-- The loop returns from the iteration of the greatest index whose condition holds. -/
theorem loop_eq_some_iff (host : TextHost) (texts : List Label) (pos : JSPoint) (n : ℕ)
    (hn : n ≤ texts.length) (L : Label) :
    handleMouseDown.loop host texts pos n hn = some L ↔
      ∃ i, ∃ hi : i < n, texts[i] = L ∧ handleMouseDown.hit host (texts[i]) pos = true ∧
        ∀ j, ∀ hj : j < n, i < j → handleMouseDown.hit host (texts[j]) pos = false := by
  induction n with
  | zero => simp [handleMouseDown.loop]
  | succ k ih =>
    simp only [handleMouseDown.loop]
    by_cases hh : handleMouseDown.hit host (texts[k]) pos = true
    · rw [if_pos hh]
      constructor
      · intro h
        refine ⟨k, Nat.lt_succ_self k, Option.some.inj h, hh, ?_⟩
        intro j hj hkj
        omega
      · rintro ⟨i, hi, hL, hhit, hmax⟩
        by_cases hik : i = k
        · subst hik
          rw [hL]
        · have := hmax k (Nat.lt_succ_self k) (by omega)
          rw [hh] at this
          cases this
    · rw [if_neg hh]
      rw [ih (Nat.le_of_succ_le hn)]
      constructor
      · rintro ⟨i, hi, hL, hhit, hmax⟩
        refine ⟨i, by omega, hL, hhit, ?_⟩
        intro j hj hij
        by_cases hjk : j = k
        · subst hjk
          simpa using hh
        · exact hmax j (by omega) hij
      · rintro ⟨i, hi, hL, hhit, hmax⟩
        have hik : i ≠ k := by
          rintro rfl
          exact hh hhit
        exact ⟨i, by omega, hL, hhit, fun j hj hij => hmax j (by omega) hij⟩


theorem hit_false_iff (host : TextHost) (L : Label) (pos : JSPoint) :
    handleMouseDown.hit host L pos = false ↔ ¬ InPaddedBox host L pos := by
  rw [← hit_iff_inPaddedBox]
  simp

theorem handleMouseDown_of_loop_none (props : Props) (st : DragState) (e : MouseEvent)
    (h : handleMouseDown.loop props.host props.texts
      (getRelativePos props.image props.canvas e) props.texts.length (Nat.le_refl _) = none) :
    handleMouseDown props st e = (st, []) := by
  simp only [handleMouseDown, h]

theorem handleMouseDown_of_loop_some (props : Props) (st : DragState) (e : MouseEvent)
    (L : Label)
    (h : handleMouseDown.loop props.host props.texts
      (getRelativePos props.image props.canvas e) props.texts.length (Nat.le_refl _) = some L) :
    handleMouseDown props st e =
      ({ isDragging := true, dragTextId := some L.id,
         dragOffset :=
          { x := (getRelativePos props.image props.canvas e).x - JSNum.fin L.x,
            y := (getRelativePos props.image props.canvas e).y - JSNum.fin L.y } },
       [Notification.onTextSelect L.id]) := by
  simp only [handleMouseDown, h]

theorem loop_of_topmost (host : TextHost) (texts : List Label) (pos : JSPoint) (i : ℕ)
    (hi : i < texts.length) (hin : InPaddedBox host (texts[i]) pos)
    (hmax : ∀ j, ∀ hj : j < texts.length, i < j → ¬ InPaddedBox host (texts[j]) pos) :
    handleMouseDown.loop host texts pos texts.length (Nat.le_refl _) = some (texts[i]) := by
  rw [loop_eq_some_iff]
  exact ⟨i, hi, rfl, (hit_iff_inPaddedBox _ _ _).mpr hin,
    fun j hj hij => (hit_false_iff _ _ _).mpr (hmax j hj hij)⟩

theorem loop_of_miss (host : TextHost) (texts : List Label) (pos : JSPoint)
    (hmiss : ∀ i, ∀ hi : i < texts.length, ¬ InPaddedBox host (texts[i]) pos) :
    handleMouseDown.loop host texts pos texts.length (Nat.le_refl _) = none := by
  rw [loop_eq_none_iff]
  exact fun j hj => (hit_false_iff _ _ _).mpr (hmiss j hj)

/-- Claim C5. The loop of `handleMouseDown` resolves to a label `L` exactly when `L` sits at
the greatest list index whose padded box contains the point, and to no label exactly when
no padded box contains the point; when two labels contain the point, the label resolved
sits at or after the later of the two. -/
theorem hitTest_topmost (host : TextHost) (texts : List Label) (pos : JSPoint) :
    (∀ L, handleMouseDown.loop host texts pos texts.length (Nat.le_refl _) = some L ↔
      ∃ i, ∃ hi : i < texts.length, texts[i] = L ∧ InPaddedBox host (texts[i]) pos ∧
        ∀ j, ∀ hj : j < texts.length, i < j → ¬ InPaddedBox host (texts[j]) pos) ∧
    (handleMouseDown.loop host texts pos texts.length (Nat.le_refl _) = none ↔
      ∀ i, ∀ hi : i < texts.length, ¬ InPaddedBox host (texts[i]) pos) ∧
    (∀ i j, ∀ hi : i < texts.length, ∀ hj : j < texts.length, i < j →
      InPaddedBox host (texts[i]) pos → InPaddedBox host (texts[j]) pos →
      ∃ m, ∃ hm : m < texts.length, j ≤ m ∧
        handleMouseDown.loop host texts pos texts.length (Nat.le_refl _) = some (texts[m])) := by
  refine ⟨?_, ?_, ?_⟩
  · intro L
    rw [loop_eq_some_iff]
    simp only [hit_iff_inPaddedBox, hit_false_iff]
  · rw [loop_eq_none_iff]
    simp only [hit_false_iff]
  · intro i j hi hj hij hini hinj
    cases hres : handleMouseDown.loop host texts pos texts.length (Nat.le_refl _) with
    | none =>
      rw [loop_eq_none_iff] at hres
      exact absurd hinj ((hit_false_iff _ _ _).mp (hres j hj))
    | some L =>
      obtain ⟨m, hm, hL, _, hmax⟩ := (loop_eq_some_iff _ _ _ _ _ _).mp hres
      refine ⟨m, hm, ?_, by rw [hL]⟩
      by_contra hlt
      exact (hit_false_iff _ _ _).mp (hmax j hj (by omega)) hinj

/-- Claim C6. When the pointer-down position lies in the padded box of the label at index
`i` and of no later label, `handleMouseDown` makes the drag state active with that label's
id and the offset `position - centre`, and calls `onTextSelect` with that id and nothing
else. -/
theorem handleMouseDown_hit (props : Props) (st : DragState) (e : MouseEvent) (i : ℕ)
    (hi : i < props.texts.length)
    (hin : InPaddedBox props.host (props.texts[i]) (getRelativePos props.image props.canvas e))
    (hmax : ∀ j, ∀ hj : j < props.texts.length, i < j →
      ¬ InPaddedBox props.host (props.texts[j]) (getRelativePos props.image props.canvas e)) :
    ∃ px py : ℚ, getRelativePos props.image props.canvas e = ⟨.fin px, .fin py⟩ ∧
      handleMouseDown props st e =
        ({ isDragging := true, dragTextId := some (props.texts[i]).id,
           dragOffset := ⟨.fin (px - (props.texts[i]).x), .fin (py - (props.texts[i]).y)⟩ },
         [Notification.onTextSelect (props.texts[i]).id]) := by
  obtain ⟨px, py, hp⟩ := inPaddedBox_finite _ _ _ hin
  refine ⟨px, py, hp, ?_⟩
  rw [handleMouseDown_of_loop_some props st e _ (loop_of_topmost _ _ _ i hi hin hmax), hp]
  simp only [JSNum.fin_sub_fin]

/-- Claim C8. A pointer-down whose position lies in no label's padded box calls no
callback and leaves the drag state as it was; from the initial state it stays initial. -/
theorem handleMouseDown_miss (props : Props) (st : DragState) (e : MouseEvent)
    (hmiss : ∀ i, ∀ hi : i < props.texts.length,
      ¬ InPaddedBox props.host (props.texts[i]) (getRelativePos props.image props.canvas e)) :
    handleMouseDown props st e = (st, []) ∧
    handleMouseDown props DragState.initial e = (DragState.initial, []) :=
  ⟨handleMouseDown_of_loop_none props st e (loop_of_miss _ _ _ hmiss),
   handleMouseDown_of_loop_none props _ e (loop_of_miss _ _ _ hmiss)⟩

/-- Claim C9. From every drag state, pointer-up yields `isDragging = false` and
`dragTextId = none` with no callback; pointer-leave does the same; a second pointer-up
changes nothing; from the initial state pointer-up changes nothing. -/
theorem handleMouseUp_clears (props : Props) (st : DragState) :
    (dispatch props st .mouseUp).1.isDragging = false ∧
    (dispatch props st .mouseUp).1.dragTextId = none ∧
    (dispatch props st .mouseUp).2 = [] ∧
    dispatch props st .mouseLeave = dispatch props st .mouseUp ∧
    dispatch props (dispatch props st .mouseUp).1 .mouseUp = dispatch props st .mouseUp ∧
    dispatch props DragState.initial .mouseUp = (DragState.initial, []) :=
  ⟨rfl, rfl, rfl, rfl, rfl, rfl⟩

theorem handleMouseMove_idle (props : Props) (st : DragState) (e : MouseEvent)
    (hidle : st.isDragging = false) : handleMouseMove props st e = (st, []) := by
  simp [handleMouseMove, hidle]

/-- From an inactive state, a sequence whose pointer-downs all miss calls no callback and
ends inactive. -/
theorem run_idle (evs : List (Props × PointerEvent)) (hevs : DownsMiss evs) (st : DragState)
    (hidle : st.isDragging = false) :
    (run st evs).2 = [] ∧ (run st evs).1.isDragging = false := by
  induction evs generalizing st with
  | nil => exact ⟨rfl, hidle⟩
  | cons d rest ih =>
    obtain ⟨props, ev⟩ := d
    have hrest : DownsMiss rest := fun p e hmem => hevs p e (List.mem_cons_of_mem _ hmem)
    have hstep : (dispatch props st ev).2 = [] ∧ (dispatch props st ev).1.isDragging = false := by
      cases ev with
      | mouseDown e =>
        have := handleMouseDown_of_loop_none props st e
          (loop_of_miss _ _ _ (hevs props e (List.mem_cons_self _ _)))
        show (handleMouseDown props st e).2 = [] ∧ (handleMouseDown props st e).1.isDragging = false
        rw [this]
        exact ⟨rfl, hidle⟩
      | mouseMove e =>
        show (handleMouseMove props st e).2 = [] ∧ (handleMouseMove props st e).1.isDragging = false
        rw [handleMouseMove_idle props st e hidle]
        exact ⟨rfl, hidle⟩
      | mouseUp => exact ⟨rfl, rfl⟩
      | mouseLeave => exact ⟨rfl, rfl⟩
    have := ih hrest (dispatch props st ev).1 hstep.2
    simp only [run, hstep.1, this.1, this.2, List.append_nil, and_self]


theorem run_moves_idle (evs : List (Props × PointerEvent))
    (hmoves : ∀ d ∈ evs, ∃ e, d.2 = PointerEvent.mouseMove e) (st : DragState)
    (hidle : st.isDragging = false) : run st evs = (st, []) := by
  induction evs with
  | nil => rfl
  | cons d rest ih =>
    obtain ⟨props, ev⟩ := d
    obtain ⟨e, he⟩ := hmoves (props, ev) (List.mem_cons_self _ _)
    have he' : ev = PointerEvent.mouseMove e := he
    subst he'
    have hrest := ih (fun d hd => hmoves d (List.mem_cons_of_mem _ hd))
    simp only [run, dispatch, handleMouseMove_idle props st e hidle, hrest, List.append_nil]

/-- Claim C10. While the drag state is not active, a pointer-move calls no callback and
leaves the state unchanged. Hence no callback is called by any sequence of events whose
pointer-downs all miss, run from an inactive state or after a pointer-up or pointer-leave
from any state, and a sequence of pointer-moves alone leaves the state unchanged. -/
theorem move_when_idle_silent (st : DragState) (evs : List (Props × PointerEvent))
    (hidle : st.isDragging = false) (hevs : DownsMiss evs) :
    (∀ props e, handleMouseMove props st e = (st, [])) ∧
    (run st evs).2 = [] ∧
    (∀ props0 st0, (run st0 ((props0, PointerEvent.mouseUp) :: evs)).2 = [] ∧
      (run st0 ((props0, PointerEvent.mouseLeave) :: evs)).2 = []) ∧
    ((∀ d ∈ evs, ∃ e, d.2 = PointerEvent.mouseMove e) → run st evs = (st, [])) := by
  refine ⟨fun props e => handleMouseMove_idle props st e hidle, (run_idle evs hevs st hidle).1,
    ?_, fun hmoves => run_moves_idle evs hmoves st hidle⟩
  intro props0 st0
  have h := (run_idle evs hevs (handleMouseUp st0).1 rfl).1
  constructor
  · simp only [run, dispatch, h]
    rfl
  · simp only [run, dispatch, h]
    rfl

/-! Concrete instances -/

theorem ex_getRelativePos (texts : List Label) (cx cy : ℚ) :
    getRelativePos (exProps texts).image (exProps texts).canvas ⟨cx, cy⟩ =
      ⟨.fin ((cx - 10) / 2), .fin ((cy - 20) / 2)⟩ := by
  norm_num [exProps, getRelativePos, getRelativePos.ofDims, getImageDimensions,
    JSNum.fin_div_fin]

/-- Instance of C3: a 300-by-200 image on a 1000-by-700 surface. -/
theorem getImageDimensions_fit_witness :
    (0 : ℚ) < 300 ∧ (0 : ℚ) < 200 ∧
    ∃ scale width height x y : ℚ,
      getImageDimensions (some ⟨300, 200⟩) (some ⟨1000, 700, 0, 0⟩) =
        { width := .fin width, height := .fin height, x := .fin x, y := .fin y,
          scale := .fin scale } ∧
      scale = min ((1000 : ℚ) / 300) ((700 : ℚ) / 200) ∧
      width = 300 * scale ∧ height = 200 * scale ∧
      x = (1000 - width) / 2 ∧ y = (700 - height) / 2 ∧
      x + width / 2 = (1000 : ℚ) / 2 ∧ y + height / 2 = (700 : ℚ) / 2 :=
  ⟨by norm_num, by norm_num,
    getImageDimensions_fit 300 200 1000 700 0 0 (by norm_num) (by norm_num)⟩

/-- Instance of C5: the point `(105, 102)` lies in the boxes of both `exLabelA` and
`exLabelB`, and the loop resolves to `exLabelB`, the later one. -/
theorem hitTest_topmost_witness :
    InPaddedBox exHost exLabelA ⟨.fin 105, .fin 102⟩ ∧
    InPaddedBox exHost exLabelB ⟨.fin 105, .fin 102⟩ ∧
    handleMouseDown.loop exHost [exLabelA, exLabelB] ⟨.fin 105, .fin 102⟩ 2 (Nat.le_refl _) =
      some exLabelB := by
  have hA : InPaddedBox exHost exLabelA ⟨.fin 105, .fin 102⟩ := by
    norm_num [InPaddedBox, exHost, exLabelA, displayText]
  have hB : InPaddedBox exHost exLabelB ⟨.fin 105, .fin 102⟩ := by
    norm_num [InPaddedBox, exHost, exLabelB, displayText]
  refine ⟨hA, hB, ?_⟩
  exact ((hitTest_topmost exHost [exLabelA, exLabelB] ⟨.fin 105, .fin 102⟩).1 exLabelB).mpr
    ⟨1, by decide, rfl, hB, fun j hj hij => by
      have : j < 2 := hj
      omega⟩

theorem ex_miss (i : ℕ) (hi : i < (exProps [exLabelA, exLabelB]).texts.length) :
    ¬ InPaddedBox (exProps [exLabelA, exLabelB]).host ((exProps [exLabelA, exLabelB]).texts[i])
      (getRelativePos (exProps [exLabelA, exLabelB]).image
        (exProps [exLabelA, exLabelB]).canvas ⟨1010, 1020⟩) := by
  rw [ex_getRelativePos]
  have hi2 : i < 2 := hi
  match i, hi with
  | 0, _ => norm_num [InPaddedBox, exProps, exHost, exLabelA, displayText]
  | 1, _ => norm_num [InPaddedBox, exProps, exHost, exLabelB, displayText]

/-- Instance of C6: a pointer-down that maps to the image point `(105, 102)`, inside the
boxes of both labels, starts a drag of `exLabelB` with offset `(-5, 2)`. -/
theorem handleMouseDown_hit_witness :
    InPaddedBox exHost exLabelB
      (getRelativePos (exProps [exLabelA, exLabelB]).image
        (exProps [exLabelA, exLabelB]).canvas ⟨220, 224⟩) ∧
    handleMouseDown (exProps [exLabelA, exLabelB]) DragState.initial ⟨220, 224⟩ =
      ({ isDragging := true, dragTextId := some 2, dragOffset := ⟨.fin (-5), .fin 2⟩ },
       [Notification.onTextSelect 2]) := by
  have hpos := ex_getRelativePos [exLabelA, exLabelB] 220 224
  have hin : InPaddedBox exHost exLabelB
      (getRelativePos (exProps [exLabelA, exLabelB]).image
        (exProps [exLabelA, exLabelB]).canvas ⟨220, 224⟩) := by
    rw [hpos]
    norm_num [InPaddedBox, exHost, exLabelB, displayText]
  obtain ⟨px, py, hp, hdown⟩ :=
    handleMouseDown_hit (exProps [exLabelA, exLabelB]) DragState.initial ⟨220, 224⟩ 1
      (by decide) hin (fun j hj hij => by
        have : j < 2 := hj
        omega)
  rw [hpos] at hp
  have hx : px = 105 := by
    have := congrArg JSPoint.x hp
    simp only [JSNum.fin.injEq] at this
    rw [← this]
    norm_num
  have hy : py = 102 := by
    have := congrArg JSPoint.y hp
    simp only [JSNum.fin.injEq] at this
    rw [← this]
    norm_num
  refine ⟨hin, ?_⟩
  rw [hdown, hx, hy]
  norm_num [exProps, exLabelB]

/-- Instance of C8: a pointer-down that maps to the image point `(500, 500)`, outside both
boxes, during a drag of label 2. -/
theorem handleMouseDown_miss_witness :
    (∀ i, ∀ hi : i < (exProps [exLabelA, exLabelB]).texts.length,
      ¬ InPaddedBox (exProps [exLabelA, exLabelB]).host
        ((exProps [exLabelA, exLabelB]).texts[i])
        (getRelativePos (exProps [exLabelA, exLabelB]).image
          (exProps [exLabelA, exLabelB]).canvas ⟨1010, 1020⟩)) ∧
    handleMouseDown (exProps [exLabelA, exLabelB])
        ⟨true, some 2, ⟨.fin (-5), .fin 2⟩⟩ ⟨1010, 1020⟩ =
      (⟨true, some 2, ⟨.fin (-5), .fin 2⟩⟩, []) ∧
    handleMouseDown (exProps [exLabelA, exLabelB]) DragState.initial ⟨1010, 1020⟩ =
      (DragState.initial, []) :=
  ⟨ex_miss, handleMouseDown_miss (exProps [exLabelA, exLabelB])
    ⟨true, some 2, ⟨.fin (-5), .fin 2⟩⟩ ⟨1010, 1020⟩ ex_miss⟩

/-- Instance of C10: from the initial state, a move, a pointer-down that misses and
another move call no callback, also after a pointer-up from a state that was dragging. -/
theorem move_when_idle_silent_witness :
    DragState.initial.isDragging = false ∧
    DownsMiss [(exProps [exLabelA, exLabelB], PointerEvent.mouseMove ⟨310, 300⟩),
      (exProps [exLabelA, exLabelB], PointerEvent.mouseDown ⟨1010, 1020⟩),
      (exProps [exLabelA, exLabelB], PointerEvent.mouseMove ⟨0, 0⟩)] ∧
    (run DragState.initial
      [(exProps [exLabelA, exLabelB], PointerEvent.mouseMove ⟨310, 300⟩),
       (exProps [exLabelA, exLabelB], PointerEvent.mouseDown ⟨1010, 1020⟩),
       (exProps [exLabelA, exLabelB], PointerEvent.mouseMove ⟨0, 0⟩)]).2 = [] ∧
    (run ⟨true, some 2, ⟨.fin (-5), .fin 2⟩⟩
      [(exProps [exLabelA, exLabelB], PointerEvent.mouseUp),
       (exProps [exLabelA, exLabelB], PointerEvent.mouseMove ⟨310, 300⟩),
       (exProps [exLabelA, exLabelB], PointerEvent.mouseDown ⟨1010, 1020⟩),
       (exProps [exLabelA, exLabelB], PointerEvent.mouseMove ⟨0, 0⟩)]).2 = [] := by
  have hmiss : DownsMiss [(exProps [exLabelA, exLabelB], PointerEvent.mouseMove ⟨310, 300⟩),
      (exProps [exLabelA, exLabelB], PointerEvent.mouseDown ⟨1010, 1020⟩),
      (exProps [exLabelA, exLabelB], PointerEvent.mouseMove ⟨0, 0⟩)] := by
    intro props e hmem
    rcases List.mem_cons.mp hmem with h | hmem
    · cases h
    · rcases List.mem_cons.mp hmem with h | hmem
      · cases h
        exact ex_miss
      · rcases List.mem_cons.mp hmem with h | hmem
        · cases h
        · cases hmem
  have h := move_when_idle_silent DragState.initial _ rfl hmiss
  exact ⟨rfl, hmiss, h.2.1, (h.2.2.1 (exProps [exLabelA, exLabelB])
    ⟨true, some 2, ⟨.fin (-5), .fin 2⟩⟩).1⟩

/-! The fit transform at its edges -/

/-- Claim C11 as stated fails for an image with a zero side. A 0-by-100 image on a
400-by-400 surface gets scale 4 and the rectangle `(200, 0, 0, 400)`; a 100-by-0 image
gets scale 4 and the rectangle `(0, 200, 400, 0)`; a 0-by-0 image gets an infinite scale
and `NaN` everywhere else. None of them is the degenerate result. -/
theorem getImageDimensions_zero_side :
    getImageDimensions (some ⟨0, 100⟩) (some ⟨400, 400, 0, 0⟩) =
      { width := .fin 0, height := .fin 400, x := .fin 200, y := .fin 0, scale := .fin 4 } ∧
    getImageDimensions (some ⟨100, 0⟩) (some ⟨400, 400, 0, 0⟩) =
      { width := .fin 400, height := .fin 0, x := .fin 0, y := .fin 200, scale := .fin 4 } ∧
    getImageDimensions (some ⟨0, 0⟩) (some ⟨400, 400, 0, 0⟩) =
      { width := .nan, height := .nan, x := .nan, y := .nan, scale := .posInf } ∧
    getImageDimensions (some ⟨0, 100⟩) (some ⟨400, 400, 0, 0⟩) ≠
      { width := .fin 0, height := .fin 0, x := .fin 0, y := .fin 0, scale := .fin 1 } := by
  have h1 : getImageDimensions (some ⟨0, 100⟩) (some ⟨400, 400, 0, 0⟩) =
      { width := .fin 0, height := .fin 400, x := .fin 200, y := .fin 0, scale := .fin 4 } := by
    simp only [getImageDimensions]
    norm_num [HDiv.hDiv, Div.div, HMul.hMul, Mul.mul, HSub.hSub, Sub.sub, JSNum.div, JSNum.mul,
      JSNum.sub, JSNum.add, JSNum.neg, JSNum.min, JSNum.infOfSign]
  refine ⟨h1, ?_, ?_, ?_⟩
  · simp only [getImageDimensions]
    norm_num [HDiv.hDiv, Div.div, HMul.hMul, Mul.mul, HSub.hSub, Sub.sub, JSNum.div, JSNum.mul,
      JSNum.sub, JSNum.add, JSNum.neg, JSNum.min, JSNum.infOfSign]
  · simp only [getImageDimensions]
    norm_num [HDiv.hDiv, Div.div, HMul.hMul, Mul.mul, HSub.hSub, Sub.sub, JSNum.div, JSNum.mul,
      JSNum.sub, JSNum.add, JSNum.neg, JSNum.min, JSNum.infOfSign]
  · rw [h1]
    intro h
    have := congrArg ImgDims.scale h
    simp only [JSNum.fin.injEq] at this
    norm_num at this

/-- Claim C11, amended. When no image is present, and likewise when no canvas is mounted,
`getImageDimensions` returns the degenerate result `x = 0`, `y = 0`, `width = 0`,
`height = 0`, `scale = 1`, whatever the surface. -/
theorem getImageDimensions_absent (image : Option Image) (canvas : Option Canvas) :
    getImageDimensions none canvas =
      { width := .fin 0, height := .fin 0, x := .fin 0, y := .fin 0, scale := .fin 1 } ∧
    getImageDimensions image none =
      { width := .fin 0, height := .fin 0, x := .fin 0, y := .fin 0, scale := .fin 1 } := by
  constructor
  · rfl
  · cases image <;> rfl

/-- The fit result for an image with positive sides, in closed form. -/
theorem getImageDimensions_pos (imgW imgH surfW surfH rl rt : ℚ) (hW : 0 < imgW)
    (hH : 0 < imgH) :
    getImageDimensions (some ⟨imgW, imgH⟩) (some ⟨surfW, surfH, rl, rt⟩) =
      { width := .fin (imgW * min (surfW / imgW) (surfH / imgH)),
        height := .fin (imgH * min (surfW / imgW) (surfH / imgH)),
        x := .fin ((surfW - imgW * min (surfW / imgW) (surfH / imgH)) / 2),
        y := .fin ((surfH - imgH * min (surfW / imgW) (surfH / imgH)) / 2),
        scale := .fin (min (surfW / imgW) (surfH / imgH)) } := by
  simp only [getImageDimensions]
  rw [JSNum.fin_div_fin _ _ (ne_of_gt hW), JSNum.fin_div_fin _ _ (ne_of_gt hH)]
  simp only [JSNum.min_fin_fin, JSNum.fin_mul_fin, JSNum.fin_sub_fin]
  rw [JSNum.fin_div_fin _ _ (by norm_num), JSNum.fin_div_fin _ _ (by norm_num)]

/-- In exact arithmetic, for an image with positive sides the fitted rectangle lies inside
the surface, keeps the aspect ratio of the image, and touches the surface bounds on at
least one axis. -/
theorem getImageDimensions_inside (imgW imgH surfW surfH rl rt : ℚ) (hW : 0 < imgW)
    (hH : 0 < imgH) :
    ∃ scale width height x y : ℚ,
      getImageDimensions (some ⟨imgW, imgH⟩) (some ⟨surfW, surfH, rl, rt⟩) =
        { width := .fin width, height := .fin height, x := .fin x, y := .fin y,
          scale := .fin scale } ∧
      0 ≤ x ∧ 0 ≤ y ∧ x + width ≤ surfW ∧ y + height ≤ surfH ∧
      width * imgH = height * imgW ∧ (width = surfW ∨ height = surfH) := by
  refine ⟨_, _, _, _, _, getImageDimensions_pos imgW imgH surfW surfH rl rt hW hH, ?_⟩
  have hw : imgW * min (surfW / imgW) (surfH / imgH) ≤ surfW := by
    calc imgW * min (surfW / imgW) (surfH / imgH)
        ≤ imgW * (surfW / imgW) := mul_le_mul_of_nonneg_left (min_le_left _ _) (le_of_lt hW)
      _ = surfW := mul_div_cancel₀ _ (ne_of_gt hW)
  have hh : imgH * min (surfW / imgW) (surfH / imgH) ≤ surfH := by
    calc imgH * min (surfW / imgW) (surfH / imgH)
        ≤ imgH * (surfH / imgH) := mul_le_mul_of_nonneg_left (min_le_right _ _) (le_of_lt hH)
      _ = surfH := mul_div_cancel₀ _ (ne_of_gt hH)
  refine ⟨by linarith, by linarith, by linarith, by linarith, by ring, ?_⟩
  rcases le_total (surfW / imgW) (surfH / imgH) with h | h
  · left
    rw [min_eq_left h]
    exact mul_div_cancel₀ _ (ne_of_gt hW)
  · right
    rw [min_eq_right h]
    exact mul_div_cancel₀ _ (ne_of_gt hH)

/-! The block size and the filter at its edges -/

@[simp]
theorem JSNum.floor_fin (a : ℚ) : JSNum.floor (.fin a) = .fin ((⌊a⌋ : ℤ) : ℚ) := rfl

@[simp]
theorem JSNum.max_fin_fin (a b : ℚ) : JSNum.max (.fin a) (.fin b) = .fin (Max.max a b) := rfl

/-- Claim C18. With a block size that is zero or negative the filter returns at its guard:
the buffer comes back unchanged, whatever the width and height. The model is a total
function, so the call returns. -/
theorem applyPixelation_nonpos (data : List Byte) (width height : ℚ) (pixelSize : ℤ)
    (hk : pixelSize ≤ 0) : applyPixelation data width height pixelSize = data := by
  unfold applyPixelation
  rw [dif_pos hk]

/-- Instance of C18: block sizes 0 and -3 on a 2-by-2 buffer. -/
theorem applyPixelation_nonpos_witness :
    (0 : ℤ) ≤ 0 ∧ (-3 : ℤ) ≤ 0 ∧
    applyPixelation exBuffer4 2 2 0 = exBuffer4 ∧
    applyPixelation exBuffer4 2 2 (-3) = exBuffer4 :=
  ⟨by decide, by decide, applyPixelation_nonpos exBuffer4 2 2 0 (by decide),
    applyPixelation_nonpos exBuffer4 2 2 (-3) (by decide)⟩

/-- Storing back the value just read from the same index changes nothing. -/
theorem writeAt_readAt_self (data : List Byte) (i : ℚ) :
    writeAt data i (readAt data i) = data := by
  unfold writeAt readAt
  by_cases h : i.den = 1 ∧ 0 ≤ i
  · simp only [if_pos h]
    by_cases hlt : i.num.toNat < data.length
    · rw [List.getElem?_eq_getElem hlt]
      apply List.ext_getElem?
      intro j
      rw [List.getElem?_set]
      by_cases hj : i.num.toNat = j
      · subst hj
        simp [toUint8, hlt]
      · rw [if_neg hj]
    · exact List.set_eq_of_length_le (not_lt.mp hlt)
  · simp only [if_neg h]

/-- With block size 1 the innermost loop, started on the sampled pixel itself, runs one
round that stores the sampled values where they were read. -/
theorem applyPixelation.loopPx_one (width : ℚ) (y x : ℤ) (data : List Byte)
    (hx : (x : ℚ) < width) :
    applyPixelation.loopPx width y (min ((x : ℚ) + ((1 : ℤ) : ℚ)) width)
        (readAt data (((y : ℚ) * width + x) * 4))
        (readAt data (((y : ℚ) * width + x) * 4 + 1))
        (readAt data (((y : ℚ) * width + x) * 4 + 2)) x data = data := by
  have hlt : (x : ℚ) < min ((x : ℚ) + ((1 : ℤ) : ℚ)) width :=
    lt_min (by push_cast; linarith) hx
  have hge : min ((x : ℚ) + ((1 : ℤ) : ℚ)) width ≤ ((x + 1 : ℤ) : ℚ) := by
    push_cast
    exact min_le_left _ _
  rw [applyPixelation.loopPx_lt hlt, writeAt_readAt_self, writeAt_readAt_self,
    writeAt_readAt_self, applyPixelation.loopPx_ge hge]

theorem applyPixelation.loopPy_one (width height : ℚ) (y x : ℤ) (data : List Byte)
    (hx : (x : ℚ) < width) (hy : (y : ℚ) < height) :
    applyPixelation.loopPy width x (min ((x : ℚ) + ((1 : ℤ) : ℚ)) width)
        (min ((y : ℚ) + ((1 : ℤ) : ℚ)) height)
        (readAt data (((y : ℚ) * width + x) * 4))
        (readAt data (((y : ℚ) * width + x) * 4 + 1))
        (readAt data (((y : ℚ) * width + x) * 4 + 2)) y data = data := by
  have hlt : (y : ℚ) < min ((y : ℚ) + ((1 : ℤ) : ℚ)) height :=
    lt_min (by push_cast; linarith) hy
  have hge : min ((y : ℚ) + ((1 : ℤ) : ℚ)) height ≤ ((y + 1 : ℤ) : ℚ) := by
    push_cast
    exact min_le_left _ _
  rw [applyPixelation.loopPy_lt hlt, applyPixelation.loopPx_one width y x data hx,
    applyPixelation.loopPy_ge hge]

theorem applyPixelation.loopX_one (width height : ℚ) (hk : (0 : ℤ) < 1) (y : ℤ)
    (hy : (y : ℚ) < height) (x : ℤ) (data : List Byte) :
    applyPixelation.loopX width height 1 hk y x data = data := by
  refine applyPixelation.loopX.induct width height 1 hk y
    (fun x data => applyPixelation.loopX width height 1 hk y x data = data) ?_ ?_ x data
  · intro x data hlt
    dsimp only
    intro ih
    rw [applyPixelation.loopX_lt hlt, applyPixelation.loopPy_one width height y x data hlt hy]
      at *
    exact ih
  · intro x data hge
    rw [applyPixelation.loopX_ge (not_lt.mp hge)]

theorem applyPixelation.loopY_one (width height : ℚ) (hk : (0 : ℤ) < 1) (y : ℤ)
    (data : List Byte) :
    applyPixelation.loopY width height 1 hk y data = data := by
  refine applyPixelation.loopY.induct width height 1 hk
    (fun y data => applyPixelation.loopY width height 1 hk y data = data) ?_ ?_ y data
  · intro y data hlt
    dsimp only
    intro ih
    rw [applyPixelation.loopY_lt hlt, applyPixelation.loopX_one width height hk y hlt] at *
    exact ih
  · intro y data hge
    rw [applyPixelation.loopY_ge (not_lt.mp hge)]

/-- Claim C16. With block size 1 the filter returns the buffer it was given, in every
channel, for every width and height (whole or not) and every buffer. -/
theorem applyPixelation_one (data : List Byte) (width height : ℚ) :
    applyPixelation data width height 1 = data := by
  unfold applyPixelation
  rw [dif_neg (by decide)]
  exact applyPixelation.loopY_one width height _ 0 data

/-! Applying the filter twice -/

/-- The filtered buffer, read at channel `c` of pixel `(q, p)`, for a whole-number width
and a positive block size: the channels R, G, B of the rows below `h` hold the original
value of the tile's top-left pixel, everything else is as before. -/
theorem applyPixelation_read (w : ℤ) (h : ℚ) (k : ℤ) (hk : 0 < k) (data : List Byte)
    (p q c : ℤ) (hq : 0 ≤ q) (hqw : q < w) (hc0 : 0 ≤ c) (hc4 : c < 4) :
    readAt (applyPixelation data (w : ℚ) h k) (((p : ℚ) * (w : ℚ) + (q : ℚ)) * 4 + (c : ℚ)) =
      if 0 ≤ p ∧ (p : ℚ) < h ∧ c < 3 then
        (readAt data (((p : ℚ) * (w : ℚ) + (q : ℚ)) * 4 + (c : ℚ))).map
          (fun _ => toUint8 (readAt data
            ((((k * (p / k) : ℤ) : ℚ) * (w : ℚ) + ((k * (q / k) : ℤ) : ℚ)) * 4 + (c : ℚ))))
      else readAt data (((p : ℚ) * (w : ℚ) + (q : ℚ)) * 4 + (c : ℚ)) := by
  unfold applyPixelation
  rw [dif_neg (by omega)]
  exact applyPixelation.loopY_read w h k hk 0 data (le_refl 0) (dvd_zero k) p q c hq hqw hc0 hc4

/-- With a width that is zero or negative no tile is ever entered. -/
theorem applyPixelation_width_nonpos (data : List Byte) (width height : ℚ) (k : ℤ)
    (hw : width ≤ 0) : applyPixelation data width height k = data := by
  unfold applyPixelation
  split
  · rfl
  · rename_i hk
    have hk0 : 0 < k := by omega
    have hX : ∀ (y : ℤ) (data : List Byte),
        applyPixelation.loopX width height k hk0 y 0 data = data := by
      intro y data
      exact applyPixelation.loopX_ge (by simpa using hw)
    refine applyPixelation.loopY.induct width height k hk0
      (fun y data => applyPixelation.loopY width height k hk0 y data = data) ?_ ?_ 0 data
    · intro y data hlt
      dsimp only
      intro ih
      rw [applyPixelation.loopY_lt hlt, hX] at *
      exact ih
    · intro y data hge
      rw [applyPixelation.loopY_ge (not_lt.mp hge)]

theorem readAt_natCast (data : List Byte) (i : ℕ) : readAt data (i : ℚ) = data[i]? := by
  simp [readAt]

/-- Every index is a channel of a pixel of a buffer of positive width `w`. -/
theorem index_decompose (w : ℤ) (hw : 0 < w) (i : ℕ) :
    ∃ p q c : ℤ, 0 ≤ p ∧ 0 ≤ q ∧ q < w ∧ 0 ≤ c ∧ c < 4 ∧
      (i : ℚ) = ((p : ℚ) * (w : ℚ) + (q : ℚ)) * 4 + (c : ℚ) := by
  refine ⟨((i : ℤ) / 4) / w, ((i : ℤ) / 4) % w, (i : ℤ) % 4, ?_, ?_, ?_, ?_, ?_, ?_⟩
  · exact Int.ediv_nonneg (by omega) (le_of_lt hw)
  · exact Int.emod_nonneg _ (ne_of_gt hw)
  · exact Int.emod_lt_of_pos _ hw
  · omega
  · omega
  · have h1 : ((i : ℤ) / 4) / w * w + ((i : ℤ) / 4) % w = (i : ℤ) / 4 :=
      Int.ediv_add_emod' _ _
    have h2 : (i : ℤ) / 4 * 4 + (i : ℤ) % 4 = (i : ℤ) := Int.ediv_add_emod' _ _
    have h3 : ((((i : ℤ) / 4) / w * w + ((i : ℤ) / 4) % w) * 4 + (i : ℤ) % 4 : ℤ) = (i : ℤ) := by
      rw [h1, h2]
    have h4 := congrArg (Int.cast : ℤ → ℚ) h3
    push_cast at h4
    rw [h4]

theorem toUint8_map_self (x : Option Byte) :
    toUint8 (x.map (fun _ => toUint8 x)) = toUint8 x := by
  cases x <;> rfl

/-- Claim C20. For a whole-number width, any height, any block size and any buffer,
filtering the filtered buffer again with the same block size changes nothing. -/
theorem applyPixelation_idempotent (data : List Byte) (w : ℤ) (h : ℚ) (k : ℤ) :
    applyPixelation (applyPixelation data (w : ℚ) h k) (w : ℚ) h k =
      applyPixelation data (w : ℚ) h k := by
  by_cases hk : k ≤ 0
  · simp only [applyPixelation, dif_pos hk]
  by_cases hw : w ≤ 0
  · have hwq : (w : ℚ) ≤ 0 := by exact_mod_cast hw
    rw [applyPixelation_width_nonpos data (w : ℚ) h k hwq,
      applyPixelation_width_nonpos data (w : ℚ) h k hwq]
  have hk0 : 0 < k := by omega
  have hw0 : 0 < w := by omega
  apply List.ext_getElem?
  intro i
  rw [← readAt_natCast, ← readAt_natCast]
  obtain ⟨p, q, c, hp, hq, hqw, hc0, hc4, hi⟩ := index_decompose w hw0 i
  have hT0 : 0 ≤ k * (q / k) := tile_ge k 0 q hk0 (dvd_zero k) hq
  have hTw : k * (q / k) < w := lt_of_le_of_lt (tile_le k q hk0) hqw
  have hTT : ∀ a : ℤ, k * (k * (a / k) / k) = k * (a / k) := by
    intro a
    rw [Int.mul_ediv_cancel_left _ (ne_of_gt hk0)]
  rw [hi, applyPixelation_read w h k hk0 _ p q c hq hqw hc0 hc4,
    applyPixelation_read w h k hk0 data p q c hq hqw hc0 hc4,
    applyPixelation_read w h k hk0 data (k * (p / k)) (k * (q / k)) c hT0 hTw hc0 hc4]
  by_cases hcond : 0 ≤ p ∧ (p : ℚ) < h ∧ c < 3
  · simp only [if_pos hcond]
    rw [hTT p, hTT q]
    have hval : toUint8 (if 0 ≤ k * (p / k) ∧ ((k * (p / k) : ℤ) : ℚ) < h ∧ c < 3 then
          (readAt data ((((k * (p / k) : ℤ) : ℚ) * (w : ℚ) + ((k * (q / k) : ℤ) : ℚ)) * 4 +
            (c : ℚ))).map (fun _ => toUint8 (readAt data
              ((((k * (p / k) : ℤ) : ℚ) * (w : ℚ) + ((k * (q / k) : ℤ) : ℚ)) * 4 + (c : ℚ))))
        else readAt data
          ((((k * (p / k) : ℤ) : ℚ) * (w : ℚ) + ((k * (q / k) : ℤ) : ℚ)) * 4 + (c : ℚ))) =
        toUint8 (readAt data
          ((((k * (p / k) : ℤ) : ℚ) * (w : ℚ) + ((k * (q / k) : ℤ) : ℚ)) * 4 + (c : ℚ))) := by
      split
      · exact toUint8_map_self _
      · rfl
    rw [hval]
    cases readAt data (((p : ℚ) * (w : ℚ) + (q : ℚ)) * 4 + (c : ℚ)) <;> rfl
  · simp only [if_neg hcond]

/-! A zero scale -/

theorem JSNum.fin_div_zero_notFinite (a : ℚ) : JSNum.NotFinite (JSNum.fin a / JSNum.fin 0) := by
  intro q
  show JSNum.div (.fin a) (.fin 0) ≠ .fin q
  unfold JSNum.div
  by_cases ha : a = 0
  · simp [ha]
  · simp only [if_true, if_neg ha, JSNum.infOfSign]
    split <;> simp

theorem JSNum.sub_notFinite (a b : JSNum) (ha : JSNum.NotFinite a) :
    JSNum.NotFinite (a - b) := by
  intro q
  show JSNum.add a (JSNum.neg b) ≠ .fin q
  cases a with
  | fin x => exact absurd rfl (ha x)
  | posInf => cases b <;> simp [JSNum.add, JSNum.neg]
  | negInf => cases b <;> simp [JSNum.add, JSNum.neg]
  | nan => cases b <;> simp [JSNum.add, JSNum.neg]

theorem not_inPaddedBox_of_notFinite (host : TextHost) (L : Label) (pos : JSPoint)
    (h : JSNum.NotFinite pos.x) : ¬ InPaddedBox host L pos := by
  intro hin
  obtain ⟨px, py, rfl⟩ := inPaddedBox_finite host L pos hin
  exact h px rfl

/-! Pointer-downs far from every label -/

/-- Claim C13 as stated fails. The image point `(140, 100)` is 40 units from the centre
`(100, 100)` of the only label, `exLabelA`, whose text is 40 wide, yet a pointer-down there
selects the label: its padded box reaches 45 units from the centre along `x`. -/
theorem handleMouseDown_hits_beyond_25 :
    getRelativePos (exProps [exLabelA]).image (exProps [exLabelA]).canvas ⟨290, 220⟩ =
      ⟨.fin 140, .fin 100⟩ ∧
    (25 : ℚ) < |140 - exLabelA.x| ∧
    (25 : ℚ) ^ 2 < (140 - exLabelA.x) ^ 2 + (100 - exLabelA.y) ^ 2 ∧
    handleMouseDown (exProps [exLabelA]) DragState.initial ⟨290, 220⟩ =
      ({ isDragging := true, dragTextId := some 1, dragOffset := ⟨.fin 40, .fin 0⟩ },
       [Notification.onTextSelect 1]) := by
  have hp : getRelativePos (exProps [exLabelA]).image (exProps [exLabelA]).canvas ⟨290, 220⟩ =
      ⟨.fin 140, .fin 100⟩ := by
    rw [ex_getRelativePos]
    norm_num
  have hin : InPaddedBox exHost exLabelA ⟨.fin 140, .fin 100⟩ := by
    norm_num [InPaddedBox, exHost, exLabelA, displayText]
  have hloop := loop_of_topmost exHost [exLabelA] ⟨.fin 140, .fin 100⟩ 0 (by decide) hin
    (fun j hj hij => by
      have : j < 1 := hj
      omega)
  have hdown := handleMouseDown_of_loop_some (exProps [exLabelA]) DragState.initial ⟨290, 220⟩
    exLabelA (by rw [hp]; exact hloop)
  refine ⟨hp, by norm_num [exLabelA], by norm_num [exLabelA], ?_⟩
  rw [hdown, hp]
  norm_num [exLabelA]

/-- Claim C13, amended. When the pointer-down position is, for every label, more than 25
units outside the label's text box along `x` or along `y` (farther from the centre than
half the measured width plus 25, or than half the font size plus 25), the pointer-down
calls no callback and leaves the drag state as it was. -/
theorem handleMouseDown_far (props : Props) (st : DragState) (e : MouseEvent) (px py : ℚ)
    (hp : getRelativePos props.image props.canvas e = ⟨.fin px, .fin py⟩)
    (hfar : ∀ i, ∀ hi : i < props.texts.length,
      props.host.measureText (props.texts[i]).fontSize (displayText props.host (props.texts[i]))
          / 2 + 25 < |px - (props.texts[i]).x| ∨
      (props.texts[i]).fontSize / 2 + 25 < |py - (props.texts[i]).y|) :
    handleMouseDown props st e = (st, []) := by
  apply handleMouseDown_of_loop_none
  apply loop_of_miss
  intro i hi hin
  rw [hp] at hin
  simp only [InPaddedBox] at hin
  obtain ⟨h1, h2, h3, h4⟩ := hin
  rcases hfar i hi with h | h
  · have : |px - (props.texts[i]).x| ≤
        props.host.measureText (props.texts[i]).fontSize
          (displayText props.host (props.texts[i])) / 2 + 25 := by
      rw [abs_le]
      constructor <;> linarith
    linarith
  · have : |py - (props.texts[i]).y| ≤ (props.texts[i]).fontSize / 2 + 25 := by
      rw [abs_le]
      constructor <;> linarith
    linarith

/-- Instance of the amended C13: the image point `(150, 100)`, 50 units from the centre of
`exLabelA`, past the 45 its padded box reaches. -/
theorem handleMouseDown_far_witness :
    getRelativePos (exProps [exLabelA]).image (exProps [exLabelA]).canvas ⟨310, 220⟩ =
      ⟨.fin 150, .fin 100⟩ ∧
    (∀ i, ∀ hi : i < (exProps [exLabelA]).texts.length,
      (exProps [exLabelA]).host.measureText ((exProps [exLabelA]).texts[i]).fontSize
          (displayText (exProps [exLabelA]).host ((exProps [exLabelA]).texts[i])) / 2 + 25 <
        |150 - ((exProps [exLabelA]).texts[i]).x| ∨
      ((exProps [exLabelA]).texts[i]).fontSize / 2 + 25 <
        |100 - ((exProps [exLabelA]).texts[i]).y|) ∧
    handleMouseDown (exProps [exLabelA]) DragState.initial ⟨310, 220⟩ =
      (DragState.initial, []) := by
  have hp : getRelativePos (exProps [exLabelA]).image (exProps [exLabelA]).canvas ⟨310, 220⟩ =
      ⟨.fin 150, .fin 100⟩ := by
    rw [ex_getRelativePos]
    norm_num
  have hfar : ∀ i, ∀ hi : i < (exProps [exLabelA]).texts.length,
      (exProps [exLabelA]).host.measureText ((exProps [exLabelA]).texts[i]).fontSize
          (displayText (exProps [exLabelA]).host ((exProps [exLabelA]).texts[i])) / 2 + 25 <
        |150 - ((exProps [exLabelA]).texts[i]).x| ∨
      ((exProps [exLabelA]).texts[i]).fontSize / 2 + 25 <
        |100 - ((exProps [exLabelA]).texts[i]).y| := by
    intro i hi
    have hi1 : i < 1 := hi
    match i, hi with
    | 0, _ =>
      left
      norm_num [exProps, exHost, exLabelA, displayText]
  exact ⟨hp, hfar, handleMouseDown_far (exProps [exLabelA]) DragState.initial ⟨310, 220⟩
    150 100 hp hfar⟩

/-! The drawn outline against the hit box -/

/-- Claim C15, which asks that every surface point of a selected label's dashed outline
map into that label's padded hit box: the code departs from it. `exLabelC` is drawn at
three times its size on a fit of scale 2: the surface point `(305, 200)` is a point of its
dashed outline, and it maps to the image point `(152.5, 100)`, outside the padded box,
which ends at `x = 145`. With the default label scale the same happens on a fit of scale
1/2: for `exLabelA` on an 800-by-800 image in a 400-by-400 surface the outline point
`(85, 50)` maps to `(170, 100)`. -/
theorem outline_exceeds_hitbox :
    InOutline (renderCanvas.drawLabel exHost (some ⟨200, 200⟩) ⟨400, 400, 10, 20⟩ (some 3)
      exLabelC) 305 200 ∧
    getRelativePos.ofDims (getImageDimensions (some ⟨200, 200⟩) (some ⟨400, 400, 10, 20⟩))
      (.fin 305) (.fin 200) = ⟨.fin (305 / 2), .fin 100⟩ ∧
    ¬ InPaddedBox exHost exLabelC ⟨.fin (305 / 2), .fin 100⟩ ∧
    InOutline (renderCanvas.drawLabel exHost (some ⟨800, 800⟩) ⟨400, 400, 0, 0⟩ (some 1)
      exLabelA) 85 50 ∧
    getRelativePos.ofDims (getImageDimensions (some ⟨800, 800⟩) (some ⟨400, 400, 0, 0⟩))
      (.fin 85) (.fin 50) = ⟨.fin 170, .fin 100⟩ ∧
    ¬ InPaddedBox exHost exLabelA ⟨.fin 170, .fin 100⟩ := by
  have hd : getImageDimensions (some ⟨200, 200⟩) (some ⟨400, 400, 10, 20⟩) =
      { width := .fin 400, height := .fin 400, x := .fin 0, y := .fin 0, scale := .fin 2 } := by
    rw [getImageDimensions_pos 200 200 400 400 10 20 (by norm_num) (by norm_num)]
    norm_num
  have hd2 : getImageDimensions (some ⟨800, 800⟩) (some ⟨400, 400, 0, 0⟩) =
      { width := .fin 400, height := .fin 400, x := .fin 0, y := .fin 0,
        scale := .fin (1 / 2) } := by
    rw [getImageDimensions_pos 800 800 400 400 0 0 (by norm_num) (by norm_num)]
    norm_num
  refine ⟨?_, ?_, ?_, ?_, ?_, ?_⟩
  · refine ⟨⟨-35, -25, 70, 50⟩, 200, 200, 35, 0, ?_, ?_, ?_, ?_, ?_, ?_, ?_, ?_, ?_⟩
    · norm_num [renderCanvas.drawLabel, exLabelC, exHost, displayText]
    · simp only [renderCanvas.drawLabel, hd, JSNum.fin_mul_fin, JSNum.fin_add_fin]
      norm_num [exLabelC]
    · simp only [renderCanvas.drawLabel, hd, JSNum.fin_mul_fin, JSNum.fin_add_fin]
      norm_num [exLabelC]
    · norm_num
    · norm_num
    · norm_num
    · norm_num
    · norm_num [renderCanvas.drawLabel, exLabelC]
    · norm_num [renderCanvas.drawLabel, exLabelC]
  · rw [hd]
    norm_num [getRelativePos.ofDims, JSNum.fin_div_fin]
  · norm_num [InPaddedBox, exHost, exLabelC, displayText]
  · refine ⟨⟨-35, -25, 70, 50⟩, 50, 50, 35, 0, ?_, ?_, ?_, ?_, ?_, ?_, ?_, ?_, ?_⟩
    · norm_num [renderCanvas.drawLabel, exLabelA, exHost, displayText]
    · simp only [renderCanvas.drawLabel, hd2, JSNum.fin_mul_fin, JSNum.fin_add_fin]
      norm_num [exLabelA]
    · simp only [renderCanvas.drawLabel, hd2, JSNum.fin_mul_fin, JSNum.fin_add_fin]
      norm_num [exLabelA]
    · norm_num
    · norm_num
    · norm_num
    · norm_num
    · norm_num [renderCanvas.drawLabel, exLabelA]
    · norm_num [renderCanvas.drawLabel, exLabelA]
  · rw [hd2]
    norm_num [getRelativePos.ofDims, JSNum.fin_div_fin]
  · norm_num [InPaddedBox, exHost, exLabelA, displayText]

theorem abs_scaled_le (t u s a b : ℚ) (hs : s ≠ 0) (hu : |u| ≤ a) (h : |t| * a ≤ |s| * b) :
    |t * u / s| ≤ b := by
  have hspos : 0 < |s| := abs_pos.mpr hs
  rw [abs_div, abs_mul, div_le_iff₀ hspos]
  calc |t| * |u| ≤ |t| * a := mul_le_mul_of_nonneg_left hu (abs_nonneg t)
    _ ≤ |s| * b := h
    _ = b * |s| := mul_comm _ _

/-- How far the departure of the outline from the hit box reaches, in exact arithmetic.
Let `t` be the label scale (1 when the label has none), `s` the nonzero scale of a finite
fit result, `w ≥ 0` the measured width of the displayed text and `h ≥ 0` the font size.
When `|t| * (w / 2 + 15) ≤ |s| * (w / 2 + 25)` and
`|t| * (h / 2 + 15) ≤ |s| * (h / 2 + 25)`, every surface point of the label's dashed
outline maps through the inverse fit transform into the label's padded hit box. -/
theorem outline_inside_hitbox (host : TextHost) (image : Option Image) (canvas : Canvas)
    (sel : Option ℕ) (text : Label) (W H : JSNum) (x y s : ℚ)
    (hd : getImageDimensions image (some canvas) = ⟨W, H, .fin x, .fin y, .fin s⟩)
    (hs : s ≠ 0)
    (htw : 0 ≤ host.measureText text.fontSize (displayText host text))
    (hth : 0 ≤ text.fontSize)
    (hcw : |text.scale.getD 1| * (host.measureText text.fontSize (displayText host text) / 2 + 15)
      ≤ |s| * (host.measureText text.fontSize (displayText host text) / 2 + 25))
    (hch : |text.scale.getD 1| * (text.fontSize / 2 + 15) ≤ |s| * (text.fontSize / 2 + 25))
    (sx sy : ℚ)
    (hin : InOutline (renderCanvas.drawLabel host image canvas sel text) sx sy) :
    InPaddedBox host text
      (getRelativePos.ofDims (getImageDimensions image (some canvas)) (.fin sx) (.fin sy)) := by
  obtain ⟨r, cx, cy, u, v, hr, hcx, hcy, hu1, hu2, hv1, hv2, hsx, hsy⟩ := hin
  simp only [renderCanvas.drawLabel, hd, JSNum.fin_mul_fin, JSNum.fin_add_fin,
    JSNum.fin.injEq] at hr hcx hcy hsx hsy
  have hsel : some text.id = sel := by
    by_contra hsel
    rw [if_neg hsel] at hr
    cases hr
  rw [if_pos hsel] at hr
  have hr' := Option.some.inj hr
  subst hr'
  simp only at hu1 hu2 hv1 hv2
  have hu : |u| ≤ host.measureText text.fontSize (displayText host text) / 2 + 15 := by
    rw [abs_le]
    constructor
    · have := min_le_iff.mp hu1
      rcases this with h | h <;> linarith
    · have := le_max_iff.mp hu2
      rcases this with h | h <;> linarith
  have hv : |v| ≤ text.fontSize / 2 + 15 := by
    rw [abs_le]
    constructor
    · have := min_le_iff.mp hv1
      rcases this with h | h <;> linarith
    · have := le_max_iff.mp hv2
      rcases this with h | h <;> linarith
  have hX := abs_le.mp (abs_scaled_le _ u s _ _ hs hu hcw)
  have hY := abs_le.mp (abs_scaled_le _ v s _ _ hs hv hch)
  have ex : (sx - x) / s = text.x + text.scale.getD 1 * u / s := by
    rw [hsx, ← hcx]
    field_simp
    ring
  have ey : (sy - y) / s = text.y + text.scale.getD 1 * v / s := by
    rw [hsy, ← hcy]
    field_simp
    ring
  rw [hd]
  simp only [getRelativePos.ofDims, JSNum.fin_sub_fin, JSNum.fin_div_fin _ _ hs, InPaddedBox]
  rw [ex, ey]
  refine ⟨by linarith [hX.1], by linarith [hX.2], by linarith [hY.1], by linarith [hY.2]⟩

/-! The dragged label over a sequence of events -/

theorem run_append (st : DragState) (a b : List (Props × PointerEvent)) :
    run st (a ++ b) = ((run (run st a).1 b).1, (run st a).2 ++ (run (run st a).1 b).2) := by
  induction a generalizing st with
  | nil => simp [run]
  | cons d rest ih =>
    obtain ⟨props, ev⟩ := d
    rw [List.cons_append]
    simp only [run]
    rw [ih, List.append_assoc]

theorem run_snoc_state (st : DragState) (a : List (Props × PointerEvent)) (props : Props)
    (ev : PointerEvent) :
    (run st (a ++ [(props, ev)])).1 = (dispatch props (run st a).1 ev).1 := by
  rw [run_append]
  simp [run]

theorem hitsLabel_of_loop (props : Props) (e : MouseEvent) (L : Label)
    (h : handleMouseDown.loop props.host props.texts
      (getRelativePos props.image props.canvas e) props.texts.length (Nat.le_refl _) = some L) :
    HitsLabel props e L := by
  obtain ⟨i, hi, hL, hhit, hmax⟩ := (loop_eq_some_iff _ _ _ _ _ _).mp h
  exact ⟨i, hi, hL, (hit_iff_inPaddedBox _ _ _).mp hhit,
    fun j hj hij => (hit_false_iff _ _ _).mp (hmax j hj hij)⟩

theorem loop_of_hitsLabel (props : Props) (e : MouseEvent) (L : Label)
    (h : HitsLabel props e L) :
    handleMouseDown.loop props.host props.texts
      (getRelativePos props.image props.canvas e) props.texts.length (Nat.le_refl _) = some L := by
  obtain ⟨i, hi, hL, hin, hmax⟩ := h
  rw [← hL]
  exact loop_of_topmost _ _ _ i hi hin hmax

theorem mem_of_hitsLabel (props : Props) (e : MouseEvent) (L : Label)
    (h : HitsLabel props e L) : L ∈ props.texts := by
  obtain ⟨i, hi, hL, _, _⟩ := h
  rw [← hL]
  exact List.getElem_mem _

theorem downsMiss_snoc (post : List (Props × PointerEvent)) (d : Props × PointerEvent)
    (hpost : DownsMiss post)
    (hd : ∀ e, d.2 = PointerEvent.mouseDown e → ∀ i, ∀ hi : i < d.1.texts.length,
      ¬ InPaddedBox d.1.host (d.1.texts[i]) (getRelativePos d.1.image d.1.canvas e)) :
    DownsMiss (post ++ [d]) := by
  intro props e hmem
  rcases List.mem_append.mp hmem with h | h
  · exact hpost props e h
  · have hdeq : (props, PointerEvent.mouseDown e) = d := List.mem_singleton.mp h
    subst hdeq
    exact hd e rfl

theorem noRelease_snoc (post : List (Props × PointerEvent)) (d : Props × PointerEvent)
    (hpost : NoRelease post)
    (hd : d.2 ≠ PointerEvent.mouseUp ∧ d.2 ≠ PointerEvent.mouseLeave) :
    NoRelease (post ++ [d]) := by
  intro d' hmem
  rcases List.mem_append.mp hmem with h | h
  · exact hpost d' h
  · rw [List.mem_singleton.mp h]
    exact hd

theorem handleMouseMove_state (props : Props) (st : DragState) (e : MouseEvent) :
    (handleMouseMove props st e).1 = st := by
  unfold handleMouseMove
  split <;> rfl

/-- A state reached from the initial one that is dragging comes from a pointer-down that
hit, followed by events without a release and without another hit. -/
theorem dragging_source (evs : List (Props × PointerEvent))
    (hdrag : (run DragState.initial evs).1.isDragging = true) :
    ∃ pre props e post L, evs = pre ++ (props, PointerEvent.mouseDown e) :: post ∧
      HitsLabel props e L ∧ DownsMiss post ∧ NoRelease post ∧
      (run DragState.initial evs).1.dragTextId = some L.id := by
  induction evs using List.reverseRecOn with
  | nil =>
    simp [run, DragState.initial] at hdrag
  | append_singleton l d ih =>
    obtain ⟨props, ev⟩ := d
    rw [run_snoc_state] at hdrag ⊢
    cases ev with
    | mouseDown e =>
      cases hres : handleMouseDown.loop props.host props.texts
          (getRelativePos props.image props.canvas e) props.texts.length (Nat.le_refl _) with
      | none =>
        have hst : dispatch props (run DragState.initial l).1 (PointerEvent.mouseDown e) =
            ((run DragState.initial l).1, []) := handleMouseDown_of_loop_none props _ e hres
        rw [hst] at hdrag ⊢
        obtain ⟨pre, props0, e0, post, L, heq, hhit, hmiss, hnr, hid⟩ := ih hdrag
        refine ⟨pre, props0, e0, post ++ [(props, PointerEvent.mouseDown e)], L, ?_, hhit,
          ?_, ?_, hid⟩
        · rw [heq]
          simp
        · apply downsMiss_snoc post _ hmiss
          intro e' he' i hi
          have hee : e = e' := by
            simpa using he'
          subst hee
          exact (hit_false_iff _ _ _).mp ((loop_eq_none_iff _ _ _ _ _).mp hres i hi)
        · exact noRelease_snoc post _ hnr ⟨by simp, by simp⟩
      | some L =>
        have hst : dispatch props (run DragState.initial l).1 (PointerEvent.mouseDown e) = _ :=
          handleMouseDown_of_loop_some props _ e L hres
        refine ⟨l, props, e, [], L, rfl, hitsLabel_of_loop props e L hres, ?_, ?_, ?_⟩
        · intro p e' hmem
          cases hmem
        · intro d hmem
          cases hmem
        · rw [hst]
    | mouseMove e =>
      have hst : (dispatch props (run DragState.initial l).1 (PointerEvent.mouseMove e)).1 =
          (run DragState.initial l).1 := handleMouseMove_state props _ e
      rw [hst] at hdrag ⊢
      obtain ⟨pre, props0, e0, post, L, heq, hhit, hmiss, hnr, hid⟩ := ih hdrag
      refine ⟨pre, props0, e0, post ++ [(props, PointerEvent.mouseMove e)], L, ?_, hhit,
        ?_, ?_, hid⟩
      · rw [heq]
        simp
      · apply downsMiss_snoc post _ hmiss
        intro e' he'
        simp at he'
      · exact noRelease_snoc post _ hnr ⟨by simp, by simp⟩
    | mouseUp =>
      simp [dispatch, handleMouseUp] at hdrag
    | mouseLeave =>
      simp [dispatch, handleMouseUp] at hdrag

/-- While dragging the label `id`, events without a release and without a hit leave the
state as it is and call `onTextChange` with `id` only. -/
theorem drag_emits_id (post : List (Props × PointerEvent)) (st : DragState) (id : ℕ)
    (hdrag : st.isDragging = true) (hid : st.dragTextId = some id)
    (hmiss : DownsMiss post) (hnr : NoRelease post) :
    (run st post).1 = st ∧
    ∀ n ∈ (run st post).2, ∃ pos, n = Notification.onTextChange (some id) pos := by
  induction post with
  | nil =>
    refine ⟨rfl, ?_⟩
    intro n hn
    cases hn
  | cons d rest ih =>
    obtain ⟨props, ev⟩ := d
    have hrest := ih (fun p e hmem => hmiss p e (List.mem_cons_of_mem _ hmem))
      (fun d hd => hnr d (List.mem_cons_of_mem _ hd))
    have hstep : (dispatch props st ev).1 = st ∧
        ∀ n ∈ (dispatch props st ev).2, ∃ pos, n = Notification.onTextChange (some id) pos := by
      cases ev with
      | mouseDown e =>
        have hnone := handleMouseDown_of_loop_none props st e
          (loop_of_miss _ _ _ (hmiss props e (List.mem_cons_self _ _)))
        show (handleMouseDown props st e).1 = st ∧ ∀ n ∈ (handleMouseDown props st e).2, _
        rw [hnone]
        refine ⟨rfl, ?_⟩
        intro n hn
        cases hn
      | mouseMove e =>
        refine ⟨handleMouseMove_state props st e, ?_⟩
        intro n hn
        simp only [dispatch, handleMouseMove, hdrag, Bool.not_true, Bool.false_eq_true,
          if_false, List.mem_singleton] at hn
        exact ⟨_, by rw [hn, hid]⟩
      | mouseUp => exact absurd rfl (hnr _ (List.mem_cons_self _ _)).1
      | mouseLeave => exact absurd rfl (hnr _ (List.mem_cons_self _ _)).2
    simp only [run]
    rw [hstep.1]
    refine ⟨hrest.1, ?_⟩
    intro n hn
    rcases List.mem_append.mp hn with h | h
    · exact hstep.2 n h
    · exact hrest.2 n h

/-- Claim C14. In a state reached from the initial one by any sequence of events, each
delivered with its own props and label list, `isDragging = true` implies that
`dragTextId` is the id of a label of the list delivered with the most recent pointer-down
that hit; and after a pointer-down that hits `L`, as long as no pointer-up or
pointer-leave arrives and no other pointer-down hits, the state keeps the id of `L` and
every callback called is `onTextChange` with that id. -/
theorem drag_label_invariant (evs : List (Props × PointerEvent)) :
    ((run DragState.initial evs).1.isDragging = true →
      ∃ pre props e post L, evs = pre ++ (props, PointerEvent.mouseDown e) :: post ∧
        HitsLabel props e L ∧ L ∈ props.texts ∧ DownsMiss post ∧ NoRelease post ∧
        (run DragState.initial evs).1.dragTextId = some L.id) ∧
    (∀ pre props e post L, evs = pre ++ (props, PointerEvent.mouseDown e) :: post →
      HitsLabel props e L → DownsMiss post → NoRelease post →
      (run DragState.initial evs).1.isDragging = true ∧
      (run DragState.initial evs).1.dragTextId = some L.id ∧
      ∀ n ∈ (run (run DragState.initial (pre ++ [(props, PointerEvent.mouseDown e)])).1 post).2,
        ∃ pos, n = Notification.onTextChange (some L.id) pos) := by
  constructor
  · intro hdrag
    obtain ⟨pre, props, e, post, L, heq, hhit, hmiss, hnr, hid⟩ := dragging_source evs hdrag
    exact ⟨pre, props, e, post, L, heq, hhit, mem_of_hitsLabel props e L hhit, hmiss, hnr, hid⟩
  · intro pre props e post L heq hhit hmiss hnr
    have hsplit : evs = (pre ++ [(props, PointerEvent.mouseDown e)]) ++ post := by
      rw [heq]
      simp
    have hdown := handleMouseDown_of_loop_some props (run DragState.initial pre).1 e L
      (loop_of_hitsLabel props e L hhit)
    have hst1 : (run DragState.initial (pre ++ [(props, PointerEvent.mouseDown e)])).1 =
        (handleMouseDown props (run DragState.initial pre).1 e).1 := run_snoc_state _ _ _ _
    have hd1 : (run DragState.initial (pre ++ [(props, PointerEvent.mouseDown e)])).1.isDragging
        = true := by
      rw [hst1, hdown]
    have hi1 : (run DragState.initial (pre ++ [(props, PointerEvent.mouseDown e)])).1.dragTextId
        = some L.id := by
      rw [hst1, hdown]
    have hrun := drag_emits_id post _ L.id hd1 hi1 hmiss hnr
    have hfinal : (run DragState.initial evs).1 =
        (run DragState.initial (pre ++ [(props, PointerEvent.mouseDown e)])).1 := by
      rw [hsplit, run_append]
      exact hrun.1
    exact ⟨by rw [hfinal]; exact hd1, by rw [hfinal]; exact hi1, hrun.2⟩

/-- Instance of C14: a pointer-down that hits `exLabelB` in the list `[exLabelA, exLabelB]`,
then a pointer-move delivered with the shrunken list `[exLabelA]`: the state still drags
label 2 and the move reports label 2. -/
theorem drag_label_invariant_witness :
    HitsLabel (exProps [exLabelA, exLabelB]) ⟨220, 224⟩ exLabelB ∧
    (run DragState.initial
      [(exProps [exLabelA, exLabelB], PointerEvent.mouseDown ⟨220, 224⟩),
       (exProps [exLabelA], PointerEvent.mouseMove ⟨310, 300⟩)]).1.isDragging = true ∧
    (run DragState.initial
      [(exProps [exLabelA, exLabelB], PointerEvent.mouseDown ⟨220, 224⟩),
       (exProps [exLabelA], PointerEvent.mouseMove ⟨310, 300⟩)]).1.dragTextId = some 2 ∧
    ∀ n ∈ (run (run DragState.initial
        ([] ++ [(exProps [exLabelA, exLabelB], PointerEvent.mouseDown ⟨220, 224⟩)])).1
        [(exProps [exLabelA], PointerEvent.mouseMove ⟨310, 300⟩)]).2,
      ∃ pos, n = Notification.onTextChange (some 2) pos := by
  have hin : InPaddedBox (exProps [exLabelA, exLabelB]).host exLabelB
      (getRelativePos (exProps [exLabelA, exLabelB]).image
        (exProps [exLabelA, exLabelB]).canvas ⟨220, 224⟩) := by
    rw [ex_getRelativePos]
    norm_num [InPaddedBox, exProps, exHost, exLabelB, displayText]
  have hhit : HitsLabel (exProps [exLabelA, exLabelB]) ⟨220, 224⟩ exLabelB :=
    ⟨1, by decide, rfl, hin, fun j hj hij => by
      have : j < 2 := hj
      omega⟩
  have hmiss : DownsMiss [(exProps [exLabelA], PointerEvent.mouseMove ⟨310, 300⟩)] := by
    intro props e hmem
    rcases List.mem_cons.mp hmem with h | h
    · cases h
    · cases h
  have hnr : NoRelease [(exProps [exLabelA], PointerEvent.mouseMove ⟨310, 300⟩)] := by
    intro d hmem
    rw [List.mem_singleton.mp hmem]
    exact ⟨by simp, by simp⟩
  have h := (drag_label_invariant
    [(exProps [exLabelA, exLabelB], PointerEvent.mouseDown ⟨220, 224⟩),
     (exProps [exLabelA], PointerEvent.mouseMove ⟨310, 300⟩)]).2
    [] (exProps [exLabelA, exLabelB]) ⟨220, 224⟩
    [(exProps [exLabelA], PointerEvent.mouseMove ⟨310, 300⟩)] exLabelB rfl hhit hmiss hnr
  exact ⟨hhit, h.1, h.2.1, h.2.2⟩

/-! Rounding to a double: what the model of it guarantees -/

/-- With enough fuel the halving count is the binary logarithm. -/
theorem log2Fuel_eq (fuel n : ℕ) (h : n ≤ fuel) : log2Fuel fuel n = Nat.log 2 n := by
  induction fuel generalizing n with
  | zero =>
    have : n = 0 := by omega
    subst this
    simp [log2Fuel]
  | succ k ih =>
    unfold log2Fuel
    by_cases h2 : 2 ≤ n
    · rw [if_pos h2, ih (n / 2) (by omega), Nat.log_of_one_lt_of_le (by norm_num) h2]
    · rw [if_neg h2]
      have : n < 2 := by omega
      exact (Nat.log_of_lt this).symm

theorem natLog_bounds (n : ℕ) (hn : 0 < n) :
    ((2 : ℚ) ^ (Nat.log 2 n) ≤ n) ∧ ((n : ℚ) < (2 : ℚ) ^ (Nat.log 2 n + 1)) := by
  constructor
  · exact_mod_cast Nat.pow_log_le_self 2 (by omega)
  · exact_mod_cast Nat.lt_pow_succ_log_self (by norm_num) n

/-- For a positive `a`, `2 ^ floorLog2 a ≤ a < 2 ^ (floorLog2 a + 1)`. -/
theorem floorLog2_spec (a : ℚ) (ha : 0 < a) :
    (2 : ℚ) ^ (floorLog2 a) ≤ a ∧ a < (2 : ℚ) ^ (floorLog2 a + 1) := by
  have hnum : 0 < a.num := Rat.num_pos.mpr ha
  have hden : 0 < a.den := a.den_pos
  have hnat : 0 < a.num.natAbs := Int.natAbs_pos.mpr (ne_of_gt hnum)
  obtain ⟨n1, n2⟩ := natLog_bounds a.num.natAbs hnat
  obtain ⟨d1, d2⟩ := natLog_bounds a.den hden
  have hnq : ((a.num.natAbs : ℕ) : ℚ) = (a.num : ℚ) := by
    rw [Nat.cast_natAbs, abs_of_pos hnum]
  rw [hnq] at n1 n2
  have hdq : (0 : ℚ) < a.den := by exact_mod_cast hden
  have ha_eq : a = a.num / a.den := (Rat.num_div_den a).symm
  have h2 : (0 : ℚ) < 2 := by norm_num
  have h2ne : (2 : ℚ) ≠ 0 := by norm_num
  set ln := Nat.log 2 a.num.natAbs with hln
  set ld := Nat.log 2 a.den with hld
  have hupper : a < (2 : ℚ) ^ ((ln : ℤ) - (ld : ℤ) + 1) := by
    have e : (2 : ℚ) ^ ((ln : ℤ) - (ld : ℤ) + 1) = (2 : ℚ) ^ (ln + 1) / (2 : ℚ) ^ ld := by
      rw [show ((ln : ℤ) - (ld : ℤ) + 1) = ((ln + 1 : ℕ) : ℤ) - ((ld : ℕ) : ℤ) by push_cast; ring,
        zpow_sub₀ h2ne, zpow_natCast, zpow_natCast]
    rw [e, ha_eq, div_lt_div_iff₀ hdq (by positivity)]
    calc (a.num : ℚ) * 2 ^ ld ≤ a.num * a.den := by
          apply mul_le_mul_of_nonneg_left d1
          exact_mod_cast le_of_lt hnum
      _ < 2 ^ (ln + 1) * a.den := by
          apply mul_lt_mul_of_pos_right n2 hdq
  have hlower : (2 : ℚ) ^ ((ln : ℤ) - (ld : ℤ) - 1) < a := by
    have e : (2 : ℚ) ^ ((ln : ℤ) - (ld : ℤ) - 1) = (2 : ℚ) ^ ln / (2 : ℚ) ^ (ld + 1) := by
      rw [show ((ln : ℤ) - (ld : ℤ) - 1) = ((ln : ℕ) : ℤ) - ((ld + 1 : ℕ) : ℤ) by push_cast; ring,
        zpow_sub₀ h2ne, zpow_natCast, zpow_natCast]
    rw [e, ha_eq, div_lt_div_iff₀ (by positivity) hdq]
    calc (2 : ℚ) ^ ln * a.den < 2 ^ ln * 2 ^ (ld + 1) := by
          apply mul_lt_mul_of_pos_left d2 (by positivity)
      _ ≤ a.num * 2 ^ (ld + 1) := by
          apply mul_le_mul_of_nonneg_right n1 (by positivity)
  unfold floorLog2
  rw [log2Fuel_eq _ _ (le_refl _), log2Fuel_eq _ _ (le_refl _)]
  simp only
  by_cases hc : (2 : ℚ) ^ ((ln : ℤ) - (ld : ℤ)) ≤ a
  · rw [if_pos hc]
    exact ⟨hc, hupper⟩
  · rw [if_neg hc]
    refine ⟨le_of_lt hlower, ?_⟩
    rw [sub_add_cancel]
    exact lt_of_not_le hc

theorem roundHalfEven_intCast (n : ℤ) : roundHalfEven (n : ℚ) = n := by
  unfold roundHalfEven
  simp

theorem roundHalfEven_bounds (m : ℚ) : ⌊m⌋ ≤ roundHalfEven m ∧ roundHalfEven m ≤ ⌊m⌋ + 1 := by
  unfold roundHalfEven
  simp only
  split_ifs <;> constructor <;> omega

theorem roundHalfEven_mono {m m' : ℚ} (h : m ≤ m') : roundHalfEven m ≤ roundHalfEven m' := by
  have hf : ⌊m⌋ ≤ ⌊m'⌋ := Int.floor_le_floor h
  rcases lt_or_eq_of_le hf with hlt | heq
  · have := (roundHalfEven_bounds m).2
    have := (roundHalfEven_bounds m').1
    omega
  · unfold roundHalfEven
    simp only
    rw [← heq]
    have hsub : m - ⌊m⌋ ≤ m' - ⌊m⌋ := by linarith
    split_ifs <;> first | omega | (exfalso; linarith)

theorem roundHalfEven_neg (m : ℚ) : roundHalfEven (-m) = -roundHalfEven m := by
  by_cases hint : (⌊m⌋ : ℚ) = m
  · rw [← hint, ← Int.cast_neg, roundHalfEven_intCast, roundHalfEven_intCast]
  · have hlt : (⌊m⌋ : ℚ) < m := lt_of_le_of_ne (Int.floor_le m) hint
    have hfl : ⌊-m⌋ = -⌊m⌋ - 1 := by
      rw [Int.floor_eq_iff]
      push_cast
      constructor
      · have := Int.lt_floor_add_one m
        linarith
      · linarith
    unfold roundHalfEven
    simp only
    rw [hfl]
    push_cast
    have h1 := Int.lt_floor_add_one m
    split_ifs <;> first | omega | (exfalso; linarith)

theorem roundHalfEven_near (m : ℚ) : |(roundHalfEven m : ℚ) - m| ≤ 1 / 2 := by
  have h1 := Int.floor_le m
  have h2 := Int.lt_floor_add_one m
  unfold roundHalfEven
  simp only
  rw [abs_le]
  split_ifs <;> push_cast <;> constructor <;> linarith

theorem ulpExponent_ge (q : ℚ) : -1074 ≤ ulpExponent q := le_max_right _ _

theorem ulpExponent_ge_log (q : ℚ) : floorLog2 |q| - 52 ≤ ulpExponent q := le_max_left _ _

theorem ulpExponent_neg (q : ℚ) : ulpExponent (-q) = ulpExponent q := by
  unfold ulpExponent
  rw [abs_neg]

theorem roundFinite_zero : roundFinite 0 = 0 := by
  simp [roundFinite]

theorem roundFinite_neg (q : ℚ) : roundFinite (-q) = -roundFinite q := by
  unfold roundFinite
  by_cases h : q = 0
  · simp [h]
  · rw [if_neg h, if_neg (neg_ne_zero.mpr h), ulpExponent_neg]
    simp only [neg_div, roundHalfEven_neg]
    push_cast
    ring

/-- A positive number rounds to at most `2 ^ 53` units in the last place. -/
theorem roundFinite_upper (q : ℚ) (hq : 0 < q) :
    roundFinite q ≤ (2 : ℚ) ^ (ulpExponent q + 53) := by
  obtain ⟨_, h2⟩ := floorLog2_spec q hq
  have h2ne : (2 : ℚ) ≠ 0 := by norm_num
  have hpe : (0 : ℚ) < (2 : ℚ) ^ ulpExponent q := by positivity
  have hge := ulpExponent_ge_log q
  rw [abs_of_pos hq] at hge
  have e53 : (((2 : ℤ) ^ 53 : ℤ) : ℚ) = (2 : ℚ) ^ (53 : ℤ) := by norm_num
  have key2 : (2 : ℚ) ^ (53 : ℤ) * (2 : ℚ) ^ ulpExponent q = (2 : ℚ) ^ (ulpExponent q + 53) := by
    rw [← zpow_add₀ h2ne]
    congr 1
    ring
  have hhi : q / (2 : ℚ) ^ ulpExponent q ≤ (((2 : ℤ) ^ 53 : ℤ) : ℚ) := by
    rw [div_le_iff₀ hpe, e53, key2]
    have : (2 : ℚ) ^ (floorLog2 q + 1) ≤ (2 : ℚ) ^ (ulpExponent q + 53) :=
      zpow_le_zpow_right₀ (by norm_num) (by omega)
    linarith
  have r2 := roundHalfEven_mono hhi
  rw [roundHalfEven_intCast] at r2
  have r2q : (roundHalfEven (q / (2 : ℚ) ^ ulpExponent q) : ℚ) ≤ (2 : ℚ) ^ (53 : ℤ) := by
    rw [← e53]
    exact_mod_cast r2
  unfold roundFinite
  rw [if_neg (ne_of_gt hq), ← key2]
  exact mul_le_mul_of_nonneg_right r2q (le_of_lt hpe)

/-- A positive number in the normal range rounds to at least the power of two below it. -/
theorem roundFinite_lower (q : ℚ) (hq : 0 < q) (hn : ulpExponent q = floorLog2 q - 52) :
    (2 : ℚ) ^ (floorLog2 q) ≤ roundFinite q := by
  obtain ⟨h1, _⟩ := floorLog2_spec q hq
  have h2ne : (2 : ℚ) ≠ 0 := by norm_num
  have hpe : (0 : ℚ) < (2 : ℚ) ^ (floorLog2 q - 52) := by positivity
  have e52 : (((2 : ℤ) ^ 52 : ℤ) : ℚ) = (2 : ℚ) ^ (52 : ℤ) := by norm_num
  have key : (2 : ℚ) ^ (52 : ℤ) * (2 : ℚ) ^ (floorLog2 q - 52) = (2 : ℚ) ^ (floorLog2 q) := by
    rw [← zpow_add₀ h2ne]
    congr 1
    ring
  have hlo : (((2 : ℤ) ^ 52 : ℤ) : ℚ) ≤ q / (2 : ℚ) ^ (floorLog2 q - 52) := by
    rw [le_div_iff₀ hpe, e52, key]
    exact h1
  have r1 := roundHalfEven_mono hlo
  rw [roundHalfEven_intCast] at r1
  have r1q : (2 : ℚ) ^ (52 : ℤ) ≤ (roundHalfEven (q / (2 : ℚ) ^ (floorLog2 q - 52)) : ℚ) := by
    rw [← e52]
    exact_mod_cast r1
  unfold roundFinite
  rw [if_neg (ne_of_gt hq), hn, ← key]
  exact mul_le_mul_of_nonneg_right r1q (le_of_lt hpe)

theorem roundFinite_nonneg (q : ℚ) (hq : 0 ≤ q) : 0 ≤ roundFinite q := by
  unfold roundFinite
  split_ifs with h
  · exact le_refl 0
  · have hpe : (0 : ℚ) < (2 : ℚ) ^ ulpExponent q := by positivity
    have h0 : ((0 : ℤ) : ℚ) ≤ q / (2 : ℚ) ^ ulpExponent q := by
      simp only [Int.cast_zero]
      exact div_nonneg hq (le_of_lt hpe)
    have r := roundHalfEven_mono h0
    rw [roundHalfEven_intCast] at r
    have : (0 : ℚ) ≤ (roundHalfEven (q / (2 : ℚ) ^ ulpExponent q) : ℚ) := by exact_mod_cast r
    exact mul_nonneg this (le_of_lt hpe)

theorem roundFinite_mono_pos {a b : ℚ} (ha : 0 < a) (hab : a ≤ b) :
    roundFinite a ≤ roundFinite b := by
  have hb : 0 < b := lt_of_lt_of_le ha hab
  obtain ⟨a1, a2⟩ := floorLog2_spec a ha
  obtain ⟨b1, b2⟩ := floorLog2_spec b hb
  have h2 : (1 : ℚ) < 2 := by norm_num
  have hle : floorLog2 a ≤ floorLog2 b := by
    by_contra hcon
    have hlt : floorLog2 b + 1 ≤ floorLog2 a := by omega
    have : (2 : ℚ) ^ (floorLog2 b + 1) ≤ (2 : ℚ) ^ (floorLog2 a) :=
      zpow_le_zpow_right₀ (le_of_lt h2) hlt
    linarith
  have hea : ulpExponent a = max (floorLog2 a - 52) (-1074) := by
    unfold ulpExponent
    rw [abs_of_pos ha]
  have heb : ulpExponent b = max (floorLog2 b - 52) (-1074) := by
    unfold ulpExponent
    rw [abs_of_pos hb]
  have hee : ulpExponent a ≤ ulpExponent b := by
    rw [hea, heb]
    exact max_le_max (by omega) (le_refl _)
  rcases lt_or_eq_of_le hee with hlt | heq
  · have hnb : ulpExponent b = floorLog2 b - 52 := by
      have := ulpExponent_ge a
      rw [heb] at hlt ⊢
      rcases max_cases (floorLog2 b - 52) (-1074) with ⟨h, _⟩ | ⟨h, _⟩
      · exact h
      · rw [h] at hlt
        omega
    have hu := roundFinite_upper a ha
    have hl := roundFinite_lower b hb hnb
    have : (2 : ℚ) ^ (ulpExponent a + 53) ≤ (2 : ℚ) ^ (floorLog2 b) :=
      zpow_le_zpow_right₀ (le_of_lt h2) (by omega)
    linarith
  · unfold roundFinite
    rw [if_neg (ne_of_gt ha), if_neg (ne_of_gt hb), heq]
    have hpe : (0 : ℚ) < (2 : ℚ) ^ ulpExponent b := by positivity
    apply mul_le_mul_of_nonneg_right _ (le_of_lt hpe)
    have : a / (2 : ℚ) ^ ulpExponent b ≤ b / (2 : ℚ) ^ ulpExponent b :=
      div_le_div_of_nonneg_right hab (le_of_lt hpe)
    exact_mod_cast roundHalfEven_mono this

/-- Rounding to the precision of a double is monotone. -/
theorem roundFinite_mono : Monotone roundFinite := by
  intro a b hab
  rcases lt_trichotomy a 0 with ha | ha | ha
  · have hna : roundFinite a = -roundFinite (-a) := by
      rw [roundFinite_neg, neg_neg]
    rcases lt_trichotomy b 0 with hb | hb | hb
    · have hnb : roundFinite b = -roundFinite (-b) := by
        rw [roundFinite_neg, neg_neg]
      rw [hna, hnb]
      have := roundFinite_mono_pos (neg_pos.mpr hb) (neg_le_neg hab)
      linarith
    · rw [hb, roundFinite_zero, hna]
      have := roundFinite_nonneg (-a) (le_of_lt (neg_pos.mpr ha))
      linarith
    · have := roundFinite_nonneg (-a) (le_of_lt (neg_pos.mpr ha))
      have := roundFinite_nonneg b (le_of_lt hb)
      rw [hna]
      linarith
  · rw [ha, roundFinite_zero]
    exact roundFinite_nonneg b (ha ▸ hab)
  · exact roundFinite_mono_pos ha hab

/-- The rounding error is at most half a unit in the last place. -/
theorem roundFinite_near (q : ℚ) (hq : q ≠ 0) :
    |roundFinite q - q| ≤ (2 : ℚ) ^ (ulpExponent q - 1) := by
  have h2ne : (2 : ℚ) ≠ 0 := by norm_num
  have hpe : (0 : ℚ) < (2 : ℚ) ^ ulpExponent q := by positivity
  unfold roundFinite
  rw [if_neg hq]
  have hn := roundHalfEven_near (q / (2 : ℚ) ^ ulpExponent q)
  have e : (roundHalfEven (q / (2 : ℚ) ^ ulpExponent q) : ℚ) * (2 : ℚ) ^ ulpExponent q - q =
      ((roundHalfEven (q / (2 : ℚ) ^ ulpExponent q) : ℚ) - q / (2 : ℚ) ^ ulpExponent q) *
        (2 : ℚ) ^ ulpExponent q := by
    field_simp
  rw [e, abs_mul, abs_of_pos hpe]
  have e2 : (2 : ℚ) ^ (ulpExponent q - 1) = 1 / 2 * (2 : ℚ) ^ ulpExponent q := by
    have : ulpExponent q = (ulpExponent q - 1) + 1 := by ring
    nth_rewrite 2 [this]
    rw [zpow_add_one₀ h2ne]
    ring
  rw [e2]
  exact mul_le_mul_of_nonneg_right hn (le_of_lt hpe)

theorem roundDouble_zero : roundDouble 0 = .fin 0 := by
  unfold roundDouble
  rw [roundFinite_zero, if_neg (by norm_num), if_neg (by norm_num)]

/-- A finite result of `roundDouble` is the value rounded to the precision of a double. -/
theorem roundDouble_eq_fin {q r : ℚ} (h : roundDouble q = .fin r) : r = roundFinite q := by
  unfold roundDouble at h
  split_ifs at h
  exact (JSNum.fin.inj h).symm

/-- Rounding to a double keeps the order, the infinities included. -/
theorem roundDouble_keepsOrder : KeepsOrder roundDouble := by
  intro a b hab
  have hm := roundFinite_mono hab
  have hpos : (0 : ℚ) < ((2 ^ 1024 : ℕ) : ℚ) := by positivity
  unfold roundDouble
  by_cases hb1 : ((2 ^ 1024 : ℕ) : ℚ) ≤ roundFinite b
  · rw [if_pos hb1]
    split_ifs <;> rfl
  · rw [if_neg hb1]
    have ha1 : ¬ ((2 ^ 1024 : ℕ) : ℚ) ≤ roundFinite a := fun h => hb1 (le_trans h hm)
    rw [if_neg ha1]
    by_cases ha2 : roundFinite a ≤ -((2 ^ 1024 : ℕ) : ℚ)
    · rw [if_pos ha2]
      split_ifs <;> rfl
    · rw [if_neg ha2]
      have hb2 : ¬ roundFinite b ≤ -((2 ^ 1024 : ℕ) : ℚ) := fun h => ha2 (le_trans hm h)
      rw [if_neg hb2]
      simp only [JSNum.le, decide_eq_true_eq]
      exact hm

theorem floorLog2_unique (a : ℚ) (ha : 0 < a) (k : ℤ) (h1 : (2 : ℚ) ^ k ≤ a)
    (h2 : a < (2 : ℚ) ^ (k + 1)) : floorLog2 a = k := by
  obtain ⟨s1, s2⟩ := floorLog2_spec a ha
  have h2' : (1 : ℚ) < 2 := by norm_num
  have hA : floorLog2 a < k + 1 := by
    have : (2 : ℚ) ^ (floorLog2 a) < (2 : ℚ) ^ (k + 1) := lt_of_le_of_lt s1 h2
    exact (zpow_lt_zpow_iff_right₀ h2').mp this
  have hB : k < floorLog2 a + 1 := by
    have : (2 : ℚ) ^ k < (2 : ℚ) ^ (floorLog2 a + 1) := lt_of_le_of_lt h1 s2
    exact (zpow_lt_zpow_iff_right₀ h2').mp this
  omega

/-- A number with at most 53 significant bits over an exponent that is not below `-1074`
is its own rounding: the doubles are fixed. -/
theorem roundFinite_of_repr (n e : ℤ) (hn : |n| < 2 ^ 53) (he : -1074 ≤ e) :
    roundFinite ((n : ℚ) * (2 : ℚ) ^ e) = (n : ℚ) * (2 : ℚ) ^ e := by
  have h2ne : (2 : ℚ) ≠ 0 := by norm_num
  by_cases hn0 : n = 0
  · simp [hn0, roundFinite_zero]
  · have hq0 : (n : ℚ) * (2 : ℚ) ^ e ≠ 0 :=
      mul_ne_zero (by exact_mod_cast hn0) (zpow_ne_zero _ h2ne)
    have hnq : (0 : ℚ) < |(n : ℚ)| := abs_pos.mpr (by exact_mod_cast hn0)
    obtain ⟨s1, s2⟩ := floorLog2_spec |(n : ℚ)| hnq
    have hpe : (0 : ℚ) < (2 : ℚ) ^ e := by positivity
    have habs : |(n : ℚ) * (2 : ℚ) ^ e| = |(n : ℚ)| * (2 : ℚ) ^ e := by
      rw [abs_mul, abs_of_pos hpe]
    have hL : floorLog2 |(n : ℚ) * (2 : ℚ) ^ e| = floorLog2 |(n : ℚ)| + e := by
      apply floorLog2_unique _ (abs_pos.mpr hq0)
      · rw [habs, zpow_add₀ h2ne]
        exact mul_le_mul_of_nonneg_right s1 (le_of_lt hpe)
      · rw [habs, show floorLog2 |(n : ℚ)| + e + 1 = (floorLog2 |(n : ℚ)| + 1) + e by ring,
          zpow_add₀ h2ne]
        exact mul_lt_mul_of_pos_right s2 hpe
    have hle : floorLog2 |(n : ℚ)| ≤ 52 := by
      have h53 : |(n : ℚ)| < (2 : ℚ) ^ (53 : ℤ) := by
        have : ((|n| : ℤ) : ℚ) < (((2 : ℤ) ^ 53 : ℤ) : ℚ) := by exact_mod_cast hn
        rw [Int.cast_abs] at this
        calc |(n : ℚ)| < (((2 : ℤ) ^ 53 : ℤ) : ℚ) := this
          _ = (2 : ℚ) ^ (53 : ℤ) := by norm_num
      have : (2 : ℚ) ^ (floorLog2 |(n : ℚ)|) < (2 : ℚ) ^ (53 : ℤ) := lt_of_le_of_lt s1 h53
      have := (zpow_lt_zpow_iff_right₀ (by norm_num : (1 : ℚ) < 2)).mp this
      omega
    have hue : ulpExponent ((n : ℚ) * (2 : ℚ) ^ e) ≤ e := by
      unfold ulpExponent
      rw [hL]
      exact max_le (by omega) he
    obtain ⟨d, hd⟩ : ∃ d : ℕ, (d : ℤ) = e - ulpExponent ((n : ℚ) * (2 : ℚ) ^ e) :=
      ⟨(e - ulpExponent ((n : ℚ) * (2 : ℚ) ^ e)).toNat, Int.toNat_of_nonneg (by omega)⟩
    have hexp : ulpExponent ((n : ℚ) * (2 : ℚ) ^ e) = e - (d : ℤ) := by omega
    unfold roundFinite
    rw [if_neg hq0, hexp]
    have hdiv : (n : ℚ) * (2 : ℚ) ^ e / (2 : ℚ) ^ (e - (d : ℤ)) = ((n * 2 ^ d : ℤ) : ℚ) := by
      rw [zpow_sub₀ h2ne, zpow_natCast]
      push_cast
      field_simp
      ring
    rw [hdiv, roundHalfEven_intCast, zpow_sub₀ h2ne, zpow_natCast]
    push_cast
    field_simp
    ring

/-! With `JSNum.fin` as rounding the rounded code is the exact code -/

@[simp]
theorem JSNum.round_fin (rnd : ℚ → JSNum) (q : ℚ) : JSNum.round rnd (.fin q) = rnd q := rfl

theorem JSNum.round_exact (a : JSNum) : JSNum.round JSNum.fin a = a := by
  cases a <;> rfl

theorem JSNum.fin_div_two (a : ℚ) : JSNum.fin a / JSNum.fin 2 = JSNum.fin (a / 2) :=
  JSNum.fin_div_fin a 2 (by norm_num)

theorem rounded_getImageDimensions_exact (image : Option Image) (canvas : Option Canvas) :
    Rounded.getImageDimensions JSNum.fin image canvas = getImageDimensions image canvas := by
  cases image <;> cases canvas <;>
    simp only [Rounded.getImageDimensions, getImageDimensions, JSNum.round_exact]

theorem rounded_canvasPos_exact (imgDims : ImgDims) (textX textY : ℚ) :
    Rounded.renderCanvas.canvasPos JSNum.fin imgDims textX textY =
      renderCanvas.canvasPos imgDims textX textY := by
  simp only [Rounded.renderCanvas.canvasPos, renderCanvas.canvasPos, JSNum.round_exact]

theorem rounded_ofDims_exact (imgDims : ImgDims) (mouseX mouseY : JSNum) :
    Rounded.getRelativePos.ofDims JSNum.fin imgDims mouseX mouseY =
      getRelativePos.ofDims imgDims mouseX mouseY := by
  simp only [Rounded.getRelativePos.ofDims, getRelativePos.ofDims, JSNum.round_exact]

theorem rounded_getRelativePos_exact (image : Option Image) (canvas : Canvas)
    (e : MouseEvent) :
    Rounded.getRelativePos JSNum.fin image canvas e = getRelativePos image canvas e := by
  simp only [Rounded.getRelativePos, getRelativePos, JSNum.round_exact,
    rounded_getImageDimensions_exact, rounded_ofDims_exact]

theorem rounded_pixelSize_exact (pixelation : ℚ) (imgDims : ImgDims) :
    Rounded.renderCanvas.pixelSize JSNum.fin pixelation imgDims =
      renderCanvas.pixelSize pixelation imgDims := by
  simp only [Rounded.renderCanvas.pixelSize, renderCanvas.pixelSize, JSNum.round_exact]

theorem rounded_drawLabel_exact (host : TextHost) (image : Option Image) (canvas : Canvas)
    (selectedTextId : Option ℕ) (text : Label) :
    Rounded.renderCanvas.drawLabel JSNum.fin host image canvas selectedTextId text =
      renderCanvas.drawLabel host image canvas selectedTextId text := by
  simp only [Rounded.renderCanvas.drawLabel, renderCanvas.drawLabel, JSNum.round_exact,
    rounded_getImageDimensions_exact, JSNum.neg, JSNum.fin_div_two, JSNum.fin_sub_fin,
    JSNum.fin_add_fin, strokeRect]

theorem rounded_labels_exact (host : TextHost) (image : Option Image) (canvas : Canvas)
    (texts : List Label) (selectedTextId : Option ℕ) :
    Rounded.renderCanvas.labels JSNum.fin host image canvas texts selectedTextId =
      renderCanvas.labels host image canvas texts selectedTextId := by
  simp only [Rounded.renderCanvas.labels, renderCanvas.labels]
  congr 1
  funext text
  exact rounded_drawLabel_exact host image canvas selectedTextId text

theorem rounded_renderCanvas_exact (host : TextHost) (image : Option Image) (canvas : Canvas)
    (pixelation : ℚ) (texts : List Label) (selectedTextId : Option ℕ) :
    Rounded.renderCanvas JSNum.fin host image canvas pixelation texts selectedTextId =
      renderCanvas host image canvas pixelation texts selectedTextId := by
  cases image <;>
    simp only [Rounded.renderCanvas, renderCanvas, rounded_labels_exact,
      rounded_getImageDimensions_exact, rounded_pixelSize_exact]

theorem rounded_hit_exact (host : TextHost) (text : Label) (pos : JSPoint) :
    Rounded.handleMouseDown.hit JSNum.fin host text pos = handleMouseDown.hit host text pos := by
  simp only [Rounded.handleMouseDown.hit, handleMouseDown.hit, JSNum.round_exact,
    JSNum.fin_div_two, JSNum.fin_sub_fin, JSNum.fin_add_fin]

theorem rounded_loop_exact (host : TextHost) (texts : List Label) (pos : JSPoint) (n : ℕ)
    (h : n ≤ texts.length) :
    Rounded.handleMouseDown.loop JSNum.fin host texts pos n h =
      handleMouseDown.loop host texts pos n h := by
  induction n with
  | zero => rfl
  | succ i ih =>
    simp only [Rounded.handleMouseDown.loop, handleMouseDown.loop, rounded_hit_exact,
      ih (Nat.le_of_succ_le h)]

theorem rounded_handleMouseDown_exact (props : Props) (st : DragState) (e : MouseEvent) :
    Rounded.handleMouseDown JSNum.fin props st e = handleMouseDown props st e := by
  simp only [Rounded.handleMouseDown, handleMouseDown, rounded_getRelativePos_exact,
    rounded_loop_exact, JSNum.round_exact]

theorem rounded_handleMouseMove_exact (props : Props) (st : DragState) (e : MouseEvent) :
    Rounded.handleMouseMove JSNum.fin props st e = handleMouseMove props st e := by
  simp only [Rounded.handleMouseMove, handleMouseMove, rounded_getRelativePos_exact,
    JSNum.round_exact]

theorem exactAt_exact (vs : List ℚ) : ExactAt JSNum.fin vs := fun _ _ => rfl

/-! The fitted rectangle in double arithmetic -/

/-- Where none of the eight operations rounds, the rounded code returns what the exact
code returns. -/
theorem rounded_getImageDimensions_of_exact (rnd : ℚ → JSNum) (imgW imgH surfW surfH rl rt : ℚ)
    (hW : 0 < imgW) (hH : 0 < imgH)
    (hex : ExactAt rnd (getImageDimensions.steps imgW imgH surfW surfH)) :
    Rounded.getImageDimensions rnd (some ⟨imgW, imgH⟩) (some ⟨surfW, surfH, rl, rt⟩) =
      getImageDimensions (some ⟨imgW, imgH⟩) (some ⟨surfW, surfH, rl, rt⟩) := by
  have e1 := hex (surfW / imgW) (by simp [getImageDimensions.steps])
  have e2 := hex (surfH / imgH) (by simp [getImageDimensions.steps])
  have e3 := hex (imgW * min (surfW / imgW) (surfH / imgH)) (by simp [getImageDimensions.steps])
  have e4 := hex (imgH * min (surfW / imgW) (surfH / imgH)) (by simp [getImageDimensions.steps])
  have e5 := hex (surfW - imgW * min (surfW / imgW) (surfH / imgH))
    (by simp [getImageDimensions.steps])
  have e6 := hex ((surfW - imgW * min (surfW / imgW) (surfH / imgH)) / 2)
    (by simp [getImageDimensions.steps])
  have e7 := hex (surfH - imgH * min (surfW / imgW) (surfH / imgH))
    (by simp [getImageDimensions.steps])
  have e8 := hex ((surfH - imgH * min (surfW / imgW) (surfH / imgH)) / 2)
    (by simp [getImageDimensions.steps])
  rw [getImageDimensions_pos imgW imgH surfW surfH rl rt hW hH]
  simp only [Rounded.getImageDimensions]
  rw [JSNum.fin_div_fin _ _ (ne_of_gt hW), JSNum.fin_div_fin _ _ (ne_of_gt hH)]
  simp only [JSNum.round_fin, e1, e2, JSNum.min_fin_fin, JSNum.fin_mul_fin, e3, e4,
    JSNum.fin_sub_fin, e5, e7]
  rw [JSNum.fin_div_fin _ _ (by norm_num), JSNum.fin_div_fin _ _ (by norm_num)]
  simp only [JSNum.round_fin, e6, e8]

/-- Claim C19 as stated fails of the program, whose arithmetic is in doubles. For a
1920-by-1080 image on the 1000-by-700 surface the scale `1000 / 1920` is rounded, the
product `1920 * scale` is rounded to the double next above 1000, and the rectangle returned
has `x < 0`, a width that is not 1000 with a height that is not 700, `x + width > 1000`,
and `width * 1080 ≠ height * 1920`. -/
theorem getImageDimensions_rounds :
    Rounded.getImageDimensions roundDouble (some ⟨1920, 1080⟩) (some ⟨1000, 700, 0, 0⟩) =
      { width := .fin (8796093022208001 / 8796093022208), height := .fin (1125 / 2),
        x := .fin (-1 / 17592186044416), y := .fin (275 / 4),
        scale := .fin (4691249611844267 / 9007199254740992) } ∧
    (-1 / 17592186044416 : ℚ) < 0 ∧
    (8796093022208001 / 8796093022208 : ℚ) ≠ 1000 ∧ (1125 / 2 : ℚ) ≠ 700 ∧
    (1000 : ℚ) < -1 / 17592186044416 + 8796093022208001 / 8796093022208 ∧
    (8796093022208001 / 8796093022208 : ℚ) * 1080 ≠ 1125 / 2 * 1920 := by
  refine ⟨by decide!, by norm_num, by norm_num, by norm_num, by norm_num, by norm_num⟩

/-- Claim C19, amended. For an image with positive sides, whenever none of the eight
operations of lines 44-48 rounds (with `rnd` the rounding of the arithmetic: the program
for `roundDouble`, exact arithmetic for `JSNum.fin`), the fitted rectangle lies inside the
surface, keeps the aspect ratio of the image, and touches the surface bounds on at least
one axis. -/
theorem getImageDimensions_inside_exact (rnd : ℚ → JSNum) (imgW imgH surfW surfH rl rt : ℚ)
    (hW : 0 < imgW) (hH : 0 < imgH)
    (hex : ExactAt rnd (getImageDimensions.steps imgW imgH surfW surfH)) :
    ∃ scale width height x y : ℚ,
      Rounded.getImageDimensions rnd (some ⟨imgW, imgH⟩) (some ⟨surfW, surfH, rl, rt⟩) =
        { width := .fin width, height := .fin height, x := .fin x, y := .fin y,
          scale := .fin scale } ∧
      0 ≤ x ∧ 0 ≤ y ∧ x + width ≤ surfW ∧ y + height ≤ surfH ∧
      width * imgH = height * imgW ∧ (width = surfW ∨ height = surfH) := by
  rw [rounded_getImageDimensions_of_exact rnd imgW imgH surfW surfH rl rt hW hH hex]
  exact getImageDimensions_inside imgW imgH surfW surfH rl rt hW hH

/-- Instance of the amended C19 in double arithmetic: a 300-by-200 image on a 900-by-700
surface, where no operation rounds; the rectangle is 900 by 600 at `(0, 50)`. -/
theorem getImageDimensions_inside_exact_witness :
    (0 : ℚ) < 300 ∧ (0 : ℚ) < 200 ∧
    ExactAt roundDouble (getImageDimensions.steps 300 200 900 700) ∧
    ∃ scale width height x y : ℚ,
      Rounded.getImageDimensions roundDouble (some ⟨300, 200⟩) (some ⟨900, 700, 0, 0⟩) =
        { width := .fin width, height := .fin height, x := .fin x, y := .fin y,
          scale := .fin scale } ∧
      0 ≤ x ∧ 0 ≤ y ∧ x + width ≤ 900 ∧ y + height ≤ 700 ∧
      width * 200 = height * 300 ∧ (width = 900 ∨ height = 700) :=
  ⟨by norm_num, by norm_num, by decide!,
    getImageDimensions_inside_exact roundDouble 300 200 900 700 0 0 (by norm_num) (by norm_num)
      (by decide!)⟩

/-! The two conversions in double arithmetic -/

/-- Claim C4 as stated fails of the program, whose arithmetic is in doubles, and fails for
a scale that is not finite. On the fit of a 300-by-200 image on the 1000-by-700 surface
the surface point `(7, 2)` goes to image space and comes back as `(7 + 2^-50, 2 - 2^-49)`,
and the image point `(1, 1)` goes to the surface and comes back as `(1, 1 - 2^-51)`. For an
image of size 0 by 0 the fit result has scale `+Infinity`, which is not 0, and the surface
point `(7, 2)` converts to `(NaN, NaN)`. -/
theorem fit_roundtrip_rounds :
    Rounded.getImageDimensions roundDouble (some ⟨300, 200⟩) (some ⟨1000, 700, 0, 0⟩) =
      exDimsWide ∧
    Rounded.getRelativePos.ofDims roundDouble exDimsWide (.fin 7) (.fin 2) =
      ⟨.fin (4728779608739021 / 2251799813685248),
       .fin (-4953959590107533 / 1125899906842624)⟩ ∧
    Rounded.renderCanvas.canvasPos roundDouble exDimsWide
        (4728779608739021 / 2251799813685248) (-4953959590107533 / 1125899906842624) =
      ⟨.fin (7 + 1 / 2 ^ 50), .fin (2 - 1 / 2 ^ 49)⟩ ∧
    Rounded.renderCanvas.canvasPos roundDouble exDimsWide 1 1 =
      ⟨.fin (7505999378950827 / 2251799813685248),
       .fin (5629499534213109 / 281474976710656)⟩ ∧
    Rounded.getRelativePos.ofDims roundDouble exDimsWide
        (.fin (7505999378950827 / 2251799813685248))
        (.fin (5629499534213109 / 281474976710656)) =
      ⟨.fin 1, .fin (1 - 1 / 2 ^ 51)⟩ ∧
    Rounded.getImageDimensions roundDouble (some ⟨0, 0⟩) (some ⟨1000, 700, 0, 0⟩) =
      { width := .nan, height := .nan, x := .nan, y := .nan, scale := .posInf } ∧
    Rounded.getRelativePos.ofDims roundDouble
        { width := .nan, height := .nan, x := .nan, y := .nan, scale := .posInf }
        (.fin 7) (.fin 2) = ⟨.nan, .nan⟩ := by
  refine ⟨by decide!, by decide!, by decide!, by decide!, by decide!, by decide!, by decide!⟩

/-- Claim C4, amended. For finite `x`, `y` and a nonzero finite `scale`, and with `rnd`
the rounding of the arithmetic (the program for `roundDouble`, exact arithmetic for `JSNum.fin`):
when the subtraction and the division of `getRelativePos` do not round and the surface
point is representable, mapping it to image space and back as the renderer places labels
returns the surface point; when the multiplication and the addition of the renderer do
not round and the image point is representable, mapping it forward and then back returns
the image point. -/
theorem fit_roundtrip_exact (rnd : ℚ → JSNum) (w h : JSNum) (x y scale : ℚ) (hs : scale ≠ 0) :
    (∀ sx sy : ℚ,
      ExactAt rnd [sx - x, (sx - x) / scale, sx, sy - y, (sy - y) / scale, sy] →
      ∃ ix iy : ℚ,
        Rounded.getRelativePos.ofDims rnd ⟨w, h, .fin x, .fin y, .fin scale⟩ (.fin sx)
          (.fin sy) = ⟨.fin ix, .fin iy⟩ ∧
        ix = (sx - x) / scale ∧ iy = (sy - y) / scale ∧
        Rounded.renderCanvas.canvasPos rnd ⟨w, h, .fin x, .fin y, .fin scale⟩ ix iy =
          ⟨.fin sx, .fin sy⟩) ∧
    (∀ ix iy : ℚ,
      ExactAt rnd [ix * scale, x + ix * scale, ix, iy * scale, y + iy * scale, iy] →
      ∃ sx sy : ℚ,
        Rounded.renderCanvas.canvasPos rnd ⟨w, h, .fin x, .fin y, .fin scale⟩ ix iy =
          ⟨.fin sx, .fin sy⟩ ∧
        sx = x + ix * scale ∧ sy = y + iy * scale ∧
        Rounded.getRelativePos.ofDims rnd ⟨w, h, .fin x, .fin y, .fin scale⟩ (.fin sx)
          (.fin sy) = ⟨.fin ix, .fin iy⟩) := by
  constructor
  · intro sx sy hex
    have e1 := hex (sx - x) (by simp)
    have e2 := hex ((sx - x) / scale) (by simp)
    have e3 := hex sx (by simp)
    have e4 := hex (sy - y) (by simp)
    have e5 := hex ((sy - y) / scale) (by simp)
    have e6 := hex sy (by simp)
    refine ⟨(sx - x) / scale, (sy - y) / scale, ?_, rfl, rfl, ?_⟩
    · simp only [Rounded.getRelativePos.ofDims, JSNum.fin_sub_fin, JSNum.round_fin, e1, e4,
        JSNum.fin_div_fin _ _ hs, e2, e5]
    · simp only [Rounded.renderCanvas.canvasPos, JSNum.fin_mul_fin, JSNum.round_fin,
        div_mul_cancel₀ _ hs, e1, e4, JSNum.fin_add_fin, add_sub_cancel, e3, e6]
  · intro ix iy hex
    have e1 := hex (ix * scale) (by simp)
    have e2 := hex (x + ix * scale) (by simp)
    have e3 := hex ix (by simp)
    have e4 := hex (iy * scale) (by simp)
    have e5 := hex (y + iy * scale) (by simp)
    have e6 := hex iy (by simp)
    refine ⟨x + ix * scale, y + iy * scale, ?_, rfl, rfl, ?_⟩
    · simp only [Rounded.renderCanvas.canvasPos, JSNum.fin_mul_fin, JSNum.round_fin, e1, e4,
        JSNum.fin_add_fin, e2, e5]
    · simp only [Rounded.getRelativePos.ofDims, JSNum.fin_sub_fin, JSNum.round_fin,
        add_sub_cancel_left, e1, e4, JSNum.fin_div_fin _ _ hs, mul_div_cancel_right₀ _ hs,
        e3, e6]

/-- Instance of the amended C4 in double arithmetic: offsets `(50, 0)` and scale `2`, the
surface point `(260, 204)`, whose image point is `(105, 102)`. -/
theorem fit_roundtrip_exact_witness :
    (2 : ℚ) ≠ 0 ∧
    ExactAt roundDouble [260 - 50, (260 - 50) / 2, 260, 204 - 0, (204 - 0) / 2, 204] ∧
    ∃ ix iy : ℚ,
      Rounded.getRelativePos.ofDims roundDouble ⟨.fin 400, .fin 400, .fin 50, .fin 0, .fin 2⟩
        (.fin 260) (.fin 204) = ⟨.fin ix, .fin iy⟩ ∧
      ix = (260 - 50) / 2 ∧ iy = (204 - 0) / 2 ∧
      Rounded.renderCanvas.canvasPos roundDouble ⟨.fin 400, .fin 400, .fin 50, .fin 0, .fin 2⟩
        ix iy = ⟨.fin 260, .fin 204⟩ :=
  ⟨by norm_num, by decide!,
    (fit_roundtrip_exact roundDouble (.fin 400) (.fin 400) 50 0 2 (by norm_num)).1 260 204
      (by decide!)⟩

/-! A drag in double arithmetic -/

theorem rounded_loop_of_topmost_aux (rnd : ℚ → JSNum) (host : TextHost) (texts : List Label)
    (pos : JSPoint) (i : ℕ) (hi : i < texts.length)
    (hin : Rounded.handleMouseDown.hit rnd host (texts[i]) pos = true)
    (hmax : ∀ j, ∀ hj : j < texts.length, i < j →
      Rounded.handleMouseDown.hit rnd host (texts[j]) pos = false) :
    ∀ n, ∀ hn : n ≤ texts.length, i < n →
      Rounded.handleMouseDown.loop rnd host texts pos n hn = some (texts[i]) := by
  intro n
  induction n with
  | zero => intro _ h; exact absurd h (Nat.not_lt_zero _)
  | succ k ih =>
    intro hn h
    simp only [Rounded.handleMouseDown.loop]
    by_cases hk : i = k
    · subst hk
      rw [if_pos hin]
    · have hlt : i < k := by omega
      rw [if_neg (by rw [hmax k (by omega) hlt]; simp)]
      exact ih (Nat.le_of_succ_le hn) hlt

/-- The loop returns the last label of the list whose test fires. -/
theorem rounded_loop_of_topmost (rnd : ℚ → JSNum) (host : TextHost) (texts : List Label)
    (pos : JSPoint) (i : ℕ) (hi : i < texts.length)
    (hin : Rounded.handleMouseDown.hit rnd host (texts[i]) pos = true)
    (hmax : ∀ j, ∀ hj : j < texts.length, i < j →
      Rounded.handleMouseDown.hit rnd host (texts[j]) pos = false) :
    Rounded.handleMouseDown.loop rnd host texts pos texts.length (Nat.le_refl _) =
      some (texts[i]) :=
  rounded_loop_of_topmost_aux rnd host texts pos i hi hin hmax texts.length (Nat.le_refl _) hi

/-- The loop runs to its end when no test fires. -/
theorem rounded_loop_of_miss (rnd : ℚ → JSNum) (host : TextHost) (texts : List Label)
    (pos : JSPoint)
    (hmiss : ∀ j, ∀ hj : j < texts.length,
      Rounded.handleMouseDown.hit rnd host (texts[j]) pos = false) :
    ∀ n, ∀ hn : n ≤ texts.length,
      Rounded.handleMouseDown.loop rnd host texts pos n hn = none := by
  intro n
  induction n with
  | zero => intro _; rfl
  | succ k ih =>
    intro hn
    simp only [Rounded.handleMouseDown.loop]
    rw [if_neg (by rw [hmiss k (by omega)]; simp)]
    exact ih (Nat.le_of_succ_le hn)

theorem rounded_handleMouseDown_of_loop_some (rnd : ℚ → JSNum) (props : Props) (st : DragState)
    (e : MouseEvent) (text : Label)
    (h : Rounded.handleMouseDown.loop rnd props.host props.texts
      (Rounded.getRelativePos rnd props.image props.canvas e) props.texts.length
      (Nat.le_refl _) = some text) :
    Rounded.handleMouseDown rnd props st e =
      ({ isDragging := true, dragTextId := some text.id,
         dragOffset :=
           { x := JSNum.round rnd
               ((Rounded.getRelativePos rnd props.image props.canvas e).x - JSNum.fin text.x),
             y := JSNum.round rnd
               ((Rounded.getRelativePos rnd props.image props.canvas e).y - JSNum.fin text.y) } },
       [Notification.onTextSelect text.id]) := by
  simp only [Rounded.handleMouseDown, h]

theorem rounded_handleMouseDown_of_loop_none (rnd : ℚ → JSNum) (props : Props) (st : DragState)
    (e : MouseEvent)
    (h : Rounded.handleMouseDown.loop rnd props.host props.texts
      (Rounded.getRelativePos rnd props.image props.canvas e) props.texts.length
      (Nat.le_refl _) = none) :
    Rounded.handleMouseDown rnd props st e = (st, []) := by
  simp only [Rounded.handleMouseDown, h]

/-- Claim C7 as stated fails of the program, whose arithmetic is in doubles. A 300-by-200
image on the 1000-by-700 canvas, a label centred on `(5, 5)`: the pointer-down at the
client point `(10, 0)` converts to the image point `(3, -4.9999999999999885)`, hits the
label and records the offset `(-2, -9.999999999999989)`; the pointer-move at the very
same client point then reports `y = 5 + 2^-50`, not the centre `5`. -/
theorem drag_move_rounds :
    Rounded.getRelativePos roundDouble (exPropsWide [exLabelD]).image
      (exPropsWide [exLabelD]).canvas ⟨10, 0⟩ =
      ⟨.fin 3, .fin (-5629499534213107 / 1125899906842624)⟩ ∧
    Rounded.handleMouseDown roundDouble (exPropsWide [exLabelD]) DragState.initial ⟨10, 0⟩ =
      ({ isDragging := true, dragTextId := some 4,
         dragOffset := ⟨.fin (-2), .fin (-2814749767106557 / 281474976710656)⟩ },
       [Notification.onTextSelect 4]) ∧
    Rounded.handleMouseMove roundDouble (exPropsWide [exLabelD])
        { isDragging := true, dragTextId := some 4,
          dragOffset := ⟨.fin (-2), .fin (-2814749767106557 / 281474976710656)⟩ } ⟨10, 0⟩ =
      ({ isDragging := true, dragTextId := some 4,
         dragOffset := ⟨.fin (-2), .fin (-2814749767106557 / 281474976710656)⟩ },
       [Notification.onTextChange (some 4) ⟨.fin 5, .fin (5 + 1 / 2 ^ 50)⟩]) ∧
    exLabelD.x = 5 ∧ exLabelD.y = 5 ∧ (5 : ℚ) + 1 / 2 ^ 50 ≠ 5 := by
  refine ⟨by decide!, by decide!, by decide!, rfl, rfl, by norm_num⟩

/-- Claim C7, amended. With `rnd` the rounding of the arithmetic (the program for
`roundDouble`, exact arithmetic for `JSNum.fin`): after a pointer-down at image point `p`
that hits label `L` with centre `c`, the offset recorded is the rounded `p - c`, and a
pointer-move at image point `q` calls `onTextChange` once, with `L.id` and the rounded
`q - offset`. When these two subtractions do not round, the offset is `p - c` and the
position reported is `c + (q - p)`, so that a move to `p` itself reports the centre. -/
theorem drag_move_emits_exact (rnd : ℚ → JSNum) (props : Props) (st : DragState)
    (e : MouseEvent) (i : ℕ) (hi : i < props.texts.length) (px py : ℚ)
    (hp : Rounded.getRelativePos rnd props.image props.canvas e = ⟨.fin px, .fin py⟩)
    (hin : Rounded.handleMouseDown.hit rnd props.host (props.texts[i]) ⟨.fin px, .fin py⟩ = true)
    (hmax : ∀ j, ∀ hj : j < props.texts.length, i < j →
      Rounded.handleMouseDown.hit rnd props.host (props.texts[j]) ⟨.fin px, .fin py⟩ = false)
    (props2 : Props) (e2 : MouseEvent) (qx qy : ℚ)
    (hq : Rounded.getRelativePos rnd props2.image props2.canvas e2 = ⟨.fin qx, .fin qy⟩) :
    (Rounded.handleMouseDown rnd props st e).1.dragOffset =
      ⟨rnd (px - (props.texts[i]).x), rnd (py - (props.texts[i]).y)⟩ ∧
    Rounded.handleMouseMove rnd props2 (Rounded.handleMouseDown rnd props st e).1 e2 =
      ((Rounded.handleMouseDown rnd props st e).1,
       [Notification.onTextChange (some (props.texts[i]).id)
         ⟨JSNum.round rnd (.fin qx - rnd (px - (props.texts[i]).x)),
          JSNum.round rnd (.fin qy - rnd (py - (props.texts[i]).y))⟩]) ∧
    (ExactAt rnd [px - (props.texts[i]).x, qx - (px - (props.texts[i]).x),
        py - (props.texts[i]).y, qy - (py - (props.texts[i]).y)] →
      (Rounded.handleMouseDown rnd props st e).1.dragOffset =
        ⟨.fin (px - (props.texts[i]).x), .fin (py - (props.texts[i]).y)⟩ ∧
      Rounded.handleMouseMove rnd props2 (Rounded.handleMouseDown rnd props st e).1 e2 =
        ((Rounded.handleMouseDown rnd props st e).1,
         [Notification.onTextChange (some (props.texts[i]).id)
           ⟨.fin ((props.texts[i]).x + (qx - px)), .fin ((props.texts[i]).y + (qy - py))⟩]) ∧
      (qx = px → qy = py →
        Rounded.handleMouseMove rnd props2 (Rounded.handleMouseDown rnd props st e).1 e2 =
          ((Rounded.handleMouseDown rnd props st e).1,
           [Notification.onTextChange (some (props.texts[i]).id)
             ⟨.fin (props.texts[i]).x, .fin (props.texts[i]).y⟩]))) := by
  have hdown := rounded_handleMouseDown_of_loop_some rnd props st e _
    (rounded_loop_of_topmost rnd props.host props.texts _ i hi (by rw [hp]; exact hin)
      (by rw [hp]; exact hmax))
  rw [hp] at hdown
  simp only [JSNum.fin_sub_fin, JSNum.round_fin] at hdown
  have hmove : Rounded.handleMouseMove rnd props2 (Rounded.handleMouseDown rnd props st e).1 e2 =
      ((Rounded.handleMouseDown rnd props st e).1,
       [Notification.onTextChange (some (props.texts[i]).id)
         ⟨JSNum.round rnd (.fin qx - rnd (px - (props.texts[i]).x)),
          JSNum.round rnd (.fin qy - rnd (py - (props.texts[i]).y))⟩]) := by
    rw [hdown]
    simp only [Rounded.handleMouseMove, hq, Bool.not_true, Bool.false_eq_true, if_false]
  refine ⟨by rw [hdown], hmove, ?_⟩
  intro hex
  have x1 := hex (px - (props.texts[i]).x) (by simp)
  have x2 := hex (qx - (px - (props.texts[i]).x)) (by simp)
  have x3 := hex (py - (props.texts[i]).y) (by simp)
  have x4 := hex (qy - (py - (props.texts[i]).y)) (by simp)
  have r1 : qx - (px - (props.texts[i]).x) = (props.texts[i]).x + (qx - px) := by ring
  have r2 : qy - (py - (props.texts[i]).y) = (props.texts[i]).y + (qy - py) := by ring
  have hmove2 : Rounded.handleMouseMove rnd props2 (Rounded.handleMouseDown rnd props st e).1 e2 =
      ((Rounded.handleMouseDown rnd props st e).1,
       [Notification.onTextChange (some (props.texts[i]).id)
         ⟨.fin ((props.texts[i]).x + (qx - px)), .fin ((props.texts[i]).y + (qy - py))⟩]) := by
    rw [r1] at x2
    rw [r2] at x4
    rw [hmove, x1, x3]
    simp only [JSNum.fin_sub_fin, JSNum.round_fin, r1, r2, x2, x4]
  refine ⟨by rw [hdown, x1, x3], hmove2, ?_⟩
  intro hx hy
  rw [hmove2, hx, hy]
  simp

/-- Instance of the amended C7 in double arithmetic, the drag scenario of the
specification: label at `(100, 100)`, pointer-down at the image point `(105, 102)` records
the offset `(5, 2)`, and a pointer-move at the image point `(150, 140)` reports
`(145, 138)`. -/
theorem drag_move_emits_exact_witness :
    Rounded.getRelativePos roundDouble (exProps [exLabelA]).image (exProps [exLabelA]).canvas
      ⟨220, 224⟩ = ⟨.fin 105, .fin 102⟩ ∧
    Rounded.handleMouseDown.hit roundDouble exHost exLabelA ⟨.fin 105, .fin 102⟩ = true ∧
    Rounded.getRelativePos roundDouble (exProps [exLabelA]).image (exProps [exLabelA]).canvas
      ⟨310, 300⟩ = ⟨.fin 150, .fin 140⟩ ∧
    ExactAt roundDouble [105 - 100, 150 - (105 - 100), 102 - 100, 140 - (102 - 100)] ∧
    (Rounded.handleMouseDown roundDouble (exProps [exLabelA]) DragState.initial
      ⟨220, 224⟩).1.dragOffset = ⟨.fin 5, .fin 2⟩ ∧
    Rounded.handleMouseMove roundDouble (exProps [exLabelA])
        (Rounded.handleMouseDown roundDouble (exProps [exLabelA]) DragState.initial
          ⟨220, 224⟩).1 ⟨310, 300⟩ =
      ((Rounded.handleMouseDown roundDouble (exProps [exLabelA]) DragState.initial
          ⟨220, 224⟩).1,
       [Notification.onTextChange (some 1) ⟨.fin 145, .fin 138⟩]) := by
  have hp : Rounded.getRelativePos roundDouble (exProps [exLabelA]).image
      (exProps [exLabelA]).canvas ⟨220, 224⟩ = ⟨.fin 105, .fin 102⟩ := by decide!
  have hin : Rounded.handleMouseDown.hit roundDouble exHost exLabelA ⟨.fin 105, .fin 102⟩ =
      true := by decide!
  have hq : Rounded.getRelativePos roundDouble (exProps [exLabelA]).image
      (exProps [exLabelA]).canvas ⟨310, 300⟩ = ⟨.fin 150, .fin 140⟩ := by decide!
  have hex : ExactAt roundDouble [105 - 100, 150 - (105 - 100), 102 - 100, 140 - (102 - 100)] := by
    decide!
  have h := (drag_move_emits_exact roundDouble (exProps [exLabelA]) DragState.initial
    ⟨220, 224⟩ 0 (by simp [exProps]) 105 102 hp hin
    (fun j hj hij => absurd hj (by simp [exProps]; omega))
    (exProps [exLabelA]) ⟨310, 300⟩ 150 140 hq).2.2 hex
  refine ⟨hp, hin, hq, hex, ?_, ?_⟩
  · rw [h.1]
    norm_num [exProps, exLabelA]
  · rw [h.2.1]
    norm_num [exProps, exLabelA]

/-! The block size in double arithmetic -/

/-- An `Int` maximum with 1, cast to a rational. -/
theorem cast_max_one (z : ℤ) : ((max 1 z : ℤ) : ℚ) = max (1 : ℚ) (z : ℚ) := by
  push_cast
  rfl

/-- An order-keeping rounding never returns `NaN`. -/
theorem keepsOrder_ne_nan (rnd : ℚ → JSNum) (hord : KeepsOrder rnd) (q : ℚ) :
    rnd q ≠ .nan := by
  intro h
  have := hord q q (le_refl q)
  rw [h] at this
  simp [JSNum.le] at this

/-- An order-keeping rounding that fixes 0 returns, for a result that is not negative, a
finite number that is not negative, or `+Infinity`. -/
theorem keepsOrder_nonneg (rnd : ℚ → JSNum) (hord : KeepsOrder rnd) (h0 : rnd 0 = .fin 0)
    (q : ℚ) (hq : 0 ≤ q) : rnd q = .posInf ∨ ∃ r : ℚ, 0 ≤ r ∧ rnd q = .fin r := by
  have h := hord 0 q hq
  rw [h0] at h
  cases hr : rnd q with
  | fin r =>
    rw [hr] at h
    simp only [JSNum.le, decide_eq_true_eq] at h
    exact Or.inr ⟨r, h, rfl⟩
  | posInf => exact Or.inl rfl
  | negInf =>
    rw [hr] at h
    simp [JSNum.le] at h
  | nan =>
    rw [hr] at h
    simp [JSNum.le] at h

theorem JSNum.fin_mul_posInf (s : ℚ) (hs : 0 < s) : JSNum.fin s * JSNum.posInf = .posInf := by
  show JSNum.mul (.fin s) .posInf = .posInf
  simp [JSNum.mul, ne_of_gt hs, JSNum.infOfSign, hs]

/-- The block size is `+Infinity` or an integer that is at least 1. -/
theorem blockSize_cases (rnd : ℚ → JSNum) (hord : KeepsOrder rnd) (h0 : rnd 0 = .fin 0)
    (s w : ℚ) (hs : 0 < s) (hw : 0 ≤ w) :
    blockSize rnd s w = .posInf ∨
      ∃ r : ℚ, 0 ≤ r ∧ blockSize rnd s w = .fin ((max 1 ⌊r⌋ : ℤ) : ℚ) := by
  unfold blockSize
  rcases keepsOrder_nonneg rnd hord h0 (w / 200) (by positivity) with ha | ⟨a, ha0, ha⟩
  · rw [ha, JSNum.fin_mul_posInf s hs]
    exact Or.inl rfl
  · rw [ha, JSNum.fin_mul_fin, JSNum.round_fin]
    rcases keepsOrder_nonneg rnd hord h0 (s * a) (by positivity) with hb | ⟨b, hb0, hb⟩
    · rw [hb]
      exact Or.inl rfl
    · rw [hb]
      refine Or.inr ⟨b, hb0, ?_⟩
      simp only [JSNum.floor_fin, JSNum.max_fin_fin, cast_max_one]

theorem JSNum.le_posInf (a : JSNum) (ha : a ≠ .nan) : JSNum.le a .posInf = true := by
  cases a <;> simp [JSNum.le] at ha ⊢

theorem JSNum.floor_le_floor (a b : JSNum) (h : JSNum.le a b = true) :
    JSNum.le (JSNum.floor a) (JSNum.floor b) = true := by
  cases a <;> cases b <;> simp [JSNum.le, JSNum.floor] at h ⊢
  exact_mod_cast Int.floor_le_floor h

theorem JSNum.max_one_le_max_one (a b : JSNum) (h : JSNum.le a b = true) :
    JSNum.le (JSNum.max (.fin 1) a) (JSNum.max (.fin 1) b) = true := by
  cases a with
  | fin x =>
    cases b with
    | fin y =>
      simp only [JSNum.le, decide_eq_true_eq] at h
      simp only [JSNum.max, JSNum.le, decide_eq_true_eq]
      exact max_le_max (le_refl 1) h
    | posInf => rfl
    | negInf => simp [JSNum.le] at h
    | nan => simp [JSNum.le] at h
  | posInf => cases b <;> simp [JSNum.le, JSNum.max] at h ⊢
  | negInf => cases b <;> simp [JSNum.le, JSNum.max] at h ⊢
  | nan => simp [JSNum.le] at h

theorem JSNum.round_le_round (rnd : ℚ → JSNum) (hord : KeepsOrder rnd) (a b : JSNum)
    (h : JSNum.le a b = true) : JSNum.le (JSNum.round rnd a) (JSNum.round rnd b) = true := by
  cases a with
  | fin x =>
    cases b with
    | fin y =>
      simp only [JSNum.le, decide_eq_true_eq] at h
      exact hord x y h
    | posInf => exact JSNum.le_posInf _ (keepsOrder_ne_nan rnd hord x)
    | negInf => simp [JSNum.le] at h
    | nan => simp [JSNum.le] at h
  | posInf => cases b <;> simp [JSNum.le, JSNum.round] at h ⊢
  | negInf =>
    cases b with
    | fin y =>
      have := keepsOrder_ne_nan rnd hord y
      simp only [JSNum.round]
      cases hr : rnd y <;> simp [JSNum.le]
      exact this hr
    | posInf => rfl
    | negInf => rfl
    | nan => simp [JSNum.le] at h
  | nan => simp [JSNum.le] at h

/-- The block size does not decrease when the strength or the width grows. -/
theorem blockSize_mono (rnd : ℚ → JSNum) (hord : KeepsOrder rnd) (h0 : rnd 0 = .fin 0)
    (s w s' w' : ℚ) (hs : 0 < s) (hw : 0 ≤ w) (hss : s ≤ s') (hww : w ≤ w') :
    JSNum.le (blockSize rnd s w) (blockSize rnd s' w') = true := by
  unfold blockSize
  apply JSNum.max_one_le_max_one
  apply JSNum.floor_le_floor
  apply JSNum.round_le_round rnd hord
  have hs' : 0 < s' := lt_of_lt_of_le hs hss
  have hq : w / 200 ≤ w' / 200 := by linarith
  have hle := hord _ _ hq
  rcases keepsOrder_nonneg rnd hord h0 (w / 200) (by positivity) with ha | ⟨a, ha0, ha⟩
  · rw [ha] at hle ⊢
    rcases keepsOrder_nonneg rnd hord h0 (w' / 200) (by linarith) with hb | ⟨b, _, hb⟩
    · rw [hb, JSNum.fin_mul_posInf s hs, JSNum.fin_mul_posInf s' hs']
      rfl
    · rw [hb] at hle
      simp [JSNum.le] at hle
  · rw [ha] at hle ⊢
    rcases keepsOrder_nonneg rnd hord h0 (w' / 200) (by linarith) with hb | ⟨b, _, hb⟩
    · rw [hb, JSNum.fin_mul_posInf s' hs', JSNum.fin_mul_fin]
      rfl
    · rw [hb] at hle ⊢
      simp only [JSNum.le, decide_eq_true_eq] at hle
      rw [JSNum.fin_mul_fin, JSNum.fin_mul_fin]
      simp only [JSNum.le, decide_eq_true_eq]
      exact mul_le_mul hss hle ha0 (le_of_lt hs')

/-- Line 69 on a finite width computes `blockSize`. -/
theorem rounded_pixelSize_fin (rnd : ℚ → JSNum) (s w : ℚ) (d : ImgDims)
    (hd : d.width = .fin w) :
    Rounded.renderCanvas.pixelSize rnd s d = blockSize rnd s w := by
  simp only [Rounded.renderCanvas.pixelSize, blockSize, hd]
  rw [JSNum.fin_div_fin _ _ (by norm_num)]
  simp only [JSNum.round_fin]

/-- Claim C17 as stated fails of the program. For strength 25 and a rendered width of 232
(a 232-by-100 image on a canvas of its own size) line 69 rounds `232 / 200` to a double
and the product with 25 to `28.999999999999996`, so the block size passed to the filter
is 28, while `max(1, floor(25 * 232 / 200))` is 29. For the strength `2 ^ 1023` on a
rendered width of 400 the product overflows and the block size passed is `+Infinity`,
not an integer. And for a
rendered width of 0 (a 200-by-200 image on a canvas of width 0) no block size is passed:
the `getImageData` call of line 64 throws. -/
theorem blockSize_rounds :
    filterCallOf (Rounded.renderCanvas roundDouble exHost (some ⟨232, 100⟩) ⟨232, 100, 0, 0⟩
      25 [] none) = some ⟨.fin 232, .fin 100, .fin 28⟩ ∧
    JSNum.round roundDouble (.fin 25 * roundDouble (232 / 200)) =
      .fin (8162774324609023 / 281474976710656) ∧
    max 1 ⌊(25 : ℚ) * 232 / 200⌋ = 29 ∧
    filterCallOf (Rounded.renderCanvas roundDouble exHost (some ⟨400, 100⟩) ⟨400, 100, 0, 0⟩
      (2 ^ 1023) [] none) = some ⟨.fin 400, .fin 100, .posInf⟩ ∧
    (Rounded.getImageDimensions roundDouble (some ⟨200, 200⟩) (some ⟨0, 400, 0, 0⟩)).width =
      .fin 0 ∧
    threw (Rounded.renderCanvas roundDouble exHost (some ⟨200, 200⟩) ⟨0, 400, 0, 0⟩
      25 [] none) = true ∧
    filterCallOf (Rounded.renderCanvas roundDouble exHost (some ⟨200, 200⟩) ⟨0, 400, 0, 0⟩
      25 [] none) = none := by
  refine ⟨by decide!, by decide!, by decide!, by decide!, by decide!, by decide!, by decide!⟩

/-- Claim C17, amended. With `rnd` the rounding of the arithmetic (the program for
`roundDouble`, exact arithmetic for `JSNum.fin`), which keeps the order and fixes 0: for
a strength `s > 0` and a fitted rectangle of finite width `w ≥ 0` and height `h` on which
the `getImageData` call of line 64 does not throw, the renderer calls the filter with the
block size `max(1, floor(s * (w / 200)))`, the quotient and then the product rounded.
That is `max 1 ⌊s * w / 200⌋` when neither operation rounds. It is `+Infinity` (when the
product overflows) or an integer that is at least 1, with which the filter goes past its
guard into the loops; it is never zero or negative. And it does not decrease when `s` or
`w` grows. -/
theorem renderCanvas_blockSize (rnd : ℚ → JSNum) (hord : KeepsOrder rnd) (h0 : rnd 0 = .fin 0)
    (host : TextHost) (image : Image) (canvas : Canvas) (texts : List Label) (sel : Option ℕ)
    (s w h : ℚ) (x y scale : JSNum) (hs : 0 < s) (hw : 0 ≤ w)
    (hd : Rounded.getImageDimensions rnd (some image) (some canvas) =
      ⟨.fin w, .fin h, x, y, scale⟩)
    (hok : getImageData.throws x y (.fin w) (.fin h) = false) :
    (∃ r : Rendered,
      Rounded.renderCanvas rnd host (some image) canvas s texts sel = .ok r ∧
      r.filterCall = some ⟨.fin w, .fin h, blockSize rnd s w⟩) ∧
    (ExactAt rnd [w / 200, s * (w / 200)] →
      blockSize rnd s w = .fin ((max 1 ⌊s * w / 200⌋ : ℤ) : ℚ)) ∧
    (blockSize rnd s w = .posInf ∨
      ∃ k : ℤ, 1 ≤ k ∧ blockSize rnd s w = .fin (k : ℚ) ∧
        ∀ (data : List Byte) (W H : ℚ), ∃ hk : 0 < k,
          applyPixelation data W H k = applyPixelation.loopY W H k hk 0 data) ∧
    JSNum.le (blockSize rnd s w) (.fin 0) = false ∧
    (∀ s' w' : ℚ, s ≤ s' → w ≤ w' →
      JSNum.le (blockSize rnd s w) (blockSize rnd s' w') = true) := by
  have hcases := blockSize_cases rnd hord h0 s w hs hw
  refine ⟨?_, ?_, ?_, ?_, ?_⟩
  · refine ⟨⟨some ⟨.fin w, .fin h, blockSize rnd s w⟩,
      Rounded.renderCanvas.labels rnd host (some image) canvas texts sel⟩, ?_, rfl⟩
    simp only [Rounded.renderCanvas, hd, if_pos hs, hok, Bool.false_eq_true, if_false]
    rw [rounded_pixelSize_fin rnd s w _ rfl]
  · intro hex
    have e1 := hex (w / 200) (by simp)
    have e2 := hex (s * (w / 200)) (by simp)
    unfold blockSize
    rw [e1, JSNum.fin_mul_fin, JSNum.round_fin, e2]
    have e : s * (w / 200) = s * w / 200 := by ring
    simp only [JSNum.floor_fin, JSNum.max_fin_fin, cast_max_one, e]
  · rcases hcases with hinf | ⟨r, _, hr⟩
    · exact Or.inl hinf
    · refine Or.inr ⟨max 1 ⌊r⌋, le_max_left _ _, hr, ?_⟩
      intro data W H
      have hk : 0 < max 1 ⌊r⌋ := lt_of_lt_of_le (by norm_num) (le_max_left 1 ⌊r⌋)
      refine ⟨hk, ?_⟩
      unfold applyPixelation
      rw [dif_neg (by omega)]
  · rcases hcases with hinf | ⟨r, _, hr⟩
    · rw [hinf]
      rfl
    · rw [hr]
      simp only [JSNum.le, decide_eq_false_iff_not, not_le]
      have h1 : (1 : ℤ) ≤ max 1 ⌊r⌋ := le_max_left _ _
      have : (1 : ℚ) ≤ ((max 1 ⌊r⌋ : ℤ) : ℚ) := by exact_mod_cast h1
      linarith
  · intro s' w' hss hww
    exact blockSize_mono rnd hord h0 s w s' w' hs hw hss hww

/-- Instance of the amended C17 in double arithmetic: strength 25 on the 232-by-100 fit
of the counterexample; the block size passed is 28. -/
theorem renderCanvas_blockSize_witness :
    KeepsOrder roundDouble ∧ roundDouble 0 = .fin 0 ∧ (0 : ℚ) < 25 ∧ (0 : ℚ) ≤ 232 ∧
    Rounded.getImageDimensions roundDouble (some ⟨232, 100⟩) (some ⟨232, 100, 0, 0⟩) =
      ⟨.fin 232, .fin 100, .fin 0, .fin 0, .fin 1⟩ ∧
    getImageData.throws (.fin 0) (.fin 0) (.fin 232) (.fin 100) = false ∧
    (∃ r : Rendered,
      Rounded.renderCanvas roundDouble exHost (some ⟨232, 100⟩) ⟨232, 100, 0, 0⟩ 25 [exLabelA]
        none = .ok r ∧
      r.filterCall = some ⟨.fin 232, .fin 100, blockSize roundDouble 25 232⟩) ∧
    blockSize roundDouble 25 232 = .fin 28 :=
  ⟨roundDouble_keepsOrder, roundDouble_zero, by norm_num, by norm_num, by decide!, by decide!,
    (renderCanvas_blockSize roundDouble roundDouble_keepsOrder roundDouble_zero exHost
      ⟨232, 100⟩ ⟨232, 100, 0, 0⟩ [exLabelA] none 25 232 100 (.fin 0) (.fin 0) (.fin 1)
      (by norm_num) (by norm_num) (by decide!) (by decide!)).1,
    by decide!⟩

/-! A zero scale -/

theorem JSNum.round_notFinite (rnd : ℚ → JSNum) (a : JSNum) (ha : JSNum.NotFinite a) :
    JSNum.NotFinite (JSNum.round rnd a) := by
  intro q
  cases a with
  | fin x => exact absurd rfl (ha x)
  | posInf => simp [JSNum.round]
  | negInf => simp [JSNum.round]
  | nan => simp [JSNum.round]

/-- A division by zero never gives a finite number. -/
theorem JSNum.div_zero_notFinite (a : JSNum) : JSNum.NotFinite (a / JSNum.fin 0) := by
  cases a with
  | fin x => exact JSNum.fin_div_zero_notFinite x
  | posInf =>
    intro q
    show JSNum.div .posInf (.fin 0) ≠ .fin q
    simp [JSNum.div]
  | negInf =>
    intro q
    show JSNum.div .negInf (.fin 0) ≠ .fin q
    simp [JSNum.div]
  | nan =>
    intro q
    show JSNum.div .nan (.fin 0) ≠ .fin q
    simp [JSNum.div]

theorem JSNum.isFinite_iff (a : JSNum) : a.isFinite = true ↔ ∃ q : ℚ, a = .fin q := by
  cases a <;> simp [JSNum.isFinite]

/-- The test of lines 147-154 compares the position with the four bounds. -/
theorem rounded_hit_eq_bounds (rnd : ℚ → JSNum) (host : TextHost) (L : Label) (pos : JSPoint) :
    Rounded.handleMouseDown.hit rnd host L pos =
      (JSNum.ge pos.x (Rounded.handleMouseDown.bounds rnd host L).1 &&
       JSNum.le pos.x (Rounded.handleMouseDown.bounds rnd host L).2.1 &&
       JSNum.ge pos.y (Rounded.handleMouseDown.bounds rnd host L).2.2.1 &&
       JSNum.le pos.y (Rounded.handleMouseDown.bounds rnd host L).2.2.2) := rfl

/-- The test of the loop is false at a position whose `x` is not finite, for a label whose
bounds are finite. -/
theorem rounded_hit_of_notFinite (rnd : ℚ → JSNum) (host : TextHost) (L : Label)
    (pos : JSPoint) (hb : FiniteBounds rnd host L = true) (h : JSNum.NotFinite pos.x) :
    Rounded.handleMouseDown.hit rnd host L pos = false := by
  rw [rounded_hit_eq_bounds]
  simp only [FiniteBounds, Bool.and_eq_true] at hb
  obtain ⟨a, ha⟩ := (JSNum.isFinite_iff _).mp hb.1.1.1
  obtain ⟨b, hb2⟩ := (JSNum.isFinite_iff _).mp hb.1.1.2
  rw [ha, hb2]
  obtain ⟨px, py⟩ := pos
  cases px with
  | fin x => exact absurd rfl (h x)
  | posInf => simp [JSNum.ge, JSNum.le]
  | negInf => simp [JSNum.ge, JSNum.le]
  | nan => simp [JSNum.ge, JSNum.le]

/-- On a rectangle of width 0 the `getImageData` call throws. -/
theorem getImageData_throws_zero_width (sx sy sh : JSNum) :
    getImageData.throws sx sy (.fin 0) sh = true := by
  have hz : enforceRangeLong (.fin 0) = some 0 := by decide
  unfold getImageData.throws
  rw [hz]
  cases enforceRangeLong sx <;> cases enforceRangeLong sy <;> cases enforceRangeLong sh <;> simp

theorem JSNum.min_zero_left (b : JSNum)
    (hb : b = .posInf ∨ ∃ r : ℚ, 0 ≤ r ∧ b = .fin r) : JSNum.min (.fin 0) b = .fin 0 := by
  rcases hb with rfl | ⟨r, hr, rfl⟩
  · rfl
  · simp only [JSNum.min_fin_fin, min_eq_left hr]

theorem JSNum.min_zero_right (b : JSNum)
    (hb : b = .posInf ∨ ∃ r : ℚ, 0 ≤ r ∧ b = .fin r) : JSNum.min b (.fin 0) = .fin 0 := by
  rcases hb with rfl | ⟨r, hr, rfl⟩
  · rfl
  · simp only [JSNum.min_fin_fin, min_eq_right hr]

/-- The fit result of an image with positive sides on a surface with a zero side. -/
theorem rounded_getImageDimensions_zero_scale (rnd : ℚ → JSNum) (hord : KeepsOrder rnd)
    (h0 : rnd 0 = .fin 0) (imgW imgH surfW surfH rl rt : ℚ) (hW : 0 < imgW) (hH : 0 < imgH)
    (hsW : 0 ≤ surfW) (hsH : 0 ≤ surfH) (hz : surfW = 0 ∨ surfH = 0)
    (hex : ExactAt rnd [surfW, surfW / 2, surfH, surfH / 2]) :
    Rounded.getImageDimensions rnd (some ⟨imgW, imgH⟩) (some ⟨surfW, surfH, rl, rt⟩) =
      { width := .fin 0, height := .fin 0, x := .fin (surfW / 2), y := .fin (surfH / 2),
        scale := .fin 0 } := by
  have e1 := hex surfW (by simp)
  have e2 := hex (surfW / 2) (by simp)
  have e3 := hex surfH (by simp)
  have e4 := hex (surfH / 2) (by simp)
  have h1 := keepsOrder_nonneg rnd hord h0 (surfW / imgW) (div_nonneg hsW (le_of_lt hW))
  have h2 := keepsOrder_nonneg rnd hord h0 (surfH / imgH) (div_nonneg hsH (le_of_lt hH))
  have hmin : JSNum.min (rnd (surfW / imgW)) (rnd (surfH / imgH)) = .fin 0 := by
    rcases hz with h | h
    · rw [h, zero_div, h0]
      exact JSNum.min_zero_left _ h2
    · rw [h, zero_div, h0]
      exact JSNum.min_zero_right _ h1
  simp only [Rounded.getImageDimensions]
  rw [JSNum.fin_div_fin _ _ (ne_of_gt hW), JSNum.fin_div_fin _ _ (ne_of_gt hH)]
  simp only [JSNum.round_fin, hmin, JSNum.fin_mul_fin, mul_zero, h0, JSNum.fin_sub_fin,
    sub_zero, e1, e3, JSNum.fin_div_two, e2, e4]

/-- Claim C12 as stated fails. A 200-by-200 image on a surface of width 0 and height 400
has scale 0. With `pixelation = 0` the renderer still draws both labels of the list, at
the surface point `(0, 200)`; with `pixelation = 5` the render is left by the exception of
`getImageData`, not by a test of the scale. The conversion of the pointer position
`(5, 7)` divides by the zero scale, giving `(+Infinity, -Infinity)`. -/
theorem zero_scale_unguarded :
    (Rounded.getImageDimensions roundDouble (some ⟨200, 200⟩) (some ⟨0, 400, 0, 0⟩)).scale =
      .fin 0 ∧
    placementsOf (Rounded.renderCanvas roundDouble exHost (some ⟨200, 200⟩) ⟨0, 400, 0, 0⟩ 0
      [exLabelA, exLabelB] none) = some [(.fin 0, .fin 200), (.fin 0, .fin 200)] ∧
    threw (Rounded.renderCanvas roundDouble exHost (some ⟨200, 200⟩) ⟨0, 400, 0, 0⟩ 5
      [exLabelA, exLabelB] none) = true ∧
    Rounded.getRelativePos roundDouble (some ⟨200, 200⟩) ⟨0, 400, 0, 0⟩ ⟨5, 7⟩ =
      ⟨.posInf, .negInf⟩ := by
  refine ⟨by decide!, by decide!, by decide!, by decide!⟩

/-- Claim C12, amended. With `rnd` the rounding of the arithmetic (the program for
`roundDouble`, exact arithmetic for `JSNum.fin`), which keeps the order and fixes 0: for
an image with positive sides on a surface with one side zero and the other not negative,
the sides and their halves being representable, the scale is 0 and the offsets are
`(surfW / 2, surfH / 2)`. With `pixelation ≤ 0` the renderer then still draws every
label, each at the offset point; with `pixelation > 0` the `getImageData` call of line 64
throws and no label is drawn. The conversion of a pointer position divides by the zero
scale and yields coordinates that are not finite; so a pointer-down hits no label, the
bounds of the labels being finite, and a pointer-move during a drag reports a position
that is not finite. -/
theorem zero_scale_behaviour (rnd : ℚ → JSNum) (hord : KeepsOrder rnd) (h0 : rnd 0 = .fin 0)
    (host : TextHost) (imgW imgH surfW surfH rl rt : ℚ)
    (hW : 0 < imgW) (hH : 0 < imgH) (hsW : 0 ≤ surfW) (hsH : 0 ≤ surfH)
    (hz : surfW = 0 ∨ surfH = 0) (hex : ExactAt rnd [surfW, surfW / 2, surfH, surfH / 2])
    (pixelation : ℚ) (texts : List Label) (sel : Option ℕ) (st : DragState) (e : MouseEvent) :
    Rounded.getImageDimensions rnd (some ⟨imgW, imgH⟩) (some ⟨surfW, surfH, rl, rt⟩) =
      { width := .fin 0, height := .fin 0, x := .fin (surfW / 2), y := .fin (surfH / 2),
        scale := .fin 0 } ∧
    (pixelation ≤ 0 → ∃ r : Rendered,
      Rounded.renderCanvas rnd host (some ⟨imgW, imgH⟩) ⟨surfW, surfH, rl, rt⟩ pixelation
        texts sel = .ok r ∧
      r.labels.length = texts.length ∧
      ∀ d ∈ r.labels, d.canvasX = .fin (surfW / 2) ∧ d.canvasY = .fin (surfH / 2)) ∧
    (0 < pixelation →
      Rounded.renderCanvas rnd host (some ⟨imgW, imgH⟩) ⟨surfW, surfH, rl, rt⟩ pixelation
        texts sel = .error .getImageData) ∧
    JSNum.NotFinite
      (Rounded.getRelativePos rnd (some ⟨imgW, imgH⟩) ⟨surfW, surfH, rl, rt⟩ e).x ∧
    JSNum.NotFinite
      (Rounded.getRelativePos rnd (some ⟨imgW, imgH⟩) ⟨surfW, surfH, rl, rt⟩ e).y ∧
    ((∀ L ∈ texts, FiniteBounds rnd host L = true) →
      Rounded.handleMouseDown rnd ⟨host, some ⟨imgW, imgH⟩, ⟨surfW, surfH, rl, rt⟩, texts⟩ st e =
        (st, [])) ∧
    (st.isDragging = true → ∃ pos : JSPoint, JSNum.NotFinite pos.x ∧ JSNum.NotFinite pos.y ∧
      Rounded.handleMouseMove rnd ⟨host, some ⟨imgW, imgH⟩, ⟨surfW, surfH, rl, rt⟩, texts⟩
        st e = (st, [Notification.onTextChange st.dragTextId pos])) := by
  have hd := rounded_getImageDimensions_zero_scale rnd hord h0 imgW imgH surfW surfH rl rt
    hW hH hsW hsH hz hex
  have e2 := hex (surfW / 2) (by simp)
  have e4 := hex (surfH / 2) (by simp)
  have hx : JSNum.NotFinite
      (Rounded.getRelativePos rnd (some ⟨imgW, imgH⟩) ⟨surfW, surfH, rl, rt⟩ e).x := by
    simp only [Rounded.getRelativePos, Rounded.getRelativePos.ofDims, hd]
    exact JSNum.round_notFinite _ _ (JSNum.div_zero_notFinite _)
  have hy : JSNum.NotFinite
      (Rounded.getRelativePos rnd (some ⟨imgW, imgH⟩) ⟨surfW, surfH, rl, rt⟩ e).y := by
    simp only [Rounded.getRelativePos, Rounded.getRelativePos.ofDims, hd]
    exact JSNum.round_notFinite _ _ (JSNum.div_zero_notFinite _)
  refine ⟨hd, ?_, ?_, hx, hy, ?_, ?_⟩
  · intro hp
    refine ⟨⟨none, Rounded.renderCanvas.labels rnd host (some ⟨imgW, imgH⟩)
      ⟨surfW, surfH, rl, rt⟩ texts sel⟩, ?_, ?_, ?_⟩
    · simp only [Rounded.renderCanvas, if_neg (not_lt.mpr hp)]
    · simp [Rounded.renderCanvas.labels]
    · intro d hmem
      simp only [Rounded.renderCanvas.labels, List.mem_map] at hmem
      obtain ⟨text, _, rfl⟩ := hmem
      simp only [Rounded.renderCanvas.drawLabel, hd, JSNum.fin_mul_fin, JSNum.round_fin,
        mul_zero, h0, JSNum.fin_add_fin, add_zero, e2, e4, and_self]
  · intro hp
    simp only [Rounded.renderCanvas, hd, if_pos hp, getImageData_throws_zero_width, if_true]
  · intro hb
    exact rounded_handleMouseDown_of_loop_none rnd _ st e
      (rounded_loop_of_miss rnd _ _ _
        (fun j hj => rounded_hit_of_notFinite rnd _ _ _
          (hb _ (List.getElem_mem _)) hx) _ (Nat.le_refl _))
  · intro hdrag
    refine ⟨⟨JSNum.round rnd
        ((Rounded.getRelativePos rnd (some ⟨imgW, imgH⟩) ⟨surfW, surfH, rl, rt⟩ e).x -
          st.dragOffset.x),
      JSNum.round rnd
        ((Rounded.getRelativePos rnd (some ⟨imgW, imgH⟩) ⟨surfW, surfH, rl, rt⟩ e).y -
          st.dragOffset.y)⟩,
      JSNum.round_notFinite _ _ (JSNum.sub_notFinite _ _ hx),
      JSNum.round_notFinite _ _ (JSNum.sub_notFinite _ _ hy), ?_⟩
    simp [Rounded.handleMouseMove, hdrag]

/-- Instance of the amended C12 in double arithmetic: the surface of width 0 and height
400 of the counterexample, with `pixelation = 5`; the render throws and the pointer-down
changes nothing. -/
theorem zero_scale_behaviour_witness :
    KeepsOrder roundDouble ∧ roundDouble 0 = .fin 0 ∧
    (0 : ℚ) < 200 ∧ (0 : ℚ) ≤ 0 ∧ (0 : ℚ) ≤ 400 ∧ ((0 : ℚ) = 0 ∨ (400 : ℚ) = 0) ∧
    ExactAt roundDouble [0, 0 / 2, 400, 400 / 2] ∧
    FiniteBounds roundDouble exHost exLabelA = true ∧
    FiniteBounds roundDouble exHost exLabelB = true ∧
    Rounded.renderCanvas roundDouble exHost (some ⟨200, 200⟩) ⟨0, 400, 0, 0⟩ 5
      [exLabelA, exLabelB] none = .error .getImageData ∧
    Rounded.handleMouseDown roundDouble
      ⟨exHost, some ⟨200, 200⟩, ⟨0, 400, 0, 0⟩, [exLabelA, exLabelB]⟩
      DragState.initial ⟨5, 7⟩ = (DragState.initial, []) := by
  have hA : FiniteBounds roundDouble exHost exLabelA = true := by decide!
  have hB : FiniteBounds roundDouble exHost exLabelB = true := by decide!
  have hex : ExactAt roundDouble [0, 0 / 2, 400, 400 / 2] := by decide!
  obtain ⟨_, _, hthrow, _, _, h, _⟩ :=
    zero_scale_behaviour roundDouble roundDouble_keepsOrder roundDouble_zero exHost
      200 200 0 400 0 0 (by norm_num) (by norm_num) (by norm_num) (by norm_num) (Or.inl rfl)
      hex 5 [exLabelA, exLabelB] none DragState.initial ⟨5, 7⟩
  refine ⟨roundDouble_keepsOrder, roundDouble_zero, by norm_num, by norm_num, by norm_num,
    Or.inl rfl, hex, hA, hB, hthrow (by norm_num), h ?_⟩
  intro L hL
  simp only [List.mem_cons, List.mem_singleton, List.not_mem_nil, or_false] at hL
  rcases hL with rfl | rfl
  · exact hA
  · exact hB

/-! A click on the drawn outline -/

/-- The failing input of C15 end to end, in double arithmetic: with `exLabelC` selected on
the 200-by-200 image in the 400-by-400 canvas at `(10, 20)`, the client point `(315, 220)`
is the surface point `(305, 200)` of the dashed outline, and a pointer-down there selects
nothing. -/
theorem outline_click_misses :
    Rounded.getRelativePos roundDouble (exProps [exLabelC]).image (exProps [exLabelC]).canvas
      ⟨315, 220⟩ = ⟨.fin (305 / 2), .fin 100⟩ ∧
    Rounded.handleMouseDown roundDouble (exProps [exLabelC]) DragState.initial ⟨315, 220⟩ =
      (DragState.initial, []) := by
  refine ⟨by decide!, by decide!⟩

end CanvasEditor
